import Mathlib

/-!
# MachineLearningDemo: the point generation and classification engine

A shallow embedding of `controller.cpp` / `drawingarea.cpp`.

Modelling conventions
* C++ `int` is `Int` (no value in the modelled paths leaves the 32-bit range:
  coordinates lie in `[-300, 300]`, counters are bounded by list lengths); the
  conversion of a `double` to `int` is `Double.toInt`.
* A C++ `double` that the program reads or stores is a real number; the result
  of an operation is a `Double`, which also has the infinities and NaN.
* The numeric core is embedded twice. `gaussProbability`, `isPointOutsideArea`,
  `generateCoordinate` and `sampleCoordinate` compute on the real numbers
  without rounding; only the division by a zero `2 * sigma * sigma` follows
  IEEE 754. They carry the statements about the structure of the computation:
  which candidates can be drawn, what a finished run has stored, which area
  classifies a point, how the comparison with the threshold decides, what the
  sign of sigma changes; an exponential named in such a statement is the exact
  one. `gaussProbability64`, `isPointOutsideArea64`,
  `generateCoordinate64` and `sampleCoordinate64` deliver the result of every
  operation in binary64: rounded to nearest, ties to even, with subnormal
  numbers, overflow to an infinity, and NaN. The statements about the value of a
  density, about the acceptance of a given draw and about the region that is
  not outside are statements about them. The library function `exp` is taken
  as correctly rounded. The footprint radius is computed in binary64 as well.
* `QVector` is `List`.
* `QRandomGenerator::global()` is a tape of raw entropy words with a read
  position; the two library calls used by the program are given by their
  documented ranges.
* `QMessageBox` calls are recorded as a list of `Dialog` values returned by
  the slot that shows them.
* `QApplication::processEvents()` is a no-op: no user event is dispatched
  while a generation run is in progress (single caller).
* The points file is the text it holds; `QString::number`, `QString::split`,
  `QString::toInt` and `QTextStream::readLine` are given by their documented
  behaviour on lists of characters.
* The settings file is an input of `loadSettings` (its array entries as key
  lookups) and is not part of the state that `saveSettings` changes.
-/

namespace MLDemo

/-! ## Data model (`drawingarea.h`, `controller.h`) -/

/-- Symbol types that can be drawn (`enum class SymbolType`). -/
inductive SymbolType where
  | Cross
  | Plus
  | Star
  | Unnamed (code : Int)
  deriving DecidableEq, Repr

/-- The conversion `static_cast<SymbolType>(code)`: the enumerators are numbered
0, 1, 2; every other `int` is a value of the type without a name. -/
def SymbolType.ofInt (code : Int) : SymbolType :=
  if code = 0 then SymbolType.Cross
  else if code = 1 then SymbolType.Plus
  else if code = 2 then SymbolType.Star
  else SymbolType.Unnamed code

/-- An RGBA colour value; `valid = false` is a default-constructed `QColor`. -/
structure QColor where
  valid : Bool
  red : Nat
  green : Nat
  blue : Nat
  alpha : Nat
  deriving DecidableEq, Repr

/-- The default-constructed (invalid) colour. -/
def QColor.invalid : QColor := ⟨false, 0, 0, 0, 255⟩

/-- The colour `Qt::black`. -/
def Qt.black : QColor := ⟨true, 0, 0, 0, 255⟩

/-- The colour `Qt::blue`. -/
def Qt.blue : QColor := ⟨true, 0, 0, 255, 255⟩

/-- The record `struct AreaDefinition` of `controller.h`. -/
structure AreaDefinition where
  areaNumber : Int
  centerX : ℝ
  centerY : ℝ
  sigmaX : ℝ
  sigmaY : ℝ
  symbolType : SymbolType
  color : QColor

/-- The record `struct PointDataSave` of `controller.h`. -/
structure PointDataSave where
  x : Int
  y : Int
  areaNumber : Int
  deriving DecidableEq, Repr

/-- The record `struct PointData` of `drawingarea.h` (`logicalPos` split in two). -/
structure PointData where
  logicalX : Int
  logicalY : Int
  color : QColor
  symbolType : SymbolType
  hasCircle : Bool
  circleColor : QColor
  deriving DecidableEq, Repr

/-- The record `struct AreaCircle` of `drawingarea.h` (`center` split in two). -/
structure AreaCircle where
  centerX : Int
  centerY : Int
  radius : Int
  color : QColor
  deriving DecidableEq, Repr

/-- The data members of `class DrawingArea` that the controller can change. -/
structure DrawingArea where
  points : List PointData
  areaCircles : List AreaCircle
  deriving DecidableEq, Repr

/-- The method `DrawingArea::clearPoints`. -/
def DrawingArea.clearPoints (d : DrawingArea) : DrawingArea :=
  { d with points := [] }

/-- The method `DrawingArea::clearAreaCircles`. -/
def DrawingArea.clearAreaCircles (d : DrawingArea) : DrawingArea :=
  { d with areaCircles := [] }

/-- The method `DrawingArea::addPoint`; `circleColor` stays default-constructed. -/
def DrawingArea.addPoint (d : DrawingArea) (logicalX logicalY : Int) (color : QColor)
    (symbol : SymbolType) : DrawingArea :=
  { d with points := d.points ++ [⟨logicalX, logicalY, color, symbol, false, QColor.invalid⟩] }

/-- The method `DrawingArea::addPointWithCircle`. -/
def DrawingArea.addPointWithCircle (d : DrawingArea) (logicalX logicalY : Int)
    (pointColor : QColor) (symbol : SymbolType) (circleColor : QColor) : DrawingArea :=
  { d with points := d.points ++ [⟨logicalX, logicalY, pointColor, symbol, true, circleColor⟩] }

/-- The method `DrawingArea::addAreaCircle`. -/
def DrawingArea.addAreaCircle (d : DrawingArea) (logicalX logicalY radius : Int)
    (color : QColor) : DrawingArea :=
  { d with areaCircles := d.areaCircles ++ [⟨logicalX, logicalY, radius, color⟩] }

/-- Truncation of a real number toward zero. -/
noncomputable def truncToInt (v : ℝ) : Int :=
  if 0 ≤ v then ⌊v⌋ else ⌈v⌉

/-- A message box shown to the user. -/
inductive Dialog where
  | warning (title text : String)
  | information (title text : String)
  deriving DecidableEq, Repr

/-- The state of `class Controller`: its data members, and the points file
on disk (`none` when the file does not exist). -/
structure Controller where
  drawingArea : Option DrawingArea
  areaDefinitions : List AreaDefinition
  generatedPoints : List PointDataSave
  pointsFile : Option String
  pointsFileWritable : Bool

/-! ## Values of type `double` -/

/-- The result of `double` arithmetic: a real number, an infinity, or NaN. -/
inductive Double where
  | finite (value : ℝ)
  | posInf
  | negInf
  | nan

/-- Division of two finite values; the divisor zero is `+0`, as is every
`2 * sigma * sigma` that is zero. -/
noncomputable def Double.div (a b : ℝ) : Double :=
  if b = 0 then
    if a = 0 then Double.nan else if a < 0 then Double.negInf else Double.posInf
  else Double.finite (a / b)

/-- The library function `exp`. -/
noncomputable def Double.exp : Double → Double
  | Double.finite v => Double.finite (Real.exp v)
  | Double.posInf => Double.posInf
  | Double.negInf => Double.finite 0
  | Double.nan => Double.nan

/-- An infinity times a finite value. -/
noncomputable def Double.scaleInf (positive : Bool) (v : ℝ) : Double :=
  if v = 0 then Double.nan
  else if (0 < v) = (positive = true) then Double.posInf else Double.negInf

/-- Multiplication. -/
noncomputable def Double.mul : Double → Double → Double
  | Double.finite a, Double.finite b => Double.finite (a * b)
  | Double.nan, _ => Double.nan
  | _, Double.nan => Double.nan
  | Double.finite a, Double.posInf => Double.scaleInf true a
  | Double.finite a, Double.negInf => Double.scaleInf false a
  | Double.posInf, Double.finite b => Double.scaleInf true b
  | Double.negInf, Double.finite b => Double.scaleInf false b
  | Double.posInf, Double.posInf => Double.posInf
  | Double.posInf, Double.negInf => Double.negInf
  | Double.negInf, Double.posInf => Double.negInf
  | Double.negInf, Double.negInf => Double.posInf

/-- The comparison `a < b`: false as soon as one side is NaN. -/
noncomputable def Double.lt : Double → Double → Bool
  | Double.finite a, Double.finite b => decide (a < b)
  | Double.finite _, Double.posInf => true
  | Double.finite _, Double.negInf => false
  | Double.finite _, Double.nan => false
  | Double.posInf, _ => false
  | Double.negInf, Double.finite _ => true
  | Double.negInf, Double.posInf => true
  | Double.negInf, Double.negInf => false
  | Double.negInf, Double.nan => false
  | Double.nan, _ => false

/-! ## Binary64 arithmetic -/

/-- Rounding of a real number to an integer, a tie going to the even one. -/
noncomputable def roundHalfEven (y : ℝ) : Int :=
  if y - ⌊y⌋ < 1 / 2 then ⌊y⌋
  else if 1 / 2 < y - ⌊y⌋ then ⌊y⌋ + 1
  else if ⌊y⌋ % 2 = 0 then ⌊y⌋ else ⌊y⌋ + 1

/-- The exponent of the binade of `x`, not below that of the subnormal numbers. -/
noncomputable def binadeExponent (x : ℝ) : Int :=
  if x = 0 then -1022 else max (Int.log 2 |x|) (-1022)

/-- The spacing of the binary64 numbers around `x` (53-bit significand). -/
noncomputable def ulp (x : ℝ) : ℝ := (2 : ℝ) ^ (binadeExponent x - 52)

/-- The multiple of `ulp x` nearest to `x`, a tie going to the even multiple. -/
noncomputable def roundToGrid (x : ℝ) : ℝ := (roundHalfEven (x / ulp x) : ℝ) * ulp x

/-- A real result delivered as a `double`: the nearest binary64 number, a tie
going to the even significand; a result that rounds to magnitude `2^1024` or
more is an infinity. -/
noncomputable def round64 (x : ℝ) : Double :=
  if (2 : ℝ) ^ (1024 : ℤ) ≤ roundToGrid x then Double.posInf
  else if roundToGrid x ≤ -(2 : ℝ) ^ (1024 : ℤ) then Double.negInf
  else Double.finite (roundToGrid x)

/-- A real number that is a binary64 number: rounding leaves it as it is. -/
def IsBinary64 (x : ℝ) : Prop := round64 x = Double.finite x

/-- The unary minus. -/
noncomputable def Double.neg : Double → Double
  | Double.finite v => Double.finite (-v)
  | Double.posInf => Double.negInf
  | Double.negInf => Double.posInf
  | Double.nan => Double.nan

/-- The binary64 product: the exact product of two finite values is rounded. -/
noncomputable def Double.mul64 : Double → Double → Double
  | Double.finite a, Double.finite b => round64 (a * b)
  | a, b => Double.mul a b

/-- The binary64 quotient: the exact quotient of two finite values is rounded;
a zero divisor is `+0`, as is every `2 * sigma * sigma` that is zero. -/
noncomputable def Double.div64 : Double → Double → Double
  | Double.finite a, Double.finite b =>
    if b = 0 then
      if a = 0 then Double.nan else if a < 0 then Double.negInf else Double.posInf
    else round64 (a / b)
  | Double.finite _, Double.posInf => Double.finite 0
  | Double.finite _, Double.negInf => Double.finite 0
  | Double.posInf, Double.finite b => if 0 ≤ b then Double.posInf else Double.negInf
  | Double.negInf, Double.finite b => if 0 ≤ b then Double.negInf else Double.posInf
  | Double.posInf, Double.posInf => Double.nan
  | Double.posInf, Double.negInf => Double.nan
  | Double.negInf, Double.posInf => Double.nan
  | Double.negInf, Double.negInf => Double.nan
  | Double.nan, _ => Double.nan
  | _, Double.nan => Double.nan

/-- The library function `exp` with a binary64 result: the exponential of a
finite argument, rounded. -/
noncomputable def Double.exp64 : Double → Double
  | Double.finite v => round64 (Real.exp v)
  | Double.posInf => Double.posInf
  | Double.negInf => Double.finite 0
  | Double.nan => Double.nan

/-- The conversion of a `double` to `int` (`static_cast<int>`, and the implicit
conversion of a `double` argument to an `int` parameter): truncation toward
zero. C++ defines the conversion only when the truncated value is an `int`; for
every other value, an infinity or NaN, the result here is the smallest `int`,
which is what the conversion instruction of x86-64 delivers, and the statements
about a converted value assume the range. -/
noncomputable def Double.toInt : Double → Int
  | Double.finite v =>
    if -2147483648 ≤ truncToInt v ∧ truncToInt v ≤ 2147483647 then truncToInt v
    else -2147483648
  | _ => -2147483648

/-! ## The Gaussian density and the classifier -/

/-- The function `Controller::gaussProbability`. -/
noncomputable def gaussProbability (x center sigma : ℝ) : Double :=
  let exponent := Double.div (-((x - center) * (x - center))) (2 * sigma * sigma)
  Double.exp exponent

/-- The function `Controller::isPointOutsideArea`. -/
noncomputable def isPointOutsideArea (point : PointDataSave) (area : AreaDefinition) : Bool :=
  let threshold : Double := Double.finite 0.05
  let probX := gaussProbability point.x area.centerX area.sigmaX
  let probY := gaussProbability point.y area.centerY area.sigmaY
  let probability := Double.mul probX probY
  Double.lt probability threshold

/-- The subexpression `2 * sigma * sigma` of `gaussProbability` in binary64:
two rounded products. -/
noncomputable def denominator64 (sigma : ℝ) : Double :=
  Double.mul64 (Double.mul64 (Double.finite 2) (Double.finite sigma)) (Double.finite sigma)

/-- The function `Controller::gaussProbability` in binary64: the difference,
the square, the two products of the denominator, the quotient and the
exponential are each rounded. -/
noncomputable def gaussProbability64 (x center sigma : ℝ) : Double :=
  let difference := round64 (x - center)
  let exponent :=
    Double.div64 (Double.neg (Double.mul64 difference difference)) (denominator64 sigma)
  Double.exp64 exponent

/-- The function `Controller::isPointOutsideArea` in binary64: the threshold
is the `double` nearest to 0.05 and the product of the densities is rounded. -/
noncomputable def isPointOutsideArea64 (point : PointDataSave) (area : AreaDefinition) : Bool :=
  let threshold : Double := round64 0.05
  let probX := gaussProbability64 point.x area.centerX area.sigmaX
  let probY := gaussProbability64 point.y area.centerY area.sigmaY
  let probability := Double.mul64 probX probY
  Double.lt probability threshold

/-! ## The random generator and the sampler -/

/-- The generator `QRandomGenerator::global()`: a tape of raw entropy words
and the position of the next unread word. -/
structure QRandomGenerator where
  tape : Nat → Nat
  pos : Nat

/-- The library call `rng->bounded(lowest, highest)`: consumes one word and
returns an integer in `[lowest, highest)` (documented contract of Qt). -/
def QRandomGenerator.bounded (rng : QRandomGenerator) (lowest highest : Int) :
    Int × QRandomGenerator :=
  (lowest + ((rng.tape rng.pos : Int) % (highest - lowest)), { rng with pos := rng.pos + 1 })

/-- The library call `rng->generateDouble()`: consumes one word and returns
53 random bits scaled into `[0, 1)` (documented contract of Qt). -/
noncomputable def QRandomGenerator.generateDouble (rng : QRandomGenerator) :
    ℝ × QRandomGenerator :=
  (((rng.tape rng.pos % 2 ^ 53 : Nat) : ℝ) / 2 ^ 53, { rng with pos := rng.pos + 1 })

/-- The result of one call of `Controller::generateCoordinate`: the returned
flag, the value left in the out-parameter `coordinate`, and the generator. -/
structure CoordinateAttempt where
  accepted : Bool
  coordinate : Int
  rng : QRandomGenerator

/-- The function `Controller::generateCoordinate`. -/
noncomputable def generateCoordinate (center sigma : ℝ) (rng : QRandomGenerator) :
    CoordinateAttempt :=
  let (coordinate, rng1) := rng.bounded (-300) 301
  let probability := gaussProbability coordinate center sigma
  let (randomProb, rng2) := rng1.generateDouble
  ⟨Double.lt (Double.finite randomProb) probability, coordinate, rng2⟩

/-- The retry loop `while (!generateCoordinate(center, sigma, c)) { }` of
`generatePointsAccordingToSpecification`, run for at most `fuel` attempts;
`none` when no attempt within the fuel is accepted. -/
noncomputable def sampleCoordinate (center sigma : ℝ) :
    Nat → QRandomGenerator → Option (Int × QRandomGenerator)
  | 0, _ => none
  | fuel + 1, rng =>
    let attempt := generateCoordinate center sigma rng
    if attempt.accepted then some (attempt.coordinate, attempt.rng)
    else sampleCoordinate center sigma fuel attempt.rng

/-- The function `Controller::generateCoordinate` in binary64. -/
noncomputable def generateCoordinate64 (center sigma : ℝ) (rng : QRandomGenerator) :
    CoordinateAttempt :=
  let (coordinate, rng1) := rng.bounded (-300) 301
  let probability := gaussProbability64 coordinate center sigma
  let (randomProb, rng2) := rng1.generateDouble
  ⟨Double.lt (Double.finite randomProb) probability, coordinate, rng2⟩

/-- The retry loop `while (!generateCoordinate(center, sigma, c)) { }` in
binary64, run for at most `fuel` attempts; `none` when no attempt within the
fuel is accepted. -/
noncomputable def sampleCoordinate64 (center sigma : ℝ) :
    Nat → QRandomGenerator → Option (Int × QRandomGenerator)
  | 0, _ => none
  | fuel + 1, rng =>
    let attempt := generateCoordinate64 center sigma rng
    if attempt.accepted then some (attempt.coordinate, attempt.rng)
    else sampleCoordinate64 center sigma fuel attempt.rng

/-! ## The controller -/

/-- The loop state of a generation run: the drawing area, the stored points
and the generator. -/
structure GenState where
  drawingArea : DrawingArea
  generatedPoints : List PointDataSave
  rng : QRandomGenerator

/-- The function `Controller::redrawAreaCircles`, on an attached drawing area. -/
noncomputable def redrawAreaCirclesOn (areaDefinitions : List AreaDefinition)
    (d : DrawingArea) : DrawingArea :=
  areaDefinitions.foldl
    (fun acc areaDef =>
      let radius :=
        max (Double.toInt (Double.mul64 (Double.finite areaDef.sigmaX) (Double.finite 3)))
          (Double.toInt (Double.mul64 (Double.finite areaDef.sigmaY) (Double.finite 3)))
      acc.addAreaCircle (Double.toInt (Double.finite areaDef.centerX))
        (Double.toInt (Double.finite areaDef.centerY)) radius areaDef.color)
    d.clearAreaCircles

/-- The function `Controller::redrawAreaCircles`. -/
noncomputable def redrawAreaCircles (s : Controller) : Controller :=
  match s.drawingArea with
  | none => s
  | some d => { s with drawingArea := some (redrawAreaCirclesOn s.areaDefinitions d) }

/-- The inner loop `for (int i = 0; i < pointsForArea; i++)` of
`generatePointsAccordingToSpecification`, entered with `i = pointsForArea - remaining`:
each pass samples x, then y, appends the point and draws it (the call of
`processEvents` every 100 passes changes nothing). -/
noncomputable def generatePointsForArea (area : AreaDefinition) (fuel : Nat) :
    Nat → GenState → Option GenState
  | 0, st => some st
  | remaining + 1, st =>
    match sampleCoordinate area.centerX area.sigmaX fuel st.rng with
    | none => none
    | some (x, rng1) =>
      match sampleCoordinate area.centerY area.sigmaY fuel rng1 with
      | none => none
      | some (y, rng2) =>
        let point : PointDataSave := ⟨x, y, area.areaNumber⟩
        generatePointsForArea area fuel remaining
          ⟨st.drawingArea.addPoint x y area.color area.symbolType,
            st.generatedPoints ++ [point], rng2⟩

/-- The outer loop `for (int areaIndex = 0; areaIndex < areaDefinitions.size(); areaIndex++)`
of `generatePointsAccordingToSpecification`, entered at `areaIndex` with the
areas from that index on. -/
noncomputable def generateAreas (pointsPerArea remainingPoints : Nat) (fuel : Nat) :
    Nat → List AreaDefinition → GenState → Option GenState
  | _, [], st => some st
  | areaIndex, area :: rest, st =>
    let pointsForArea := if areaIndex < remainingPoints then pointsPerArea + 1 else pointsPerArea
    match generatePointsForArea area fuel pointsForArea st with
    | none => none
    | some st1 => generateAreas pointsPerArea remainingPoints fuel (areaIndex + 1) rest st1

/-- The part of `Controller::generatePointsAccordingToSpecification` after
its two guards, with the local constant `totalPoints` as a parameter. -/
noncomputable def generateTotal (totalPoints : Nat) (areaDefinitions : List AreaDefinition)
    (fuel : Nat) (d : DrawingArea) (rng : QRandomGenerator) : Option GenState :=
  let d1 := redrawAreaCirclesOn areaDefinitions d.clearPoints
  let pointsPerArea := totalPoints / areaDefinitions.length
  let remainingPoints := totalPoints % areaDefinitions.length
  generateAreas pointsPerArea remainingPoints fuel 0 areaDefinitions ⟨d1, [], rng⟩

/-- The function `Controller::generatePointsAccordingToSpecification`; `none`
when a retry loop is not left within `fuel` attempts. -/
noncomputable def generatePointsAccordingToSpecification (s : Controller)
    (rng : QRandomGenerator) (fuel : Nat) :
    Option (Controller × QRandomGenerator × List Dialog) :=
  if s.areaDefinitions.length = 0 then
    some (s, rng, [Dialog.warning "No Areas Defined"
      "Please define at least one area before generating points."])
  else
    match s.drawingArea with
    | none => some (s, rng, [])
    | some d =>
      match generateTotal 10000 s.areaDefinitions fuel d rng with
      | none => none
      | some st =>
        some ({ s with drawingArea := some st.drawingArea,
                       generatedPoints := st.generatedPoints }, st.rng, [])

/-- One line of the points file. -/
def pointLine (point : PointDataSave) : String :=
  toString point.x ++ ";" ++ toString point.y ++ ";" ++ toString point.areaNumber ++ "\n"

/-- The function `Controller::savePoints`. -/
def savePoints (s : Controller) : Controller :=
  if s.pointsFileWritable then
    let header := "x;y;AreaNumber\n"
    let text := s.generatedPoints.foldl (fun acc point => acc ++ pointLine point) header
    { s with pointsFile := some text }
  else s

/-- The text of the message shown by `onGeneratePoints`. -/
def pointsGeneratedText (count : Nat) : String :=
  "Generated and saved " ++ toString count ++
    " points.\nPoints are distributed across all defined areas."

/-- The slot `Controller::onGeneratePoints`. -/
noncomputable def onGeneratePoints (s : Controller) (rng : QRandomGenerator) (fuel : Nat) :
    Option (Controller × QRandomGenerator × List Dialog) :=
  match s.drawingArea with
  | none => some (s, rng, [])
  | some _ =>
    match generatePointsAccordingToSpecification s rng fuel with
    | none => none
    | some (s1, rng1, dialogs) =>
      let s2 := savePoints s1
      some (s2, rng1, dialogs ++ [Dialog.information "Points Generated"
        (pointsGeneratedText s2.generatedPoints.length)])

/-- The search loop of `onMarkOutsidePoints` for one point: the locals
`found`, `isOutside`, `color`, `symbol` after the loop over the areas has
ended or has been left by `break`. -/
noncomputable def findAreaOfPoint (point : PointDataSave) :
    List AreaDefinition → Bool × Bool × QColor × SymbolType
  | [] => (false, false, Qt.black, SymbolType.Cross)
  | area :: rest =>
    if area.areaNumber = point.areaNumber then
      (true, isPointOutsideArea point area, area.color, area.symbolType)
    else findAreaOfPoint point rest

/-- The body of the loop over the points in `onMarkOutsidePoints`: draws one
point and updates `outsideCount`. -/
noncomputable def markPoint (areaDefinitions : List AreaDefinition)
    (acc : DrawingArea × Nat) (point : PointDataSave) : DrawingArea × Nat :=
  let (found, isOutside, color, symbol) := findAreaOfPoint point areaDefinitions
  if found && isOutside then
    (acc.1.addPointWithCircle point.x point.y color symbol color, acc.2 + 1)
  else
    (acc.1.addPoint point.x point.y color symbol, acc.2)

/-- The text of the message shown by `onMarkOutsidePoints`. -/
def outsideMarkedText (outsideCount total : Nat) : String :=
  "Found " ++ toString outsideCount ++ " points outside their assigned areas (from " ++
    toString total ++ " total points)."

/-- The slot `Controller::onMarkOutsidePoints`. -/
noncomputable def onMarkOutsidePoints (s : Controller) : Controller × List Dialog :=
  if s.areaDefinitions.isEmpty then
    (s, [Dialog.warning "No Areas Defined"
      "Please define at least one area before marking outside points."])
  else if s.generatedPoints.isEmpty then
    (s, [Dialog.warning "No Points"
      "No points to analyze. Please generate or load points first."])
  else
    match s.drawingArea with
    | none => (s, [])
    | some d =>
      let d1 := redrawAreaCirclesOn s.areaDefinitions d.clearPoints
      let (d2, outsideCount) := s.generatedPoints.foldl (markPoint s.areaDefinitions) (d1, 0)
      ({ s with drawingArea := some d2 },
        [Dialog.information "Outside Points Marked"
          (outsideMarkedText outsideCount s.generatedPoints.length)])

/-! ## The area list and the settings store -/

/-- The function `Controller::saveSettings`: it writes the settings file, which
is not part of the modelled state. -/
def saveSettings (s : Controller) : Controller := s

/-- The function `Controller::addAreaDefinition`. -/
noncomputable def addAreaDefinition (s : Controller) (area : AreaDefinition) : Controller :=
  let s1 := { s with areaDefinitions := s.areaDefinitions ++ [area] }
  let s2 :=
    match s1.drawingArea with
    | none => s1
    | some d =>
      let radius :=
        max (Double.toInt (Double.mul64 (Double.finite area.sigmaX) (Double.finite 3)))
          (Double.toInt (Double.mul64 (Double.finite area.sigmaY) (Double.finite 3)))
      { s1 with drawingArea :=
                  some (d.addAreaCircle (Double.toInt (Double.finite area.centerX))
                    (Double.toInt (Double.finite area.centerY)) radius area.color) }
  saveSettings s2

/-- The function `Controller::updateAreaDefinition`. -/
noncomputable def updateAreaDefinition (s : Controller) (row : Int) (area : AreaDefinition) :
    Controller :=
  if 0 ≤ row ∧ row < s.areaDefinitions.length then
    let s1 := { s with areaDefinitions := s.areaDefinitions.set row.toNat area }
    saveSettings (redrawAreaCircles s1)
  else s

/-- The function `Controller::removeAreaDefinition`. -/
noncomputable def removeAreaDefinition (s : Controller) (row : Int) : Controller :=
  if 0 ≤ row ∧ row < s.areaDefinitions.length then
    let s1 := { s with areaDefinitions := s.areaDefinitions.eraseIdx row.toNat }
    saveSettings (redrawAreaCircles s1)
  else s

/-- The function `Controller::getAreaDefinitionsCount`. -/
def getAreaDefinitionsCount (s : Controller) : Int := s.areaDefinitions.length

/-- The record that `getAreaDefinition` returns for a row out of bounds. -/
noncomputable def defaultArea : AreaDefinition :=
  { areaNumber := 0, centerX := 0, centerY := 0, sigmaX := 50, sigmaY := 50,
    symbolType := SymbolType.Plus, color := Qt.blue }

/-- The function `Controller::getAreaDefinition`. -/
noncomputable def getAreaDefinition (s : Controller) (row : Int) : AreaDefinition :=
  if 0 ≤ row ∧ row < s.areaDefinitions.length then
    (s.areaDefinitions[row.toNat]?).getD defaultArea
  else defaultArea

/-- A value of the settings store, seen through the three conversions that the
program applies to stored values. -/
structure QVariant where
  toInt : Int
  toDouble : ℝ
  toColor : QColor

/-- The value that `settings.value(key)` returns for a key that is absent:
its conversions give 0, 0.0 and the default-constructed colour. -/
noncomputable def QVariant.invalid : QVariant := ⟨0, 0, QColor.invalid⟩

/-- One entry of the array `AreaDefinitions` of the settings store: the value
stored under each key, `none` for a key that the entry does not have. -/
abbrev SettingsRecord := String → Option QVariant

/-- The call `settings.contains(key)` inside an array entry. -/
def SettingsRecord.contains (record : SettingsRecord) (key : String) : Bool :=
  (record key).isSome

/-- The call `settings.value(key)` inside an array entry. -/
noncomputable def SettingsRecord.value (record : SettingsRecord) (key : String) : QVariant :=
  (record key).getD QVariant.invalid

/-- The body of the loop of `Controller::loadSettings`: the area read from one
array entry. -/
noncomputable def loadArea (record : SettingsRecord) : AreaDefinition :=
  let areaNumber := (record.value "AreaNumber").toInt
  let centerX :=
    if record.contains "CenterX" then (record.value "CenterX").toDouble
    else (record.value "MeanX").toDouble
  let centerY :=
    if record.contains "CenterY" then (record.value "CenterY").toDouble
    else (record.value "MeanY").toDouble
  let sigmaX := (record.value "SigmaX").toDouble
  let sigmaY := (record.value "SigmaY").toDouble
  let symbolType :=
    if record.contains "SymbolType" then SymbolType.ofInt (record.value "SymbolType").toInt
    else SymbolType.Plus
  let color := (record.value "Color").toColor
  { areaNumber := areaNumber, centerX := centerX, centerY := centerY, sigmaX := sigmaX,
    sigmaY := sigmaY, symbolType := symbolType, color := color }

/-- The function `Controller::loadSettings`, reading the array entries `store`
of the settings file in index order. -/
noncomputable def loadSettings (store : List SettingsRecord) (s : Controller) : Controller :=
  store.foldl
    (fun acc record => { acc with areaDefinitions := acc.areaDefinitions ++ [loadArea record] })
    { s with areaDefinitions := [] }

/-! ## Redrawing the stored points -/

/-- The search loop of `redrawPoints` for one point: the locals `color` and
`symbol` after the loop over the areas has ended or has been left by `break`. -/
def findAttributes (point : PointDataSave) : List AreaDefinition → QColor × SymbolType
  | [] => (Qt.black, SymbolType.Cross)
  | area :: rest =>
    if area.areaNumber = point.areaNumber then (area.color, area.symbolType)
    else findAttributes point rest

/-- The function `Controller::redrawPoints`. -/
def redrawPoints (s : Controller) : Controller :=
  match s.drawingArea with
  | none => s
  | some d =>
    let d1 := s.generatedPoints.foldl
      (fun acc point =>
        let attributes := findAttributes point s.areaDefinitions
        acc.addPoint point.x point.y attributes.1 attributes.2)
      d.clearPoints
    { s with drawingArea := some d1 }

/-! ## Reading the points file -/

/-- The library call `QChar::isSpace`. -/
def QChar.isSpace (c : Char) : Bool :=
  c.toNat = 0x20 || (0x09 ≤ c.toNat && c.toNat ≤ 0x0d) || c.toNat = 0x85 || c.toNat = 0xa0 ||
    c.toNat = 0x1680 || (0x2000 ≤ c.toNat && c.toNat ≤ 0x200a) || c.toNat = 0x2028 ||
    c.toNat = 0x2029 || c.toNat = 0x202f || c.toNat = 0x205f || c.toNat = 0x3000

/-- The number written by a string of decimal digits. -/
def digitsValue (digits : List Char) : Nat :=
  digits.foldl (fun acc c => acc * 10 + (c.toNat - 48)) 0

/-- The library call `QString::toInt()`: white space around the text is
ignored; an optional sign followed by decimal digits that denote a value of
type `int` gives that value; everything else gives 0. -/
def QString.toInt (text : List Char) : Int :=
  let trimmed := ((text.dropWhile QChar.isSpace).reverse.dropWhile QChar.isSpace).reverse
  let negative := trimmed.head? = some '-'
  let digits := if trimmed.head? = some '-' ∨ trimmed.head? = some '+' then trimmed.tail
    else trimmed
  if digits = [] then 0
  else if digits.all Char.isDigit then
    let value : Int := if negative then -(digitsValue digits : Int) else (digitsValue digits : Int)
    if -2147483648 ≤ value ∧ value ≤ 2147483647 then value else 0
  else 0

/-- The library call `QString::split(sep)`: the parts between the separators,
empty parts included. -/
def QString.split (sep : Char) : List Char → List (List Char)
  | [] => [[]]
  | c :: rest =>
    if c = sep then [] :: QString.split sep rest
    else
      match QString.split sep rest with
      | [] => [[c]]
      | part :: parts => (c :: part) :: parts

/-- The text cut at every line feed; a line feed at the very end starts no
further line. -/
def rawLines : List Char → List (List Char)
  | [] => []
  | c :: rest =>
    if c = '\n' then [] :: rawLines rest
    else
      match rawLines rest with
      | [] => [[c]]
      | line :: lines => (c :: line) :: lines

/-- A line without the carriage return that ends it. -/
def stripCarriageReturn (line : List Char) : List Char :=
  if line.getLast? = some '\r' then line.dropLast else line

/-- The lines that successive calls of `QTextStream::readLine` return until
`atEnd` holds. -/
def readLines (text : List Char) : List (List Char) :=
  (rawLines text).map stripCarriageReturn

/-- The body of the reading loop of `loadPoints` for one line. -/
def loadPointLine (points : List PointDataSave) (line : List Char) : List PointDataSave :=
  let parts := QString.split ';' line
  if 3 ≤ parts.length then
    points ++ [⟨QString.toInt (parts.getD 0 []), QString.toInt (parts.getD 1 []),
      QString.toInt (parts.getD 2 [])⟩]
  else points

/-- The function `Controller::loadPoints`; a file that does not exist or
cannot be opened is `none`. -/
def loadPoints (s : Controller) : Controller :=
  let s0 := { s with generatedPoints := [] }
  match s.pointsFile with
  | none => s0
  | some text =>
    let lines := readLines text.toList
    let s1 := { s0 with generatedPoints := (lines.drop 1).foldl loadPointLine [] }
    redrawPoints s1

/-- A value of the C++ type `int`. -/
def IsInt (v : Int) : Prop := -2147483648 ≤ v ∧ v ≤ 2147483647

/-! ## Vocabulary for the statements -/

/-- The attempt that reads the tape at position `pos` is accepted. -/
def AcceptedAt (center sigma : ℝ) (tape : Nat → Nat) (pos : Nat) : Prop :=
  (generateCoordinate center sigma ⟨tape, pos⟩).accepted = true

/-- Every retry loop that a generation run over `areas` can start on this
tape, from whatever position, meets an accepted attempt. -/
def EventuallyAccepting (tape : Nat → Nat) (areas : List AreaDefinition) : Prop :=
  ∀ area ∈ areas, ∀ pos,
    (∃ k, AcceptedAt area.centerX area.sigmaX tape (pos + 2 * k)) ∧
    (∃ k, AcceptedAt area.centerY area.sigmaY tape (pos + 2 * k))

/-- The number of points that the area at `areaIndex` receives when
`totalPoints` points are shared among `count` areas. -/
def pointsForArea (totalPoints count areaIndex : Nat) : Nat :=
  if areaIndex < totalPoints % count then totalPoints / count + 1 else totalPoints / count

/-- A coordinate of the logical coordinate space. -/
def InDomain (v : Int) : Prop := -300 ≤ v ∧ v ≤ 300

/-- The list `points` is the concatenation, in the order of `areas`, of one
block per area: the block of the area at index `i` has
`pointsForArea totalPoints areas.length i` records, and every record of that
block carries the `areaNumber` of that area. -/
def GroupedByArea (totalPoints : Nat) (areas : List AreaDefinition)
    (points : List PointDataSave) : Prop :=
  ∃ blocks : List (List PointDataSave),
    points = blocks.flatten ∧ blocks.length = areas.length ∧
    ∀ (i : Nat) (ha : i < areas.length) (hb : i < blocks.length),
      blocks[i].length = pointsForArea totalPoints areas.length i ∧
      ∀ p ∈ blocks[i], p.areaNumber = areas[i].areaNumber

/-- The area of the first example scenario: number 1, center (0, 0), sigmas 50. -/
noncomputable def exampleArea : AreaDefinition :=
  ⟨1, 0, 0, 50, 50, SymbolType.Plus, Qt.blue⟩

/-- A controller with a drawing area attached, the example area defined and
one point left from an earlier batch. -/
noncomputable def exampleController : Controller :=
  ⟨some ⟨[], []⟩, [exampleArea], [⟨7, -7, 9⟩], none, true⟩

/-- A generator whose tape repeats the word 300: every attempt draws the
candidate 0 and the uniform value `300 / 2 ^ 53`. -/
def acceptingRng : QRandomGenerator := ⟨fun _ => 300, 0⟩

/-- The classification rule in the words of the specification: the first area
in list order whose number equals the point's number exists and classifies the
point as outside. -/
noncomputable def firstAreaClassifiesOutside (areas : List AreaDefinition)
    (point : PointDataSave) : Bool :=
  match areas.find? (fun a => decide (a.areaNumber = point.areaNumber)) with
  | some area => isPointOutsideArea point area
  | none => false

/-- The rendering attributes of a point in the words of the specification:
colour and symbol of the first area with the point's number, black and Cross
when there is none. -/
def firstAreaAttributes (areas : List AreaDefinition) (point : PointDataSave) :
    QColor × SymbolType :=
  match areas.find? (fun a => decide (a.areaNumber = point.areaNumber)) with
  | some area => (area.color, area.symbolType)
  | none => (Qt.black, SymbolType.Cross)

/-- The point that batch classification draws for a stored point: ringed in
the area colour when `outside`, plain otherwise. -/
def classifiedPoint (areas : List AreaDefinition) (point : PointDataSave)
    (outside : Bool) : PointData :=
  let attributes := firstAreaAttributes areas point
  if outside then ⟨point.x, point.y, attributes.1, attributes.2, true, attributes.1⟩
  else ⟨point.x, point.y, attributes.1, attributes.2, false, QColor.invalid⟩

/-- A controller with the example area and three stored points: one at the
center of area 1, one in the far corner of the domain for area 1, and one whose
area number 2 belongs to no area. -/
noncomputable def classifyController : Controller :=
  ⟨some ⟨[], []⟩, [exampleArea], [⟨0, 0, 1⟩, ⟨300, 300, 1⟩, ⟨0, 0, 2⟩], none, true⟩

/-- The circle that the controller hands to the drawing area for an area:
the center converted to `int`, and the larger of the two rounded products
`sigma * 3` converted to `int`. -/
noncomputable def footprintCircle (area : AreaDefinition) : AreaCircle :=
  ⟨Double.toInt (Double.finite area.centerX), Double.toInt (Double.finite area.centerY),
    max (Double.toInt (Double.mul64 (Double.finite area.sigmaX) (Double.finite 3)))
      (Double.toInt (Double.mul64 (Double.finite area.sigmaY) (Double.finite 3))),
    area.color⟩

/-- An area with both sigmas one half, so that three sigma is 1.5. -/
noncomputable def halfSigmaArea : AreaDefinition :=
  ⟨1, 0, 0, 0.5, 0.5, SymbolType.Plus, Qt.blue⟩

/-- A controller with an empty drawing area attached and nothing stored. -/
def emptyController : Controller := ⟨some ⟨[], []⟩, [], [], none, true⟩

/-- A generator whose first attempt draws the candidate 1 and the uniform
value 0. -/
def candidateOneRng : QRandomGenerator := ⟨fun i => if i = 0 then 301 else 0, 0⟩

/-- A settings entry written with the legacy keys: `MeanX`, `MeanY`, no
`CenterX`, `CenterY` or `SymbolType`. -/
noncomputable def legacyRecord : SettingsRecord := fun key =>
  if key = "AreaNumber" then some ⟨3, 3, QColor.invalid⟩
  else if key = "MeanX" then some ⟨12, 12.5, QColor.invalid⟩
  else if key = "MeanY" then some ⟨-7, -7.25, QColor.invalid⟩
  else if key = "SigmaX" then some ⟨30, 30, QColor.invalid⟩
  else if key = "SigmaY" then some ⟨40, 40, QColor.invalid⟩
  else if key = "Color" then some ⟨0, 0, Qt.blue⟩
  else none

/-- A text that `toInt` converts: between white space, an optional sign and at
least one decimal digit, denoting a value of type `int`. -/
def isIntegerText (text : List Char) : Bool :=
  let trimmed := ((text.dropWhile QChar.isSpace).reverse.dropWhile QChar.isSpace).reverse
  let digits := if trimmed.head? = some '-' ∨ trimmed.head? = some '+' then trimmed.tail
    else trimmed
  let value : Int :=
    if trimmed.head? = some '-' then -(digitsValue digits : Int) else (digitsValue digits : Int)
  !digits.isEmpty && digits.all Char.isDigit &&
    decide (-2147483648 ≤ value ∧ value ≤ 2147483647)

/-- The record that the reading loop makes of a line: the first three fields
converted with `toInt`. -/
def recordOfLine (line : List Char) : PointDataSave :=
  ⟨QString.toInt ((QString.split ';' line).getD 0 []),
    QString.toInt ((QString.split ';' line).getD 1 []),
    QString.toInt ((QString.split ';' line).getD 2 [])⟩

/-- An area at the origin with both sigmas 41/64 (0.640625, a binary64
number), so that three sigma is 1.921875. -/
noncomputable def narrowArea : AreaDefinition :=
  ⟨1, 0, 0, 41 / 64, 41 / 64, SymbolType.Plus, Qt.blue⟩

/-- The binary64 attempt that starts at position `pos` of the tape is accepted. -/
def AcceptedAt64 (center sigma : ℝ) (tape : Nat → Nat) (pos : Nat) : Prop :=
  (generateCoordinate64 center sigma ⟨tape, pos⟩).accepted = true

/-- The generator whose first attempt draws the candidate `c` of the domain
and the uniform value 0. -/
def candidateRng (c : Int) : QRandomGenerator :=
  ⟨fun i => if i = 0 then (c + 300).toNat else 0, 0⟩

/-- The exponent of `gaussProbability` in binary64, as a real number: the
rounded quotient of the rounded square by the rounded denominator (the value of
the exponent when the denominator is not zero and nothing overflows). -/
noncomputable def exponent64 (x center sigma : ℝ) : ℝ :=
  roundToGrid (-(roundToGrid (roundToGrid (x - center) * roundToGrid (x - center))) /
    roundToGrid (roundToGrid (2 * sigma) * sigma))

/-- The density of `gaussProbability` in binary64, as a real number: the
rounded exponential of `exponent64`. -/
noncomputable def density64 (x center sigma : ℝ) : ℝ :=
  roundToGrid (Real.exp (exponent64 x center sigma))

/-- The arguments of `gaussProbability` are of moderate size: the distance from
the center is at most `2^100`, and sigma lies between `2^-100` and `2^100` in
magnitude. -/
def WellScaled (x center sigma : ℝ) : Prop :=
  |x - center| ≤ (2 : ℝ) ^ (100 : ℤ) ∧ (2 : ℝ) ^ (-100 : ℤ) ≤ |sigma| ∧
    |sigma| ≤ (2 : ℝ) ^ (100 : ℤ)

/-- An area at the origin whose sigmas are the binary64 number `2^-600`. -/
noncomputable def tinySigmaArea : AreaDefinition :=
  ⟨1, 0, 0, (2 : ℝ) ^ (-600 : ℤ), (2 : ℝ) ^ (-600 : ℤ), SymbolType.Plus, Qt.blue⟩

/-- An area at the origin whose sigmas are the binary64 number nearest to one
third (the value of the literal `0.3333333333333333`). -/
noncomputable def thirdSigmaArea : AreaDefinition :=
  ⟨1, 0, 0, 6004799503160661 / 18014398509481984, 6004799503160661 / 18014398509481984,
    SymbolType.Plus, Qt.blue⟩

/-! ## The density and the classifier: properties -/

/-- For a non-zero sigma the division is an ordinary one and the density is a
real number. -/
theorem gaussProbability_of_ne_zero (x center sigma : ℝ) (hs : sigma ≠ 0) :
    gaussProbability x center sigma =
      Double.finite (Real.exp (-((x - center) * (x - center)) / (2 * sigma * sigma))) := by
  have hden : 2 * sigma * sigma ≠ 0 := mul_ne_zero (mul_ne_zero two_ne_zero hs) hs
  simp only [gaussProbability, Double.div, hden, if_false, Double.exp]

/-- For sigma zero the exponent is NaN at the center and minus infinity
elsewhere, so the density is NaN at the center and zero elsewhere. -/
theorem gaussProbability_sigma_zero (x center : ℝ) :
    gaussProbability x center 0 = if x = center then Double.nan else Double.finite 0 := by
  by_cases h : x = center
  · simp [gaussProbability, Double.div, Double.exp, h]
  · have hsub : x - center ≠ 0 := sub_ne_zero.mpr h
    have hneg : -((x - center) * (x - center)) < 0 := by
      have := mul_self_pos.mpr hsub
      linarith
    simp [gaussProbability, Double.div, Double.exp, h, hsub, hneg]

/-- The density for a positive sigma, as a function of the scaled distance. -/
theorem gaussProbability_eq_exp_sq (x center sigma : ℝ) (hs : 0 < sigma) :
    gaussProbability x center sigma =
      Double.finite (Real.exp (-((|x - center| / sigma) ^ 2) / 2)) := by
  have hne : sigma ≠ 0 := ne_of_gt hs
  rw [gaussProbability_of_ne_zero x center sigma hne]
  congr 2
  rw [div_pow, sq_abs]
  field_simp
  ring

/-- The call `bounded(lowest, highest)` returns a value in `[lowest, highest)`. -/
theorem bounded_range (rng : QRandomGenerator) (lowest highest : Int) (h : lowest < highest) :
    lowest ≤ (rng.bounded lowest highest).1 ∧ (rng.bounded lowest highest).1 < highest := by
  have hpos : 0 < highest - lowest := by omega
  have h0 := Int.emod_nonneg (rng.tape rng.pos : Int) (ne_of_gt hpos)
  have h1 := Int.emod_lt_of_pos (rng.tape rng.pos : Int) hpos
  simp only [QRandomGenerator.bounded]
  constructor <;> omega

/-- The call `generateDouble()` returns a value in `[0, 1)`. -/
theorem generateDouble_range (rng : QRandomGenerator) :
    0 ≤ rng.generateDouble.1 ∧ rng.generateDouble.1 < 1 := by
  simp only [QRandomGenerator.generateDouble]
  constructor
  · positivity
  · rw [div_lt_one (by positivity)]
    have h : rng.tape rng.pos % 2 ^ 53 < 2 ^ 53 := Nat.mod_lt _ (by positivity)
    exact_mod_cast h

/-- One attempt reads two words of the tape. -/
theorem generateCoordinate_rng (center sigma : ℝ) (rng : QRandomGenerator) :
    (generateCoordinate center sigma rng).rng = ⟨rng.tape, rng.pos + 2⟩ := by
  simp [generateCoordinate, QRandomGenerator.bounded, QRandomGenerator.generateDouble]

/-- The candidate of an attempt lies in the domain, accepted or not. -/
theorem generateCoordinate_inDomain (center sigma : ℝ) (rng : QRandomGenerator) :
    InDomain (generateCoordinate center sigma rng).coordinate := by
  have h := bounded_range rng (-300) 301 (by norm_num)
  simp only [generateCoordinate, InDomain]
  constructor <;> omega

/-- A coordinate returned by the retry loop lies in the domain; the loop keeps
the tape. -/
theorem sampleCoordinate_some (center sigma : ℝ) (fuel : Nat) (rng : QRandomGenerator)
    (x : Int) (rng1 : QRandomGenerator)
    (h : sampleCoordinate center sigma fuel rng = some (x, rng1)) :
    InDomain x ∧ rng1.tape = rng.tape := by
  induction fuel generalizing rng with
  | zero => simp [sampleCoordinate] at h
  | succ fuel ih =>
    simp only [sampleCoordinate] at h
    split at h
    · simp only [Option.some.injEq, Prod.mk.injEq] at h
      rw [← h.1, ← h.2, generateCoordinate_rng]
      exact ⟨generateCoordinate_inDomain center sigma rng, rfl⟩
    · have := ih _ h
      rw [generateCoordinate_rng] at this
      exact this

/-- More fuel does not change what the retry loop returns. -/
theorem sampleCoordinate_mono (center sigma : ℝ) (fuel extra : Nat) (rng : QRandomGenerator)
    (r : Int × QRandomGenerator) (h : sampleCoordinate center sigma fuel rng = some r) :
    sampleCoordinate center sigma (fuel + extra) rng = some r := by
  induction fuel generalizing rng with
  | zero => simp [sampleCoordinate] at h
  | succ fuel ih =>
    rw [Nat.add_right_comm]
    simp only [sampleCoordinate] at h ⊢
    split
    · rename_i hacc
      simpa [hacc] using h
    · rename_i hacc
      simp only [hacc] at h
      exact ih _ h

/-- The loop started at `pos` ends at the first accepted attempt: when attempt
`k` is accepted and none before it, any fuel above `k` returns its coordinate. -/
theorem sampleCoordinate_first_accepted (center sigma : ℝ) (tape : Nat → Nat) (k : Nat) :
    ∀ (pos fuel : Nat), k < fuel → AcceptedAt center sigma tape (pos + 2 * k) →
      (∀ j, j < k → ¬ AcceptedAt center sigma tape (pos + 2 * j)) →
      sampleCoordinate center sigma fuel ⟨tape, pos⟩ =
        some ((generateCoordinate center sigma ⟨tape, pos + 2 * k⟩).coordinate,
          ⟨tape, pos + 2 * k + 2⟩) := by
  induction k with
  | zero =>
    intro pos fuel hf hacc _
    obtain ⟨f, rfl⟩ : ∃ f, fuel = f + 1 := ⟨fuel - 1, by omega⟩
    simp only [AcceptedAt, Nat.mul_zero, Nat.add_zero] at hacc
    simp [sampleCoordinate, hacc, generateCoordinate_rng]
  | succ k ih =>
    intro pos fuel hf hacc hnot
    obtain ⟨f, rfl⟩ : ∃ f, fuel = f + 1 := ⟨fuel - 1, by omega⟩
    have h0 : ¬ AcceptedAt center sigma tape pos := by
      have := hnot 0 (by omega)
      simpa using this
    simp only [AcceptedAt] at h0
    simp only [sampleCoordinate, h0, generateCoordinate_rng]
    have hacc1 : AcceptedAt center sigma tape (pos + 2 + 2 * k) := by
      have e : pos + 2 + 2 * k = pos + 2 * (k + 1) := by ring
      rw [e]; exact hacc
    have hnot1 : ∀ j, j < k → ¬ AcceptedAt center sigma tape (pos + 2 + 2 * j) := by
      intro j hj
      have e : pos + 2 + 2 * j = pos + 2 * (j + 1) := by ring
      rw [e]; exact hnot (j + 1) (by omega)
    have := ih (pos + 2) f (by omega) hacc1 hnot1
    simp only [Bool.false_eq_true, if_false]
    rw [this]
    have e : pos + 2 + 2 * k = pos + 2 * (k + 1) := by ring
    rw [e]

/-- A loop that meets an accepted attempt is left with enough fuel. -/
theorem sampleCoordinate_exists (center sigma : ℝ) (tape : Nat → Nat) (pos : Nat)
    (h : ∃ k, AcceptedAt center sigma tape (pos + 2 * k)) :
    ∃ fuel r, sampleCoordinate center sigma fuel ⟨tape, pos⟩ = some r := by
  classical
  have hmin := Nat.find_spec h
  have hlt := fun j (hj : j < Nat.find h) => Nat.find_min h hj
  exact ⟨Nat.find h + 1, _,
    sampleCoordinate_first_accepted center sigma tape (Nat.find h) pos (Nat.find h + 1)
      (by omega) hmin hlt⟩

/-- A loop that is left met an accepted attempt. -/
theorem sampleCoordinate_accepted_of_some (center sigma : ℝ) (tape : Nat → Nat) (fuel : Nat) :
    ∀ (pos : Nat) (r : Int × QRandomGenerator),
      sampleCoordinate center sigma fuel ⟨tape, pos⟩ = some r →
      ∃ k, AcceptedAt center sigma tape (pos + 2 * k) := by
  induction fuel with
  | zero => intro pos r h; simp [sampleCoordinate] at h
  | succ fuel ih =>
    intro pos r h
    simp only [sampleCoordinate] at h
    split at h
    · rename_i hacc
      exact ⟨0, by simpa [AcceptedAt] using hacc⟩
    · rw [generateCoordinate_rng] at h
      obtain ⟨k, hk⟩ := ih (pos + 2) r h
      refine ⟨k + 1, ?_⟩
      have e : pos + 2 * (k + 1) = pos + 2 + 2 * k := by ring
      rw [e]; exact hk

/-- On the tape that repeats the word 300, every attempt for center 0 and a
non-zero sigma draws the candidate 0 and is accepted. -/
theorem accepting_tape_attempt (sigma : ℝ) (hs : sigma ≠ 0) (pos : Nat) :
    AcceptedAt 0 sigma (fun _ => 300) pos := by
  simp only [AcceptedAt, generateCoordinate, QRandomGenerator.bounded,
    QRandomGenerator.generateDouble, gaussProbability_of_ne_zero _ _ sigma hs, Double.lt,
    decide_eq_true_eq]
  norm_num

/-! ## The generation loops: what a finished run has produced -/

/-- The inner loop appends exactly `count` points of the area, all inside the
domain, and keeps the tape. -/
theorem generatePointsForArea_some (area : AreaDefinition) (fuel count : Nat) :
    ∀ (st st1 : GenState), generatePointsForArea area fuel count st = some st1 →
      ∃ block : List PointDataSave,
        st1.generatedPoints = st.generatedPoints ++ block ∧ block.length = count ∧
        (∀ p ∈ block, p.areaNumber = area.areaNumber ∧ InDomain p.x ∧ InDomain p.y) ∧
        st1.rng.tape = st.rng.tape := by
  induction count with
  | zero =>
    intro st st1 h
    simp only [generatePointsForArea, Option.some.injEq] at h
    subst h
    exact ⟨[], by simp, rfl, by simp, rfl⟩
  | succ count ih =>
    intro st st1 h
    simp only [generatePointsForArea] at h
    split at h
    · exact absurd h (by simp)
    · rename_i x rng1 hx
      split at h
      · exact absurd h (by simp)
      · rename_i y rng2 hy
        obtain ⟨hxd, hxt⟩ := sampleCoordinate_some _ _ _ _ _ _ hx
        obtain ⟨hyd, hyt⟩ := sampleCoordinate_some _ _ _ _ _ _ hy
        obtain ⟨block, hb, hl, hp, ht⟩ := ih _ _ h
        refine ⟨⟨x, y, area.areaNumber⟩ :: block, ?_, by simp [hl], ?_, ?_⟩
        · rw [hb]; simp
        · intro p hp1
          rcases List.mem_cons.mp hp1 with rfl | hp2
          · exact ⟨rfl, hxd, hyd⟩
          · exact hp p hp2
        · rw [ht]; simp only; rw [hyt, hxt]

/-- The outer loop appends one block per area, in list order; the block of
the area at offset `i` has one point more than `pointsPerArea` exactly when
`areaIndex + i < remainingPoints`. -/
theorem generateAreas_some (pointsPerArea remainingPoints fuel : Nat)
    (areas : List AreaDefinition) :
    ∀ (areaIndex : Nat) (st st1 : GenState),
      generateAreas pointsPerArea remainingPoints fuel areaIndex areas st = some st1 →
      ∃ blocks : List (List PointDataSave),
        st1.generatedPoints = st.generatedPoints ++ blocks.flatten ∧
        blocks.length = areas.length ∧
        (∀ (i : Nat) (ha : i < areas.length) (hb : i < blocks.length),
          blocks[i].length =
            (if areaIndex + i < remainingPoints then pointsPerArea + 1 else pointsPerArea) ∧
          ∀ p ∈ blocks[i], p.areaNumber = areas[i].areaNumber ∧ InDomain p.x ∧ InDomain p.y) ∧
        st1.rng.tape = st.rng.tape := by
  induction areas with
  | nil =>
    intro areaIndex st st1 h
    simp only [generateAreas, Option.some.injEq] at h
    subst h
    exact ⟨[], by simp, rfl, fun i ha => absurd ha (by simp), rfl⟩
  | cons area rest ih =>
    intro areaIndex st st1 h
    simp only [generateAreas] at h
    split at h
    · exact absurd h (by simp)
    · rename_i st2 h2
      obtain ⟨block, hb, hl, hp, ht⟩ := generatePointsForArea_some _ _ _ _ _ h2
      obtain ⟨blocks, hbs, hls, hps, hts⟩ := ih _ _ _ h
      refine ⟨block :: blocks, ?_, by simp [hls], ?_, by rw [hts, ht]⟩
      · rw [hbs, hb]; simp
      · intro i ha hb1
        cases i with
        | zero =>
          simp only [List.getElem_cons_zero, Nat.add_zero]
          exact ⟨hl, hp⟩
        | succ i =>
          simp only [List.getElem_cons_succ]
          have hi := hps i (by simpa using ha) (by simpa using hb1)
          have e : areaIndex + 1 + i = areaIndex + (i + 1) := by ring
          rw [e] at hi
          exact hi

/-! ## The generation loops: a run finishes when its retry loops do -/

/-- More fuel does not change what the inner loop returns. -/
theorem generatePointsForArea_mono (area : AreaDefinition) (fuel extra count : Nat) :
    ∀ (st st1 : GenState), generatePointsForArea area fuel count st = some st1 →
      generatePointsForArea area (fuel + extra) count st = some st1 := by
  induction count with
  | zero => intro st st1 h; simpa [generatePointsForArea] using h
  | succ count ih =>
    intro st st1 h
    simp only [generatePointsForArea] at h ⊢
    split at h
    · exact absurd h (by simp)
    · rename_i x rng1 hx
      split at h
      · exact absurd h (by simp)
      · rename_i y rng2 hy
        rw [sampleCoordinate_mono _ _ _ extra _ _ hx]
        simp only
        rw [sampleCoordinate_mono _ _ _ extra _ _ hy]
        exact ih _ _ h

/-- More fuel does not change what the outer loop returns. -/
theorem generateAreas_mono (pointsPerArea remainingPoints fuel extra : Nat)
    (areas : List AreaDefinition) :
    ∀ (areaIndex : Nat) (st st1 : GenState),
      generateAreas pointsPerArea remainingPoints fuel areaIndex areas st = some st1 →
      generateAreas pointsPerArea remainingPoints (fuel + extra) areaIndex areas st =
        some st1 := by
  induction areas with
  | nil => intro areaIndex st st1 h; simpa [generateAreas] using h
  | cons area rest ih =>
    intro areaIndex st st1 h
    simp only [generateAreas] at h ⊢
    split at h
    · exact absurd h (by simp)
    · rename_i st2 h2
      rw [generatePointsForArea_mono _ _ extra _ _ _ h2]
      exact ih _ _ _ h

/-- The inner loop finishes with enough fuel when both retry loops of the
area meet an accepted attempt from every position. -/
theorem generatePointsForArea_exists (area : AreaDefinition) (tape : Nat → Nat)
    (hx : ∀ pos, ∃ k, AcceptedAt area.centerX area.sigmaX tape (pos + 2 * k))
    (hy : ∀ pos, ∃ k, AcceptedAt area.centerY area.sigmaY tape (pos + 2 * k))
    (count : Nat) :
    ∀ (st : GenState), st.rng.tape = tape →
      ∃ fuel st1, generatePointsForArea area fuel count st = some st1 := by
  induction count with
  | zero => intro st _; exact ⟨0, st, rfl⟩
  | succ count ih =>
    intro st ht
    obtain ⟨f1, ⟨x, rng1⟩, h1⟩ := sampleCoordinate_exists _ _ tape st.rng.pos (hx st.rng.pos)
    have e1 : (⟨tape, st.rng.pos⟩ : QRandomGenerator) = st.rng := by rw [← ht]
    rw [e1] at h1
    have ht1 : rng1.tape = tape := by
      rw [(sampleCoordinate_some _ _ _ _ _ _ h1).2, ht]
    obtain ⟨f2, ⟨y, rng2⟩, h2⟩ := sampleCoordinate_exists _ _ tape rng1.pos (hy rng1.pos)
    have e2 : (⟨tape, rng1.pos⟩ : QRandomGenerator) = rng1 := by rw [← ht1]
    rw [e2] at h2
    have ht2 : rng2.tape = tape := by
      rw [(sampleCoordinate_some _ _ _ _ _ _ h2).2, ht1]
    obtain ⟨f3, st1, h3⟩ := ih
      ⟨st.drawingArea.addPoint x y area.color area.symbolType,
        st.generatedPoints ++ [⟨x, y, area.areaNumber⟩], rng2⟩ ht2
    refine ⟨f1 + f2 + f3, st1, ?_⟩
    simp only [generatePointsForArea]
    have a1 : f1 + f2 + f3 = f1 + (f2 + f3) := by ring
    have a2 : f1 + f2 + f3 = f2 + (f1 + f3) := by ring
    have a3 : f1 + f2 + f3 = f3 + (f1 + f2) := by ring
    rw [show sampleCoordinate area.centerX area.sigmaX (f1 + f2 + f3) st.rng = some (x, rng1)
      from a1 ▸ sampleCoordinate_mono _ _ _ (f2 + f3) _ _ h1]
    simp only
    rw [show sampleCoordinate area.centerY area.sigmaY (f1 + f2 + f3) rng1 = some (y, rng2)
      from a2 ▸ sampleCoordinate_mono _ _ _ (f1 + f3) _ _ h2]
    simp only
    rw [a3]
    exact generatePointsForArea_mono _ _ (f1 + f2) _ _ _ h3

/-- The outer loop finishes with enough fuel on an eventually accepting tape. -/
theorem generateAreas_exists (pointsPerArea remainingPoints : Nat) (tape : Nat → Nat)
    (areas : List AreaDefinition) (hfair : EventuallyAccepting tape areas) :
    ∀ (areaIndex : Nat) (st : GenState), st.rng.tape = tape →
      ∃ fuel st1,
        generateAreas pointsPerArea remainingPoints fuel areaIndex areas st = some st1 := by
  induction areas with
  | nil => intro areaIndex st _; exact ⟨0, st, rfl⟩
  | cons area rest ih =>
    intro areaIndex st ht
    have hx := fun pos => (hfair area (List.mem_cons_self _ _) pos).1
    have hy := fun pos => (hfair area (List.mem_cons_self _ _) pos).2
    obtain ⟨f1, st2, h1⟩ := generatePointsForArea_exists area tape hx hy
      (if areaIndex < remainingPoints then pointsPerArea + 1 else pointsPerArea) st ht
    have ht2 : st2.rng.tape = tape := by
      obtain ⟨_, _, _, _, h⟩ := generatePointsForArea_some _ _ _ _ _ h1
      rw [h, ht]
    have hrest : EventuallyAccepting tape rest :=
      fun a ha => hfair a (List.mem_cons_of_mem _ ha)
    obtain ⟨f2, st1, h2⟩ := ih hrest (areaIndex + 1) st2 ht2
    refine ⟨f1 + f2, st1, ?_⟩
    simp only [generateAreas]
    rw [generatePointsForArea_mono _ _ f2 _ _ _ h1]
    simp only
    rw [Nat.add_comm f1 f2]
    exact generateAreas_mono _ _ _ f1 _ _ _ _ h2

/-- The example tape is eventually accepting for the example area. -/
theorem acceptingRng_eventuallyAccepting :
    EventuallyAccepting acceptingRng.tape exampleController.areaDefinitions := by
  intro area ha pos
  simp only [exampleController, List.mem_singleton] at ha
  subst ha
  exact ⟨⟨0, accepting_tape_attempt _ (by norm_num [exampleArea]) _⟩, ⟨0, accepting_tape_attempt _ (by norm_num [exampleArea]) _⟩⟩

/-- The outer loop adds `areas.length * pointsPerArea` points plus one for each
area whose index is below `remainingPoints`. -/
theorem generateAreas_length (pointsPerArea remainingPoints fuel : Nat)
    (areas : List AreaDefinition) :
    ∀ (areaIndex : Nat) (st st1 : GenState),
      generateAreas pointsPerArea remainingPoints fuel areaIndex areas st = some st1 →
      st1.generatedPoints.length + min remainingPoints areaIndex =
        st.generatedPoints.length + areas.length * pointsPerArea +
          min remainingPoints (areaIndex + areas.length) := by
  induction areas with
  | nil =>
    intro areaIndex st st1 h
    simp only [generateAreas, Option.some.injEq] at h
    subst h
    simp
  | cons area rest ih =>
    intro areaIndex st st1 h
    simp only [generateAreas] at h
    split at h
    · exact absurd h (by simp)
    · rename_i st2 h2
      obtain ⟨block, hb, hl, _, _⟩ := generatePointsForArea_some _ _ _ _ _ h2
      have h3 := ih _ _ _ h
      rw [hb, List.length_append, hl] at h3
      simp only [List.length_cons, Nat.add_mul, Nat.one_mul]
      split at h3 <;> omega

/-- What `generateTotal` returns: the points are grouped by area, there are
`totalPoints` of them, and all lie in the domain. -/
theorem generateTotal_some (totalPoints : Nat) (areas : List AreaDefinition)
    (hne : areas ≠ []) (fuel : Nat) (d : DrawingArea) (rng : QRandomGenerator)
    (st : GenState) (h : generateTotal totalPoints areas fuel d rng = some st) :
    GroupedByArea totalPoints areas st.generatedPoints ∧
    st.generatedPoints.length = totalPoints ∧
    (∀ p ∈ st.generatedPoints, InDomain p.x ∧ InDomain p.y) := by
  simp only [generateTotal] at h
  have hpos : 0 < areas.length := List.length_pos.mpr hne
  obtain ⟨blocks, hb, hl, hp, _⟩ := generateAreas_some _ _ _ _ _ _ _ h
  have hlen := generateAreas_length _ _ _ _ _ _ _ h
  simp only [List.nil_append] at hb
  refine ⟨⟨blocks, hb, hl, ?_⟩, ?_, ?_⟩
  · intro i ha hb1
    obtain ⟨h1, h2⟩ := hp i ha hb1
    refine ⟨?_, fun p hp1 => (h2 p hp1).1⟩
    rw [h1, pointsForArea, Nat.zero_add]
  · have hm := Nat.mod_lt totalPoints hpos
    have hd := Nat.div_add_mod totalPoints areas.length
    simp only [List.length_nil, Nat.zero_add, Nat.min_zero, Nat.add_zero] at hlen
    rw [Nat.min_eq_left (le_of_lt hm)] at hlen
    rw [hlen]
    exact hd
  · intro p hp1
    rw [hb] at hp1
    obtain ⟨b, hbm, hpb⟩ := List.mem_flatten.mp hp1
    obtain ⟨i, hi, rfl⟩ := List.getElem_of_mem hbm
    exact (hp i (by omega) hi).2 p hpb |>.2

/-- The function `generateTotal` returns with enough fuel on an eventually
accepting tape. -/
theorem generateTotal_exists (totalPoints : Nat) (areas : List AreaDefinition)
    (d : DrawingArea) (rng : QRandomGenerator)
    (hfair : EventuallyAccepting rng.tape areas) :
    ∃ fuel st, generateTotal totalPoints areas fuel d rng = some st := by
  simp only [generateTotal]
  exact generateAreas_exists _ _ rng.tape areas hfair 0 _ rfl

/-- With a drawing area attached and an area defined, the function returns
exactly when `generateTotal 10000` does, and stores its points. -/
theorem generatePoints_eq (s : Controller) (d : DrawingArea) (rng : QRandomGenerator)
    (fuel : Nat) (hd : s.drawingArea = some d) (hne : s.areaDefinitions ≠ []) :
    generatePointsAccordingToSpecification s rng fuel =
      (generateTotal 10000 s.areaDefinitions fuel d rng).map
        (fun st => ({ s with drawingArea := some st.drawingArea,
                             generatedPoints := st.generatedPoints }, st.rng, [])) := by
  have hlen : s.areaDefinitions.length ≠ 0 := by
    intro h; exact hne (List.length_eq_zero.mp h)
  simp only [generatePointsAccordingToSpecification, hlen, if_false, hd]
  cases generateTotal 10000 s.areaDefinitions fuel d rng <;> rfl

/-- With a drawing area attached and an area defined, the function returns
with enough fuel on an eventually accepting tape. -/
theorem generatePoints_exists (s : Controller) (d : DrawingArea) (rng : QRandomGenerator)
    (hd : s.drawingArea = some d) (hne : s.areaDefinitions ≠ [])
    (hfair : EventuallyAccepting rng.tape s.areaDefinitions) :
    ∃ fuel s1 rng1 dialogs,
      generatePointsAccordingToSpecification s rng fuel = some (s1, rng1, dialogs) := by
  obtain ⟨fuel, st, hst⟩ := generateTotal_exists 10000 _ d rng hfair
  refine ⟨fuel, { s with drawingArea := some st.drawingArea,
                         generatedPoints := st.generatedPoints }, st.rng, [], ?_⟩
  rw [generatePoints_eq s d rng fuel hd hne, hst, Option.map_some']

/-- With a drawing area attached and an area defined, every point stored by a
run that returns lies in the domain. -/
theorem generatePoints_inDomain (s : Controller) (d : DrawingArea) (rng : QRandomGenerator)
    (hd : s.drawingArea = some d) (hne : s.areaDefinitions ≠ [])
    (fuel : Nat) (s1 : Controller) (rng1 : QRandomGenerator) (dialogs : List Dialog)
    (h : generatePointsAccordingToSpecification s rng fuel = some (s1, rng1, dialogs)) :
    ∀ p ∈ s1.generatedPoints, InDomain p.x ∧ InDomain p.y := by
  rw [generatePoints_eq s d rng fuel hd hne] at h
  obtain ⟨st, hst, heq⟩ := Option.map_eq_some'.mp h
  simp only [Prod.mk.injEq] at heq
  rw [← heq.1]
  exact (generateTotal_some 10000 _ hne fuel d rng st hst).2.2

/-! ## Generation: the claims -/

/-- Claim C1. With a drawing area attached and a non-empty area list, the list
stored by a generation run that returns is the concatenation, in area-list
order, of one block per area; the block of the area at index `i` has
`10000 / n + 1` records when `i < 10000 % n` and `10000 / n` otherwise, all
carrying that area's number. The run returns, with enough fuel, whenever every
retry loop meets an accepted attempt. The same grouping holds for the loop run
with any other total, and for two areas and a total of 10001 the block sizes
are 5001 and 5000. -/
theorem generation_grouped_by_area (s : Controller) (d : DrawingArea)
    (rng : QRandomGenerator) (hd : s.drawingArea = some d) (hne : s.areaDefinitions ≠ []) :
    (∀ fuel s1 rng1 dialogs,
      generatePointsAccordingToSpecification s rng fuel = some (s1, rng1, dialogs) →
      GroupedByArea 10000 s.areaDefinitions s1.generatedPoints) ∧
    (EventuallyAccepting rng.tape s.areaDefinitions →
      ∃ fuel s1 rng1 dialogs,
        generatePointsAccordingToSpecification s rng fuel = some (s1, rng1, dialogs)) ∧
    (∀ totalPoints fuel st,
      generateTotal totalPoints s.areaDefinitions fuel d rng = some st →
      GroupedByArea totalPoints s.areaDefinitions st.generatedPoints) ∧
    (pointsForArea 10001 2 0 = 5001 ∧ pointsForArea 10001 2 1 = 5000) := by
  refine ⟨?_, ?_, ?_, by decide⟩
  · intro fuel s1 rng1 dialogs h
    rw [generatePoints_eq s d rng fuel hd hne] at h
    obtain ⟨st, hst, heq⟩ := Option.map_eq_some'.mp h
    simp only [Prod.mk.injEq] at heq
    rw [← heq.1]
    exact (generateTotal_some 10000 _ hne fuel d rng st hst).1
  · exact generatePoints_exists s d rng hd hne
  · intro totalPoints fuel st hst
    exact (generateTotal_some totalPoints _ hne fuel d rng st hst).1

/-- Claim C1, on the example scenario: one area and an accepting tape; the run
returns and its 10000 records form the single block of area 1. -/
theorem generation_grouped_by_area_witness :
    exampleController.drawingArea = some ⟨[], []⟩ ∧
    exampleController.areaDefinitions ≠ [] ∧
    ∃ fuel s1 rng1 dialogs,
      generatePointsAccordingToSpecification exampleController acceptingRng fuel =
        some (s1, rng1, dialogs) ∧
      GroupedByArea 10000 exampleController.areaDefinitions s1.generatedPoints := by
  have hd : exampleController.drawingArea = some ⟨[], []⟩ := rfl
  have hne : exampleController.areaDefinitions ≠ [] := by simp [exampleController]
  have h := generation_grouped_by_area exampleController ⟨[], []⟩ acceptingRng hd hne
  obtain ⟨fuel, s1, rng1, dialogs, hrun⟩ := h.2.1 acceptingRng_eventuallyAccepting
  exact ⟨hd, hne, fuel, s1, rng1, dialogs, hrun, h.1 fuel s1 rng1 dialogs hrun⟩

/-- Claim C2. With a drawing area attached and a non-empty area list, whatever
the stored point list held before, a generation run that returns leaves exactly
10000 stored records, and they do not depend on the previous content; the run
returns, with enough fuel, whenever every retry loop meets an accepted attempt. -/
theorem generation_replaces_previous_batch (s : Controller) (d : DrawingArea)
    (rng : QRandomGenerator) (hd : s.drawingArea = some d) (hne : s.areaDefinitions ≠ []) :
    (∀ fuel s1 rng1 dialogs,
      generatePointsAccordingToSpecification s rng fuel = some (s1, rng1, dialogs) →
      s1.generatedPoints.length = 10000) ∧
    (∀ fuel previous,
      (generatePointsAccordingToSpecification { s with generatedPoints := previous }
          rng fuel).map (fun r => r.1.generatedPoints) =
        (generatePointsAccordingToSpecification s rng fuel).map
          (fun r => r.1.generatedPoints)) ∧
    (EventuallyAccepting rng.tape s.areaDefinitions →
      ∃ fuel s1 rng1 dialogs,
        generatePointsAccordingToSpecification s rng fuel = some (s1, rng1, dialogs)) := by
  refine ⟨?_, ?_, ?_⟩
  · intro fuel s1 rng1 dialogs h
    rw [generatePoints_eq s d rng fuel hd hne] at h
    obtain ⟨st, hst, heq⟩ := Option.map_eq_some'.mp h
    simp only [Prod.mk.injEq] at heq
    rw [← heq.1]
    exact (generateTotal_some 10000 _ hne fuel d rng st hst).2.1
  · intro fuel previous
    rw [generatePoints_eq s d rng fuel hd hne,
      generatePoints_eq { s with generatedPoints := previous } d rng fuel hd hne]
  · exact generatePoints_exists s d rng hd hne

/-- Claim C2, on the example scenario: the controller holds one earlier point,
the run returns and leaves exactly 10000 stored records. -/
theorem generation_replaces_previous_batch_witness :
    exampleController.drawingArea = some ⟨[], []⟩ ∧
    exampleController.areaDefinitions ≠ [] ∧
    exampleController.generatedPoints = [⟨7, -7, 9⟩] ∧
    ∃ fuel s1 rng1 dialogs,
      generatePointsAccordingToSpecification exampleController acceptingRng fuel =
        some (s1, rng1, dialogs) ∧
      s1.generatedPoints.length = 10000 := by
  have hd : exampleController.drawingArea = some ⟨[], []⟩ := rfl
  have hne : exampleController.areaDefinitions ≠ [] := by simp [exampleController]
  have h := generation_replaces_previous_batch exampleController ⟨[], []⟩ acceptingRng hd hne
  obtain ⟨fuel, s1, rng1, dialogs, hrun⟩ := h.2.2 acceptingRng_eventuallyAccepting
  exact ⟨hd, hne, rfl, fuel, s1, rng1, dialogs, hrun, h.1 fuel s1 rng1 dialogs hrun⟩

/-- Claim C3. With an empty area list a generation request returns for every
fuel, draws nothing from the generator and leaves the stored area list and the
stored point list as they were; `generatePointsAccordingToSpecification` itself
leaves the whole controller unchanged and shows the warning. -/
theorem generation_without_areas (s : Controller) (rng : QRandomGenerator) (fuel : Nat)
    (hempty : s.areaDefinitions = []) :
    generatePointsAccordingToSpecification s rng fuel =
      some (s, rng, [Dialog.warning "No Areas Defined"
        "Please define at least one area before generating points."]) ∧
    ∃ s1 dialogs, onGeneratePoints s rng fuel = some (s1, rng, dialogs) ∧
      s1.areaDefinitions = s.areaDefinitions ∧
      s1.generatedPoints = s.generatedPoints := by
  have hgen : generatePointsAccordingToSpecification s rng fuel =
      some (s, rng, [Dialog.warning "No Areas Defined"
        "Please define at least one area before generating points."]) := by
    simp [generatePointsAccordingToSpecification, hempty]
  refine ⟨hgen, ?_⟩
  cases hd : s.drawingArea with
  | none => exact ⟨s, [], by simp [onGeneratePoints, hd], rfl, rfl⟩
  | some d =>
    refine ⟨savePoints s,
      [Dialog.warning "No Areas Defined"
          "Please define at least one area before generating points."] ++
        [Dialog.information "Points Generated"
          (pointsGeneratedText (savePoints s).generatedPoints.length)],
      by simp only [onGeneratePoints, hd, hgen], ?_, ?_⟩
    · unfold savePoints; split <;> rfl
    · unfold savePoints; split <;> rfl

/-- Claim C3, on a controller with a drawing area, no area and two stored points. -/
theorem generation_without_areas_witness :
    ∃ s1 dialogs,
      onGeneratePoints ⟨some ⟨[], []⟩, [], [⟨1, 2, 3⟩, ⟨4, 5, 6⟩], none, true⟩ acceptingRng 0 =
        some (s1, acceptingRng, dialogs) ∧
      s1.areaDefinitions = [] ∧ s1.generatedPoints = [⟨1, 2, 3⟩, ⟨4, 5, 6⟩] :=
  (generation_without_areas ⟨some ⟨[], []⟩, [], [⟨1, 2, 3⟩, ⟨4, 5, 6⟩], none, true⟩
    acceptingRng 0 rfl).2

/-- Claim C5. Whatever the center, the sigma and the draws, a coordinate
accepted by `generateCoordinate` is an integer between -300 and 300 inclusive,
so is every coordinate returned by the retry loop, and so are x and y of every
record stored by a generation run. -/
theorem accepted_coordinate_in_domain (center sigma : ℝ) (rng : QRandomGenerator) :
    ((generateCoordinate center sigma rng).accepted = true →
      -300 ≤ (generateCoordinate center sigma rng).coordinate ∧
        (generateCoordinate center sigma rng).coordinate ≤ 300) ∧
    (∀ fuel x rng1, sampleCoordinate center sigma fuel rng = some (x, rng1) →
      -300 ≤ x ∧ x ≤ 300) ∧
    (∀ (s : Controller) (d : DrawingArea) fuel s1 rng1 dialogs,
      s.drawingArea = some d → s.areaDefinitions ≠ [] →
      generatePointsAccordingToSpecification s rng fuel = some (s1, rng1, dialogs) →
      ∀ p ∈ s1.generatedPoints, (-300 ≤ p.x ∧ p.x ≤ 300) ∧ (-300 ≤ p.y ∧ p.y ≤ 300)) := by
  refine ⟨fun _ => generateCoordinate_inDomain center sigma rng, ?_, ?_⟩
  · intro fuel x rng1 h
    exact (sampleCoordinate_some _ _ _ _ _ _ h).1
  · intro s d fuel s1 rng1 dialogs hd hne h p hp
    exact generatePoints_inDomain s d rng hd hne fuel s1 rng1 dialogs h p hp

/-- Claim C5, on the example scenario: the first attempt on the accepting tape
is accepted with a coordinate in the domain, and the run returns with every
stored record in the domain. -/
theorem accepted_coordinate_in_domain_witness :
    (generateCoordinate 0 50 acceptingRng).accepted = true ∧
    (-300 ≤ (generateCoordinate 0 50 acceptingRng).coordinate ∧
      (generateCoordinate 0 50 acceptingRng).coordinate ≤ 300) ∧
    ∃ fuel s1 rng1 dialogs,
      generatePointsAccordingToSpecification exampleController acceptingRng fuel =
        some (s1, rng1, dialogs) ∧
      ∀ p ∈ s1.generatedPoints, (-300 ≤ p.x ∧ p.x ≤ 300) ∧ (-300 ≤ p.y ∧ p.y ≤ 300) := by
  have hacc : (generateCoordinate 0 50 acceptingRng).accepted = true :=
    accepting_tape_attempt 50 (by norm_num) 0
  have hne : exampleController.areaDefinitions ≠ [] := by simp [exampleController]
  obtain ⟨fuel, s1, rng1, dialogs, hrun⟩ := generatePoints_exists exampleController
    ⟨[], []⟩ acceptingRng rfl hne acceptingRng_eventuallyAccepting
  have h := accepted_coordinate_in_domain 0 50 acceptingRng
  exact ⟨hacc, h.1 hacc, fuel, s1, rng1, dialogs, hrun,
    h.2.2 exampleController ⟨[], []⟩ fuel s1 rng1 dialogs rfl hne hrun⟩

/-! ## Batch classification -/

/-- The search loop finds the first area with the point's number. -/
theorem findAreaOfPoint_eq (point : PointDataSave) (areas : List AreaDefinition) :
    findAreaOfPoint point areas =
      match areas.find? (fun a => decide (a.areaNumber = point.areaNumber)) with
      | some area => (true, isPointOutsideArea point area, area.color, area.symbolType)
      | none => (false, false, Qt.black, SymbolType.Cross) := by
  induction areas with
  | nil => rfl
  | cons area rest ih =>
    by_cases h : area.areaNumber = point.areaNumber
    · simp [findAreaOfPoint, List.find?, h]
    · simp [findAreaOfPoint, List.find?, h, ih]

/-- One pass of the classification loop draws the classified point and counts
it when it is outside. -/
theorem markPoint_eq (areas : List AreaDefinition) (acc : DrawingArea × Nat)
    (point : PointDataSave) :
    markPoint areas acc point =
      (⟨acc.1.points ++
          [classifiedPoint areas point (firstAreaClassifiesOutside areas point)],
        acc.1.areaCircles⟩,
        acc.2 + (if firstAreaClassifiesOutside areas point then 1 else 0)) := by
  simp only [markPoint, findAreaOfPoint_eq, firstAreaClassifiesOutside, classifiedPoint,
    firstAreaAttributes]
  rcases Option.eq_none_or_eq_some
    (areas.find? (fun a => decide (a.areaNumber = point.areaNumber))) with h | ⟨area, h⟩
  · simp [h, DrawingArea.addPoint]
  · rcases Bool.eq_false_or_eq_true (isPointOutsideArea point area) with hout | hout <;>
      simp [h, hout, DrawingArea.addPoint, DrawingArea.addPointWithCircle]

/-- The classification loop over all points. -/
theorem foldl_markPoint_eq (areas : List AreaDefinition) (points : List PointDataSave) :
    ∀ (acc : DrawingArea × Nat),
      points.foldl (markPoint areas) acc =
        (⟨acc.1.points ++ points.map
            (fun p => classifiedPoint areas p (firstAreaClassifiesOutside areas p)),
          acc.1.areaCircles⟩,
          acc.2 + points.countP (firstAreaClassifiesOutside areas)) := by
  induction points with
  | nil => intro acc; simp
  | cons point rest ih =>
    intro acc
    rw [List.foldl_cons, ih, markPoint_eq]
    simp only [List.map_cons, List.append_assoc, List.singleton_append, List.countP_cons]
    congr 1
    omega

/-- Redrawing the area circles leaves the drawn points alone. -/
theorem redrawAreaCirclesOn_points (areas : List AreaDefinition) (d : DrawingArea) :
    (redrawAreaCirclesOn areas d).points = d.points := by
  unfold redrawAreaCirclesOn
  have key : ∀ (l : List AreaDefinition) (acc : DrawingArea),
      (l.foldl (fun acc areaDef =>
        acc.addAreaCircle (Double.toInt (Double.finite areaDef.centerX))
          (Double.toInt (Double.finite areaDef.centerY))
          (max (Double.toInt (Double.mul64 (Double.finite areaDef.sigmaX) (Double.finite 3)))
            (Double.toInt (Double.mul64 (Double.finite areaDef.sigmaY) (Double.finite 3))))
          areaDef.color) acc).points = acc.points := by
    intro l
    induction l with
    | nil => intro acc; rfl
    | cons a l ih => intro acc; rw [List.foldl_cons, ih]; rfl
  exact key areas d.clearAreaCircles

/-- What a classification request does when areas and points exist and a
drawing area is attached. -/
theorem onMarkOutsidePoints_eq (s : Controller) (d : DrawingArea)
    (hd : s.drawingArea = some d) (ha : s.areaDefinitions ≠ [])
    (hp : s.generatedPoints ≠ []) :
    onMarkOutsidePoints s =
      ({ s with drawingArea := some (DrawingArea.mk
                  (s.generatedPoints.map (fun p => classifiedPoint s.areaDefinitions p
                    (firstAreaClassifiesOutside s.areaDefinitions p)))
                  (redrawAreaCirclesOn s.areaDefinitions d.clearPoints).areaCircles) },
        [Dialog.information "Outside Points Marked"
          (outsideMarkedText
            (s.generatedPoints.countP (firstAreaClassifiesOutside s.areaDefinitions))
            s.generatedPoints.length)]) := by
  have ha1 : s.areaDefinitions.isEmpty = false := by
    cases h : s.areaDefinitions with
    | nil => exact absurd h ha
    | cons _ _ => rfl
  have hp1 : s.generatedPoints.isEmpty = false := by
    cases h : s.generatedPoints with
    | nil => exact absurd h hp
    | cons _ _ => rfl
  simp only [onMarkOutsidePoints, ha1, hp1, hd, foldl_markPoint_eq, redrawAreaCirclesOn_points,
    DrawingArea.clearPoints, List.nil_append, Nat.zero_add, Bool.false_eq_true, if_false]

/-- The far corner of the domain is outside the example area. -/
theorem corner_outside_exampleArea : isPointOutsideArea ⟨300, 300, 1⟩ exampleArea = true := by
  have hbig : (37 : ℝ) ≤ Real.exp 36 := by
    have := Real.add_one_le_exp (36 : ℝ)
    linarith
  have hsmall : Real.exp (-36) < 0.05 := by
    rw [Real.exp_neg, inv_lt_comm₀ (Real.exp_pos _) (by norm_num)]
    norm_num
    linarith
  have h50 : (50 : ℝ) ≠ 0 := by norm_num
  simp only [isPointOutsideArea, gaussProbability_of_ne_zero _ _ 50 h50, exampleArea,
    Double.mul, Double.lt, decide_eq_true_eq, ← Real.exp_add]
  norm_num
  have e : (-(36 : ℝ)) = -18 + -18 := by norm_num
  rw [e] at hsmall
  norm_num at hsmall ⊢
  exact hsmall

/-- The center of the example area is not outside it. -/
theorem center_inside_exampleArea : isPointOutsideArea ⟨0, 0, 1⟩ exampleArea = false := by
  have h50 : (50 : ℝ) ≠ 0 := by norm_num
  simp only [isPointOutsideArea, gaussProbability_of_ne_zero _ _ 50 h50, exampleArea,
    Double.mul, Double.lt, decide_eq_false_iff_not, not_lt]
  norm_num

/-- Claim C9. In a classification request with areas and points present (and a
drawing area attached), each stored point is drawn once, in order, and is drawn
ringed exactly when the first area in list order with the point's number exists
and `isPointOutsideArea` holds for it; a point whose number no area has is not
ringed; the reported count is the number of stored points so classified, which
is the number of ringed points drawn. -/
theorem mark_outside_uses_first_matching_area (s : Controller) (d : DrawingArea)
    (hd : s.drawingArea = some d) (ha : s.areaDefinitions ≠ [])
    (hp : s.generatedPoints ≠ []) :
    ∃ d2 : DrawingArea,
      onMarkOutsidePoints s =
        ({ s with drawingArea := some d2 },
          [Dialog.information "Outside Points Marked"
            (outsideMarkedText
              (s.generatedPoints.countP (firstAreaClassifiesOutside s.areaDefinitions))
              s.generatedPoints.length)]) ∧
      d2.points = s.generatedPoints.map (fun p => classifiedPoint s.areaDefinitions p
        (firstAreaClassifiesOutside s.areaDefinitions p)) ∧
      (∀ p outside, (classifiedPoint s.areaDefinitions p outside).hasCircle = outside) ∧
      (∀ p, firstAreaClassifiesOutside s.areaDefinitions p = true ↔
        ∃ area, s.areaDefinitions.find? (fun a => decide (a.areaNumber = p.areaNumber)) =
          some area ∧ isPointOutsideArea p area = true) ∧
      (∀ p, (∀ a ∈ s.areaDefinitions, a.areaNumber ≠ p.areaNumber) →
        firstAreaClassifiesOutside s.areaDefinitions p = false) ∧
      s.generatedPoints.countP (firstAreaClassifiesOutside s.areaDefinitions) =
        d2.points.countP (fun q => q.hasCircle) := by
  have hcircle : ∀ p outside, (classifiedPoint s.areaDefinitions p outside).hasCircle = outside := by
    intro p outside
    cases outside <;> simp [classifiedPoint]
  refine ⟨DrawingArea.mk
      (s.generatedPoints.map (fun p => classifiedPoint s.areaDefinitions p
        (firstAreaClassifiesOutside s.areaDefinitions p)))
      (redrawAreaCirclesOn s.areaDefinitions d.clearPoints).areaCircles,
    onMarkOutsidePoints_eq s d hd ha hp, rfl, hcircle, ?_, ?_, ?_⟩
  · intro p
    unfold firstAreaClassifiesOutside
    rcases Option.eq_none_or_eq_some
      (s.areaDefinitions.find? (fun a => decide (a.areaNumber = p.areaNumber))) with h | ⟨a, h⟩
    · simp [h]
    · simp [h]
  · intro p hnone
    unfold firstAreaClassifiesOutside
    have h : s.areaDefinitions.find? (fun a => decide (a.areaNumber = p.areaNumber)) = none := by
      rw [List.find?_eq_none]
      intro a hmem
      simpa using hnone a hmem
    simp [h]
  · rw [List.countP_map]
    congr 1
    funext p
    simp [hcircle]

/-- Claim C9, on three points: the center of area 1 (not outside), the far
corner for area 1 (outside) and a point of the undefined area 2 (not counted);
the reported count is 1. -/
theorem mark_outside_uses_first_matching_area_witness :
    classifyController.drawingArea = some ⟨[], []⟩ ∧
    classifyController.areaDefinitions ≠ [] ∧
    classifyController.generatedPoints ≠ [] ∧
    ∃ d2 : DrawingArea,
      onMarkOutsidePoints classifyController =
        ({ classifyController with drawingArea := some d2 },
          [Dialog.information "Outside Points Marked" (outsideMarkedText 1 3)]) ∧
      d2.points.map (fun q => q.hasCircle) = [false, true, false] := by
  have hd : classifyController.drawingArea = some ⟨[], []⟩ := rfl
  have ha : classifyController.areaDefinitions ≠ [] := by simp [classifyController]
  have hp : classifyController.generatedPoints ≠ [] := by simp [classifyController]
  obtain ⟨d2, hrun, hpts, hcircle, _, _, _⟩ :=
    mark_outside_uses_first_matching_area classifyController ⟨[], []⟩ hd ha hp
  have h1 : firstAreaClassifiesOutside [exampleArea] ⟨0, 0, 1⟩ = false := by
    have hf : [exampleArea].find? (fun a => decide (a.areaNumber = (1 : Int))) =
        some exampleArea := by simp [exampleArea]
    simp only [firstAreaClassifiesOutside, hf, center_inside_exampleArea]
  have h2 : firstAreaClassifiesOutside [exampleArea] ⟨300, 300, 1⟩ = true := by
    have hf : [exampleArea].find? (fun a => decide (a.areaNumber = (1 : Int))) =
        some exampleArea := by simp [exampleArea]
    simp only [firstAreaClassifiesOutside, hf, corner_outside_exampleArea]
  have h3 : firstAreaClassifiesOutside [exampleArea] ⟨0, 0, 2⟩ = false := by
    have hf : [exampleArea].find? (fun a => decide (a.areaNumber = (2 : Int))) = none := by
      simp [exampleArea]
    simp only [firstAreaClassifiesOutside, hf]
  refine ⟨hd, ha, hp, d2, ?_, ?_⟩
  · rw [hrun]
    simp [classifyController, List.countP_cons, h1, h2, h3]
  · rw [hpts]
    simp [classifyController, classifiedPoint, h1, h2, h3]

/-- Claim C10. A classification request never changes the stored point list or
the stored area list; when it aborts because no area is defined or no point is
available it leaves the whole controller unchanged. -/
theorem mark_outside_keeps_lists (s : Controller) :
    (onMarkOutsidePoints s).1.generatedPoints = s.generatedPoints ∧
    (onMarkOutsidePoints s).1.areaDefinitions = s.areaDefinitions ∧
    (s.areaDefinitions = [] → (onMarkOutsidePoints s).1 = s) ∧
    (s.generatedPoints = [] → (onMarkOutsidePoints s).1 = s) := by
  unfold onMarkOutsidePoints
  refine ⟨?_, ?_, ?_, ?_⟩
  · split
    · rfl
    · split
      · rfl
      · split <;> rfl
  · split
    · rfl
    · split
      · rfl
      · split <;> rfl
  · intro h
    simp [h]
  · intro h
    split
    · rfl
    · simp [h]

/-- Claim C10, on the three-point batch and on controllers without areas or
without points. -/
theorem mark_outside_keeps_lists_witness :
    (onMarkOutsidePoints classifyController).1.generatedPoints =
      [⟨0, 0, 1⟩, ⟨300, 300, 1⟩, ⟨0, 0, 2⟩] ∧
    (onMarkOutsidePoints ⟨some ⟨[], []⟩, [], [⟨1, 2, 3⟩], none, true⟩).1.generatedPoints =
      [⟨1, 2, 3⟩] ∧
    (onMarkOutsidePoints ⟨some ⟨[], []⟩, [exampleArea], [], none, true⟩).1.generatedPoints =
      [] :=
  ⟨(mark_outside_keeps_lists classifyController).1,
    (mark_outside_keeps_lists ⟨some ⟨[], []⟩, [], [⟨1, 2, 3⟩], none, true⟩).1,
    (mark_outside_keeps_lists ⟨some ⟨[], []⟩, [exampleArea], [], none, true⟩).1⟩

/-! ## The area list -/

/-- Redrawing the area circles and saving the settings keep the area list. -/
theorem redrawAreaCircles_areaDefinitions (s : Controller) :
    (saveSettings (redrawAreaCircles s)).areaDefinitions = s.areaDefinitions := by
  unfold saveSettings redrawAreaCircles
  split <;> rfl

/-- Claim C14. `getAreaDefinition` returns the stored record at position `row`
for every `0 <= row < count`, and for every row out of range, negative or at
least `count`, it returns the default record: number 0, center (0, 0), sigmas
50, symbol Plus, colour blue. -/
theorem getAreaDefinition_in_and_out_of_range (s : Controller) (row : Int) :
    (0 ≤ row → row < getAreaDefinitionsCount s →
      s.areaDefinitions[row.toNat]? = some (getAreaDefinition s row)) ∧
    ((row < 0 ∨ getAreaDefinitionsCount s ≤ row) →
      getAreaDefinition s row = defaultArea) ∧
    defaultArea = ⟨0, 0, 0, 50, 50, SymbolType.Plus, Qt.blue⟩ := by
  refine ⟨?_, ?_, rfl⟩
  · intro h0 h1
    simp only [getAreaDefinitionsCount] at h1
    have hlt : row.toNat < s.areaDefinitions.length := by omega
    simp only [getAreaDefinition, h0, h1, and_self, if_true, List.getElem?_eq_getElem hlt,
      Option.getD_some]
  · intro h
    simp only [getAreaDefinitionsCount] at h
    have hn : ¬ (0 ≤ row ∧ row < s.areaDefinitions.length) := by omega
    simp only [getAreaDefinition, hn, if_false]

/-- Claim C14, on a list of two areas: rows 0 and 1 give the stored records,
rows -1 and 2 the default record. -/
theorem getAreaDefinition_witness :
    getAreaDefinition ⟨none, [exampleArea, halfSigmaArea], [], none, true⟩ 0 = exampleArea ∧
    getAreaDefinition ⟨none, [exampleArea, halfSigmaArea], [], none, true⟩ 1 = halfSigmaArea ∧
    getAreaDefinition ⟨none, [exampleArea, halfSigmaArea], [], none, true⟩ (-1) = defaultArea ∧
    getAreaDefinition ⟨none, [exampleArea, halfSigmaArea], [], none, true⟩ 2 = defaultArea := by
  have h := getAreaDefinition_in_and_out_of_range
    ⟨none, [exampleArea, halfSigmaArea], [], none, true⟩
  have h0 := (h 0).1 (by norm_num) (by simp [getAreaDefinitionsCount])
  have h1 := (h 1).1 (by norm_num) (by simp [getAreaDefinitionsCount])
  have h2 := (h (-1)).2.1 (Or.inl (by norm_num))
  have h3 := (h 2).2.1 (Or.inr (by simp [getAreaDefinitionsCount]))
  refine ⟨?_, ?_, h2, h3⟩
  · simpa using h0.symm
  · simpa using h1.symm

/-- Claim C16. `removeAreaDefinition(row)` with `0 <= row < count` makes the
list one shorter, keeps every record at an index below `row` at its index and
moves every record at an index `j > row` to index `j - 1`; the list that remains
is the part before `row` followed by the part after it. -/
theorem removeAreaDefinition_reindexes (s : Controller) (row : Int)
    (hlo : 0 ≤ row) (hhi : row < getAreaDefinitionsCount s) :
    (removeAreaDefinition s row).areaDefinitions.length + 1 = s.areaDefinitions.length ∧
    (∀ j : Nat, j < row.toNat →
      (removeAreaDefinition s row).areaDefinitions[j]? = s.areaDefinitions[j]?) ∧
    (∀ j : Nat, row.toNat < j →
      (removeAreaDefinition s row).areaDefinitions[j - 1]? = s.areaDefinitions[j]?) ∧
    (removeAreaDefinition s row).areaDefinitions =
      s.areaDefinitions.take row.toNat ++ s.areaDefinitions.drop (row.toNat + 1) := by
  simp only [getAreaDefinitionsCount] at hhi
  have hlt : row.toNat < s.areaDefinitions.length := by omega
  have hdef : (removeAreaDefinition s row).areaDefinitions =
      s.areaDefinitions.eraseIdx row.toNat := by
    simp only [removeAreaDefinition, hlo, hhi, and_self, if_true,
      redrawAreaCircles_areaDefinitions]
  rw [hdef]
  refine ⟨?_, ?_, ?_, List.eraseIdx_eq_take_drop_succ _ _⟩
  · rw [List.length_eraseIdx_of_lt hlt]
    omega
  · intro j hj
    exact List.getElem?_eraseIdx_of_lt _ _ _ hj
  · intro j hj
    rw [List.getElem?_eraseIdx_of_ge _ _ _ (by omega)]
    have e : j - 1 + 1 = j := by omega
    rw [e]

/-- Claim C16, on three areas with row 1 removed: the first stays at index 0
and the third moves to index 1. -/
theorem removeAreaDefinition_reindexes_witness :
    (removeAreaDefinition ⟨none, [exampleArea, halfSigmaArea, defaultArea], [], none, true⟩
      1).areaDefinitions = [exampleArea, defaultArea] := by
  have h := (removeAreaDefinition_reindexes
    ⟨none, [exampleArea, halfSigmaArea, defaultArea], [], none, true⟩ 1 (by norm_num)
    (by simp [getAreaDefinitionsCount])).2.2.2
  simpa using h

/-! ## The truncation toward zero -/

/-- The conversion to `int` is monotone. -/
theorem truncToInt_mono (a b : ℝ) (h : a ≤ b) : truncToInt a ≤ truncToInt b := by
  unfold truncToInt
  by_cases ha : 0 ≤ a
  · have hb : 0 ≤ b := le_trans ha h
    simp only [ha, hb, if_true]
    exact Int.floor_le_floor h
  · by_cases hb : 0 ≤ b
    · simp only [ha, hb, if_true, if_false]
      have h1 : ⌈a⌉ ≤ 0 := Int.ceil_le.mpr (by push_neg at ha; exact_mod_cast ha.le)
      have h2 : (0 : Int) ≤ ⌊b⌋ := Int.floor_nonneg.mpr hb
      omega
    · simp only [ha, hb, if_false]
      exact Int.ceil_le_ceil h

/-- The larger of two converted values is the converted larger value. -/
theorem max_truncToInt (a b : ℝ) :
    max (truncToInt a) (truncToInt b) = truncToInt (max a b) := by
  rcases le_total a b with h | h
  · rw [max_eq_right h, max_eq_right (truncToInt_mono a b h)]
  · rw [max_eq_left h, max_eq_left (truncToInt_mono b a h)]

/-! ## Redrawing the points -/

/-- The search loop of `redrawPoints` finds the attributes of the first area
with the point's number. -/
theorem findAttributes_eq (point : PointDataSave) (areas : List AreaDefinition) :
    findAttributes point areas = firstAreaAttributes areas point := by
  unfold firstAreaAttributes
  induction areas with
  | nil => rfl
  | cons area rest ih =>
    by_cases h : area.areaNumber = point.areaNumber
    · simp [findAttributes, List.find?, h]
    · simp [findAttributes, List.find?, h, ih]

/-- The drawing loop of `redrawPoints` appends one plain point per stored point. -/
theorem foldl_addPoint_eq (areas : List AreaDefinition) (points : List PointDataSave) :
    ∀ (acc : DrawingArea),
      points.foldl
        (fun acc point =>
          acc.addPoint point.x point.y (findAttributes point areas).1
            (findAttributes point areas).2) acc =
        ⟨acc.points ++ points.map (fun p => classifiedPoint areas p false), acc.areaCircles⟩ := by
  induction points with
  | nil => intro acc; simp
  | cons point rest ih =>
    intro acc
    rw [List.foldl_cons, ih]
    simp [DrawingArea.addPoint, classifiedPoint, findAttributes_eq]

/-- Claim C17. When points are redrawn, each stored point is drawn once, in
order, without ring, with the colour and symbol of the first area in list order
whose number equals the point's number, and with black and Cross when no area
has that number; the lookup and the redraw are total functions. -/
theorem redrawPoints_uses_first_area_or_defaults (s : Controller) :
    (∀ d, s.drawingArea = some d →
      redrawPoints s =
        { s with drawingArea := some ⟨s.generatedPoints.map (fun p =>
                    ⟨p.x, p.y, (firstAreaAttributes s.areaDefinitions p).1,
                      (firstAreaAttributes s.areaDefinitions p).2, false, QColor.invalid⟩),
                    d.areaCircles⟩ }) ∧
    (s.drawingArea = none → redrawPoints s = s) ∧
    (∀ p area, s.areaDefinitions.find? (fun a => decide (a.areaNumber = p.areaNumber)) =
        some area →
      firstAreaAttributes s.areaDefinitions p = (area.color, area.symbolType)) ∧
    (∀ p, (∀ a ∈ s.areaDefinitions, a.areaNumber ≠ p.areaNumber) →
      firstAreaAttributes s.areaDefinitions p = (Qt.black, SymbolType.Cross)) := by
  refine ⟨?_, ?_, ?_, ?_⟩
  · intro d hd
    simp only [redrawPoints, hd, foldl_addPoint_eq, DrawingArea.clearPoints, List.nil_append,
      classifiedPoint]
    simp
  · intro hd
    simp only [redrawPoints, hd]
  · intro p area h
    simp only [firstAreaAttributes, h]
  · intro p hnone
    have h : s.areaDefinitions.find? (fun a => decide (a.areaNumber = p.areaNumber)) = none := by
      rw [List.find?_eq_none]
      intro a hmem
      simpa using hnone a hmem
    simp only [firstAreaAttributes, h]

/-- Claim C17, on the three-point batch: the two points of area 1 are drawn
blue with Plus, the point of the undefined area 2 black with Cross. -/
theorem redrawPoints_witness :
    classifyController.drawingArea = some ⟨[], []⟩ ∧
    (redrawPoints classifyController).drawingArea =
      some ⟨[⟨0, 0, Qt.blue, SymbolType.Plus, false, QColor.invalid⟩,
             ⟨300, 300, Qt.blue, SymbolType.Plus, false, QColor.invalid⟩,
             ⟨0, 0, Qt.black, SymbolType.Cross, false, QColor.invalid⟩], []⟩ := by
  have h := (redrawPoints_uses_first_area_or_defaults classifyController).1 ⟨[], []⟩ rfl
  refine ⟨rfl, ?_⟩
  rw [h]
  simp [classifyController, firstAreaAttributes, exampleArea]

/-! ## The settings store -/

/-- The areas loaded by `loadSettings`: one per array entry, in index order. -/
theorem loadSettings_areaDefinitions (store : List SettingsRecord) (s : Controller) :
    (loadSettings store s).areaDefinitions = store.map loadArea := by
  unfold loadSettings
  have key : ∀ (l : List SettingsRecord) (acc : Controller),
      (l.foldl (fun acc record =>
        { acc with areaDefinitions := acc.areaDefinitions ++ [loadArea record] })
        acc).areaDefinitions = acc.areaDefinitions ++ l.map loadArea := by
    intro l
    induction l with
    | nil => intro acc; simp
    | cons r l ih => intro acc; rw [List.foldl_cons, ih]; simp
  rw [key]
  simp

/-- Claim C13. An array entry that has `MeanX` and `MeanY` but neither
`CenterX`, `CenterY` nor `SymbolType` loads with `centerX = MeanX`,
`centerY = MeanY` and symbol Plus; when `CenterX` (resp. `CenterY`) is present
it is the value used, whatever `MeanX` (resp. `MeanY`) holds; loading yields
one area per entry. -/
theorem loadArea_accepts_legacy_keys (record : SettingsRecord) :
    (∀ vx vy, record "CenterX" = none → record "CenterY" = none →
      record "SymbolType" = none → record "MeanX" = some vx → record "MeanY" = some vy →
      (loadArea record).centerX = vx.toDouble ∧ (loadArea record).centerY = vy.toDouble ∧
        (loadArea record).symbolType = SymbolType.Plus) ∧
    (∀ v, record "CenterX" = some v → (loadArea record).centerX = v.toDouble) ∧
    (∀ v, record "CenterY" = some v → (loadArea record).centerY = v.toDouble) ∧
    (∀ store s, (loadSettings store s).areaDefinitions = store.map loadArea) := by
  refine ⟨?_, ?_, ?_, loadSettings_areaDefinitions⟩
  · intro vx vy hcx hcy hsym hmx hmy
    simp [loadArea, SettingsRecord.contains, SettingsRecord.value, hcx, hcy, hsym, hmx, hmy]
  · intro v h
    simp [loadArea, SettingsRecord.contains, SettingsRecord.value, h]
  · intro v h
    simp [loadArea, SettingsRecord.contains, SettingsRecord.value, h]

/-- Claim C13, on a legacy entry with `MeanX = 12.5`, `MeanY = -7.25`: the area
loads with that center and symbol Plus. -/
theorem loadArea_accepts_legacy_keys_witness :
    legacyRecord "CenterX" = none ∧ legacyRecord "SymbolType" = none ∧
    (loadArea legacyRecord).centerX = 12.5 ∧ (loadArea legacyRecord).centerY = -7.25 ∧
    (loadArea legacyRecord).symbolType = SymbolType.Plus ∧
    (loadSettings [legacyRecord] emptyController).areaDefinitions = [loadArea legacyRecord] := by
  have hcx : legacyRecord "CenterX" = none := by simp [legacyRecord]
  have hcy : legacyRecord "CenterY" = none := by simp [legacyRecord]
  have hsym : legacyRecord "SymbolType" = none := by simp [legacyRecord]
  have hmx : legacyRecord "MeanX" = some ⟨12, 12.5, QColor.invalid⟩ := by simp [legacyRecord]
  have hmy : legacyRecord "MeanY" = some ⟨-7, -7.25, QColor.invalid⟩ := by simp [legacyRecord]
  have h := loadArea_accepts_legacy_keys legacyRecord
  obtain ⟨h1, h2, h3⟩ := h.1 _ _ hcx hcy hsym hmx hmy
  exact ⟨hcx, hsym, h1, h2, h3, by simpa using h.2.2.2 [legacyRecord] emptyController⟩

/-! ## The acceptance test and the sign of sigma -/

/-- The density depends on sigma through `sigma * sigma` only. -/
theorem gaussProbability_neg_sigma (x center sigma : ℝ) :
    gaussProbability x center (-sigma) = gaussProbability x center sigma := by
  have h : 2 * -sigma * -sigma = 2 * sigma * sigma := by ring
  simp only [gaussProbability, h]

/-- The density for `|sigma|` is the density for `sigma`. -/
theorem gaussProbability_abs_sigma (x center sigma : ℝ) :
    gaussProbability x center |sigma| = gaussProbability x center sigma := by
  rcases abs_choice sigma with h | h
  · rw [h]
  · rw [h, gaussProbability_neg_sigma]

/-- With sigma zero the density is zero or NaN, and no uniform value in
`[0, 1)` compares below it. -/
theorem generateCoordinate_sigma_zero (center : ℝ) (rng : QRandomGenerator) :
    (generateCoordinate center 0 rng).accepted = false := by
  have hu := (generateDouble_range (rng.bounded (-300) 301).2).1
  simp only [generateCoordinate, gaussProbability_sigma_zero]
  split
  · rfl
  · simp only [Double.lt, decide_eq_false_iff_not, not_lt]
    exact hu

/-- The first attempt on `candidateOneRng` draws the candidate 1 and the
uniform value 0. -/
theorem candidateOneRng_draws :
    (candidateOneRng.bounded (-300) 301).1 = 1 ∧
    ((candidateOneRng.bounded (-300) 301).2.generateDouble).1 = 0 := by
  constructor
  · simp [candidateOneRng, QRandomGenerator.bounded]
  · simp [candidateOneRng, QRandomGenerator.bounded, QRandomGenerator.generateDouble]

/-- Claim C19 as stated fails: sigma -50 is negative, the candidate 1 lies in
the domain and differs from the center 0, the uniform value is 0, and the
attempt is accepted. -/
theorem negative_sigma_accepted_counterexample :
    (-50 : ℝ) ≤ 0 ∧
    (generateCoordinate 0 (-50) candidateOneRng).coordinate = 1 ∧
    (-300 : Int) ≤ 1 ∧ (1 : Int) ≤ 300 ∧ (((1 : Int) : ℝ) ≠ 0) ∧
    ((candidateOneRng.bounded (-300) 301).2.generateDouble).1 = 0 ∧
    (generateCoordinate 0 (-50) candidateOneRng).accepted = true := by
  have hc := candidateOneRng_draws
  refine ⟨by norm_num, hc.1, by norm_num, by norm_num, by norm_num, hc.2, ?_⟩
  have hs : (-50 : ℝ) ≠ 0 := by norm_num
  simp only [generateCoordinate, gaussProbability_of_ne_zero _ _ (-50) hs, Double.lt,
    decide_eq_true_eq, hc.2]
  exact Real.exp_pos _

/-- Claim C19, amended. With sigma zero every sampling attempt is rejected,
whatever the center, the candidate and the uniform value, and the retry loop is
not left for any number of attempts; with a negative sigma an attempt gives
exactly the result that it gives with `|sigma|`. -/
theorem zero_sigma_rejects_negative_sigma_as_abs (center : ℝ) (rng : QRandomGenerator) :
    (generateCoordinate center 0 rng).accepted = false ∧
    (∀ fuel, sampleCoordinate center 0 fuel rng = none) ∧
    (∀ sigma, sigma < 0 →
      generateCoordinate center sigma rng = generateCoordinate center |sigma| rng) := by
  refine ⟨generateCoordinate_sigma_zero center rng, ?_, ?_⟩
  · intro fuel
    induction fuel generalizing rng with
    | zero => rfl
    | succ fuel ih =>
      simp only [sampleCoordinate, generateCoordinate_sigma_zero, Bool.false_eq_true, if_false]
      exact ih _
  · intro sigma _
    simp only [generateCoordinate, gaussProbability_abs_sigma]

/-- Claim C19, amended, on the generator that draws candidate 1 and uniform
value 0: rejected with sigma 0, and with sigma -50 the same result as with 50. -/
theorem zero_sigma_rejects_negative_sigma_as_abs_witness :
    (generateCoordinate 0 0 candidateOneRng).accepted = false ∧
    (-50 : ℝ) < 0 ∧
    generateCoordinate 0 (-50) candidateOneRng = generateCoordinate 0 |(-50 : ℝ)| candidateOneRng :=
  ⟨(zero_sigma_rejects_negative_sigma_as_abs 0 candidateOneRng).1, by norm_num,
    (zero_sigma_rejects_negative_sigma_as_abs 0 candidateOneRng).2.2 (-50) (by norm_num)⟩

/-- Claim C20. The density for `-sigma` and for `|sigma|` is the density for
`sigma`; hence a sampling attempt, and the classification of a point against an
area, give the same result when a sigma is replaced by its negative or by its
absolute value. -/
theorem density_depends_on_sigma_squared (x center sigma : ℝ) :
    gaussProbability x center sigma = gaussProbability x center (-sigma) ∧
    gaussProbability x center sigma = gaussProbability x center |sigma| ∧
    (∀ rng, generateCoordinate center (-sigma) rng = generateCoordinate center sigma rng) ∧
    (∀ rng, generateCoordinate center |sigma| rng = generateCoordinate center sigma rng) ∧
    (∀ point area,
      isPointOutsideArea point { area with sigmaX := -area.sigmaX, sigmaY := -area.sigmaY } =
        isPointOutsideArea point area) ∧
    (∀ point area,
      isPointOutsideArea point { area with sigmaX := |area.sigmaX|, sigmaY := |area.sigmaY| } =
        isPointOutsideArea point area) := by
  refine ⟨(gaussProbability_neg_sigma x center sigma).symm,
    (gaussProbability_abs_sigma x center sigma).symm, ?_, ?_, ?_, ?_⟩
  · intro rng
    simp only [generateCoordinate, gaussProbability_neg_sigma]
  · intro rng
    simp only [generateCoordinate, gaussProbability_abs_sigma]
  · intro point area
    simp only [isPointOutsideArea, gaussProbability_neg_sigma]
  · intro point area
    simp only [isPointOutsideArea, gaussProbability_abs_sigma]

/-! ## Decimal text of an integer -/

/-- A decimal digit character is a digit and stands for its number. -/
theorem digitChar_spec (k : Nat) (hk : k < 10) :
    (Nat.digitChar k).isDigit = true ∧ (Nat.digitChar k).toNat - 48 = k := by
  interval_cases k <;> decide

/-- Appending one digit multiplies the value by ten and adds the digit. -/
theorem digitsValue_append (front : List Char) (c : Char) :
    digitsValue (front ++ [c]) = digitsValue front * 10 + (c.toNat - 48) := by
  simp [digitsValue, List.foldl_append]

/-- The digits that `Nat.toDigitsCore` puts in front of its accumulator: a
non-empty string of decimal digits whose value is the number. -/
theorem toDigitsCore_spec (fuel : Nat) :
    ∀ (n : Nat) (ds : List Char), n < fuel →
      ∃ front : List Char, Nat.toDigitsCore 10 fuel n ds = front ++ ds ∧ front ≠ [] ∧
        (∀ c ∈ front, c.isDigit = true) ∧ digitsValue front = n := by
  induction fuel with
  | zero => intro n ds h; omega
  | succ fuel ih =>
    intro n ds h
    have hd := digitChar_spec (n % 10) (Nat.mod_lt n (by norm_num))
    by_cases h0 : n / 10 = 0
    · refine ⟨[Nat.digitChar (n % 10)], ?_, by simp, ?_, ?_⟩
      · simp [Nat.toDigitsCore, h0]
      · intro c hc
        rw [List.mem_singleton.mp hc]
        exact hd.1
      · have hn : n % 10 = n := Nat.mod_eq_of_lt (by omega)
        simp only [digitsValue, List.foldl_cons, List.foldl_nil, Nat.zero_mul, Nat.zero_add]
        rw [hd.2, hn]
    · have hlt : n / 10 < fuel := by omega
      obtain ⟨front, hfront, hne, hall, hval⟩ := ih (n / 10) (Nat.digitChar (n % 10) :: ds) hlt
      refine ⟨front ++ [Nat.digitChar (n % 10)], ?_, by simp, ?_, ?_⟩
      · simp [Nat.toDigitsCore, h0, hfront]
      · intro c hc
        rcases List.mem_append.mp hc with h1 | h1
        · exact hall c h1
        · rw [List.mem_singleton.mp h1]
          exact hd.1
      · rw [digitsValue_append, hval, hd.2]
        omega

/-- The decimal digits of a natural number. -/
theorem toDigits_spec (n : Nat) :
    Nat.toDigits 10 n ≠ [] ∧ (∀ c ∈ Nat.toDigits 10 n, c.isDigit = true) ∧
      digitsValue (Nat.toDigits 10 n) = n := by
  obtain ⟨front, hfront, hne, hall, hval⟩ := toDigitsCore_spec (n + 1) n [] (by omega)
  have h : Nat.toDigits 10 n = front := by
    simp [Nat.toDigits, hfront]
  rw [h]
  exact ⟨hne, hall, hval⟩

/-- The text of an integer: its decimal digits, after a minus sign when it is
negative. -/
theorem toString_int_toList (n : Int) :
    (toString n).toList =
      if 0 ≤ n then Nat.toDigits 10 n.toNat else '-' :: Nat.toDigits 10 n.natAbs := by
  cases n with
  | ofNat m => rfl
  | negSucc m => rfl

/-- A digit is no white space and none of the characters `;`, line feed,
carriage return, `-`, `+`. -/
theorem isDigit_not_special (c : Char) (h : c.isDigit = true) :
    QChar.isSpace c = false ∧ c ≠ ';' ∧ c ≠ '\n' ∧ c ≠ '\r' ∧ c ≠ '-' ∧ c ≠ '+' := by
  have h1 : 48 ≤ c.toNat ∧ c.toNat ≤ 57 := by
    simp only [Char.isDigit, Bool.and_eq_true, decide_eq_true_eq] at h
    exact ⟨h.1, h.2⟩
  refine ⟨?_, ?_, ?_, ?_, ?_, ?_⟩
  · simp only [QChar.isSpace, Bool.or_eq_false_iff, Bool.and_eq_false_iff, decide_eq_false_iff_not]
    omega
  all_goals
    intro hc
    rw [hc] at h1
    revert h1
    decide

/-- Nothing is dropped from a text without white space. -/
theorem dropWhile_isSpace_of_none (l : List Char) (h : ∀ c ∈ l, QChar.isSpace c = false) :
    l.dropWhile QChar.isSpace = l := by
  cases l with
  | nil => rfl
  | cons c rest => simp [List.dropWhile, h c (List.mem_cons_self _ _)]

/-- The call `toInt` on a non-empty string of digits gives its value when that
is a value of type `int`. -/
theorem toInt_digits (digits : List Char) (hne : digits ≠ [])
    (hall : ∀ c ∈ digits, c.isDigit = true) (hmax : (digitsValue digits : Int) ≤ 2147483647) :
    QString.toInt digits = digitsValue digits := by
  have hsp : ∀ c ∈ digits, QChar.isSpace c = false := fun c hc => (isDigit_not_special c (hall c hc)).1
  have hsp2 : ∀ c ∈ digits.reverse, QChar.isSpace c = false :=
    fun c hc => hsp c (List.mem_reverse.mp hc)
  obtain ⟨c, rest, rfl⟩ := List.exists_cons_of_ne_nil hne
  have hc := isDigit_not_special c (hall c (List.mem_cons_self _ _))
  have hallb : (c :: rest).all Char.isDigit = true := List.all_eq_true.mpr hall
  have hnn : (0 : Int) ≤ (digitsValue (c :: rest) : Int) := Int.ofNat_nonneg _
  have hlow : (-2147483648 : Int) ≤ (digitsValue (c :: rest) : Int) := by omega
  simp only [QString.toInt, dropWhile_isSpace_of_none _ hsp, dropWhile_isSpace_of_none _ hsp2,
    List.reverse_reverse, List.head?_cons, Option.some.injEq, hc.2.2.2.2.1, hc.2.2.2.2.2,
    or_self, if_false, hallb, if_true, hlow, hmax, and_self]
  simp

/-- The call `toInt` on a minus sign followed by a non-empty string of digits
gives the negated value when that is a value of type `int`. -/
theorem toInt_minus_digits (digits : List Char) (hne : digits ≠ [])
    (hall : ∀ c ∈ digits, c.isDigit = true) (hmax : (digitsValue digits : Int) ≤ 2147483648) :
    QString.toInt ('-' :: digits) = -(digitsValue digits : Int) := by
  have hsp : ∀ c ∈ '-' :: digits, QChar.isSpace c = false := by
    intro c hc
    rcases List.mem_cons.mp hc with rfl | h
    · decide
    · exact (isDigit_not_special c (hall c h)).1
  have hsp2 : ∀ c ∈ ('-' :: digits).reverse, QChar.isSpace c = false :=
    fun c hc => hsp c (List.mem_reverse.mp hc)
  have hallb : digits.all Char.isDigit = true := List.all_eq_true.mpr hall
  have hnn : (0 : Int) ≤ (digitsValue digits : Int) := Int.ofNat_nonneg _
  have hlow : (-2147483648 : Int) ≤ -(digitsValue digits : Int) := by omega
  have hhigh : -(digitsValue digits : Int) ≤ 2147483647 := by omega
  simp only [QString.toInt, dropWhile_isSpace_of_none _ hsp, dropWhile_isSpace_of_none _ hsp2,
    List.reverse_reverse, List.head?_cons, true_or, if_true, List.tail_cons, hne, if_false,
    hallb, hlow, hhigh, and_self]

/-- Reading back the text written for a value of type `int` gives the value. -/
theorem toInt_toString (n : Int) (h : IsInt n) : QString.toInt (toString n).toList = n := by
  rw [toString_int_toList]
  obtain ⟨hlo, hhi⟩ := h
  by_cases h0 : 0 ≤ n
  · obtain ⟨hne, hall, hval⟩ := toDigits_spec n.toNat
    simp only [h0, if_true]
    rw [toInt_digits _ hne hall (by rw [hval]; omega), hval]
    omega
  · obtain ⟨hne, hall, hval⟩ := toDigits_spec n.natAbs
    simp only [h0, if_false]
    rw [toInt_minus_digits _ hne hall (by rw [hval]; omega), hval]
    omega

/-- The text written for an integer is not empty and has only digits and the
minus sign. -/
theorem toString_int_chars (n : Int) :
    (toString n).toList ≠ [] ∧ ∀ c ∈ (toString n).toList, c.isDigit = true ∨ c = '-' := by
  rw [toString_int_toList]
  by_cases h0 : 0 ≤ n
  · obtain ⟨hne, hall, _⟩ := toDigits_spec n.toNat
    simp only [h0, if_true]
    exact ⟨hne, fun c hc => Or.inl (hall c hc)⟩
  · obtain ⟨hne, hall, _⟩ := toDigits_spec n.natAbs
    simp only [h0, if_false]
    refine ⟨by simp, fun c hc => ?_⟩
    rcases List.mem_cons.mp hc with rfl | h
    · exact Or.inr rfl
    · exact Or.inl (hall c h)

/-- A character of the text of an integer is none of `;`, line feed and
carriage return. -/
theorem numberChar_not_separator (c : Char) (h : c.isDigit = true ∨ c = '-') :
    c ≠ ';' ∧ c ≠ '\n' ∧ c ≠ '\r' := by
  rcases h with h | rfl
  · have := isDigit_not_special c h
    exact ⟨this.2.1, this.2.2.1, this.2.2.2.1⟩
  · decide

/-! ## Splitting into lines and fields -/

/-- A text without the separator is a single part. -/
theorem split_of_not_mem (sep : Char) (l : List Char) (h : sep ∉ l) :
    QString.split sep l = [l] := by
  induction l with
  | nil => rfl
  | cons c rest ih =>
    have hc : c ≠ sep := fun e => h (e ▸ List.mem_cons_self _ _)
    have hrest : sep ∉ rest := fun e => h (List.mem_cons_of_mem _ e)
    simp [QString.split, hc, ih hrest]

/-- The first part ends at the first separator. -/
theorem split_append_sep (sep : Char) (l rest : List Char) (h : sep ∉ l) :
    QString.split sep (l ++ sep :: rest) = l :: QString.split sep rest := by
  induction l with
  | nil => simp [QString.split]
  | cons c l ih =>
    have hc : c ≠ sep := fun e => h (e ▸ List.mem_cons_self _ _)
    have hl : sep ∉ l := fun e => h (List.mem_cons_of_mem _ e)
    simp [QString.split, hc, ih hl]

/-- The first line ends at the first line feed. -/
theorem rawLines_append_newline (l rest : List Char) (h : '\n' ∉ l) :
    rawLines (l ++ '\n' :: rest) = l :: rawLines rest := by
  induction l with
  | nil => simp [rawLines]
  | cons c l ih =>
    have hc : c ≠ '\n' := fun e => h (e ▸ List.mem_cons_self _ _)
    have hl : '\n' ∉ l := fun e => h (List.mem_cons_of_mem _ e)
    simp [rawLines, hc, ih hl]

/-- Redrawing the points keeps the stored points. -/
theorem redrawPoints_generatedPoints (s : Controller) :
    (redrawPoints s).generatedPoints = s.generatedPoints := by
  unfold redrawPoints
  split <;> rfl

/-- The points that `loadPoints` stores: the reading loop run over the lines
after the first. -/
theorem loadPoints_generatedPoints (s : Controller) (text : String)
    (h : s.pointsFile = some text) :
    (loadPoints s).generatedPoints =
      ((readLines text.toList).drop 1).foldl loadPointLine [] := by
  simp only [loadPoints, h, redrawPoints_generatedPoints]

/-- The reading loop appends, line after line, what each line contributes. -/
theorem foldl_loadPointLine (lines : List (List Char)) :
    ∀ acc, lines.foldl loadPointLine acc =
      acc ++ (lines.map (loadPointLine [])).flatten := by
  induction lines with
  | nil => intro acc; simp
  | cons line rest ih =>
    intro acc
    rw [List.foldl_cons, ih]
    have h : loadPointLine acc line = acc ++ loadPointLine [] line := by
      simp only [loadPointLine]
      by_cases h3 : 3 ≤ (QString.split ';' line).length <;> simp [h3]
    rw [h]
    simp

/-! ## The points file: what is written is what is read -/

/-- The text of a string built by appending. -/
theorem toList_append (a b : String) : (a ++ b).toList = a.toList ++ b.toList := rfl

/-- The line written for one point: the three numbers separated by `;`, then a
line feed. -/
theorem pointLine_toList (p : PointDataSave) :
    (pointLine p).toList =
      ((toString p.x).toList ++ ';' :: ((toString p.y).toList ++
        ';' :: (toString p.areaNumber).toList)) ++ ['\n'] := by
  simp only [pointLine, toList_append]
  have h1 : ";".toList = [';'] := rfl
  have h2 : "\n".toList = ['\n'] := rfl
  rw [h1, h2]
  simp

/-- The text that the writing loop of `savePoints` produces. -/
theorem foldl_pointLine_toList (points : List PointDataSave) :
    ∀ init : String,
      (points.foldl (fun acc point => acc ++ pointLine point) init).toList =
        init.toList ++ (points.map (fun p => (pointLine p).toList)).flatten := by
  induction points with
  | nil => intro init; simp
  | cons p rest ih =>
    intro init
    rw [List.foldl_cons, ih, toList_append]
    simp

/-- The characters of the body of a written line are digits, `-` and `;`. -/
theorem lineBody_chars (p : PointDataSave) :
    ∀ c ∈ (toString p.x).toList ++ ';' :: ((toString p.y).toList ++
        ';' :: (toString p.areaNumber).toList), c ≠ '\n' ∧ c ≠ '\r' := by
  intro c hc
  have hx := (toString_int_chars p.x).2
  have hy := (toString_int_chars p.y).2
  have ha := (toString_int_chars p.areaNumber).2
  simp only [List.mem_append, List.mem_cons] at hc
  rcases hc with h | h | h | h | h
  · exact ⟨(numberChar_not_separator c (hx c h)).2.1, (numberChar_not_separator c (hx c h)).2.2⟩
  · rw [h]; decide
  · exact ⟨(numberChar_not_separator c (hy c h)).2.1, (numberChar_not_separator c (hy c h)).2.2⟩
  · rw [h]; decide
  · exact ⟨(numberChar_not_separator c (ha c h)).2.1, (numberChar_not_separator c (ha c h)).2.2⟩

/-- A line without carriage return is returned as it is. -/
theorem stripCarriageReturn_of_not_mem (line : List Char) (h : '\r' ∉ line) :
    stripCarriageReturn line = line := by
  unfold stripCarriageReturn
  split
  · rename_i hlast
    exact absurd (List.mem_of_getLast?_eq_some hlast) h
  · rfl

/-- The reading loop turns the body of a written line back into its point. -/
theorem loadPointLine_lineBody (p : PointDataSave)
    (h : IsInt p.x ∧ IsInt p.y ∧ IsInt p.areaNumber) :
    loadPointLine [] ((toString p.x).toList ++ ';' :: ((toString p.y).toList ++
        ';' :: (toString p.areaNumber).toList)) = [p] := by
  have hx : ';' ∉ (toString p.x).toList :=
    fun hm => (numberChar_not_separator _ ((toString_int_chars p.x).2 _ hm)).1 rfl
  have hy : ';' ∉ (toString p.y).toList :=
    fun hm => (numberChar_not_separator _ ((toString_int_chars p.y).2 _ hm)).1 rfl
  have ha : ';' ∉ (toString p.areaNumber).toList :=
    fun hm => (numberChar_not_separator _ ((toString_int_chars p.areaNumber).2 _ hm)).1 rfl
  have hsplit : QString.split ';' ((toString p.x).toList ++ ';' :: ((toString p.y).toList ++
      ';' :: (toString p.areaNumber).toList)) =
      [(toString p.x).toList, (toString p.y).toList, (toString p.areaNumber).toList] := by
    rw [split_append_sep _ _ _ hx, split_append_sep _ _ _ hy, split_of_not_mem _ _ ha]
  have e : loadPointLine [] ((toString p.x).toList ++ ';' :: ((toString p.y).toList ++
      ';' :: (toString p.areaNumber).toList)) =
      [⟨QString.toInt (toString p.x).toList, QString.toInt (toString p.y).toList,
        QString.toInt (toString p.areaNumber).toList⟩] := by
    simp only [loadPointLine, hsplit]
    rfl
  rw [e, toInt_toString _ h.1, toInt_toString _ h.2.1, toInt_toString _ h.2.2]

/-- The lines of the written point lines are their bodies. -/
theorem rawLines_pointLines (points : List PointDataSave) :
    rawLines (points.map (fun p => (pointLine p).toList)).flatten =
      points.map (fun p => (toString p.x).toList ++ ';' :: ((toString p.y).toList ++
        ';' :: (toString p.areaNumber).toList)) := by
  induction points with
  | nil => rfl
  | cons p rest ih =>
    have hn : '\n' ∉ (toString p.x).toList ++ ';' :: ((toString p.y).toList ++
        ';' :: (toString p.areaNumber).toList) := fun hm => (lineBody_chars p _ hm).1 rfl
    rw [List.map_cons, List.flatten_cons, pointLine_toList, List.append_assoc,
      List.singleton_append, rawLines_append_newline _ _ hn, ih, List.map_cons]

/-- Reading the text written for a list of values of type `int` gives the list. -/
theorem loadLines_of_saved (points : List PointDataSave)
    (hint : ∀ p ∈ points, IsInt p.x ∧ IsInt p.y ∧ IsInt p.areaNumber) :
    ((readLines ("x;y;AreaNumber\n".toList ++
      (points.map (fun p => (pointLine p).toList)).flatten)).drop 1).foldl loadPointLine [] =
      points := by
  have hhead : "x;y;AreaNumber\n".toList = "x;y;AreaNumber".toList ++ ['\n'] := by decide
  have hn : '\n' ∉ "x;y;AreaNumber".toList := by decide
  rw [hhead, List.append_assoc, List.singleton_append, readLines,
    rawLines_append_newline _ _ hn, rawLines_pointLines, List.map_cons, List.drop_one,
    List.tail_cons, List.map_map, foldl_loadPointLine, List.nil_append, List.map_map]
  induction points with
  | nil => rfl
  | cons p rest ih =>
    have hr : '\r' ∉ (toString p.x).toList ++ ';' :: ((toString p.y).toList ++
        ';' :: (toString p.areaNumber).toList) := fun hm => (lineBody_chars p _ hm).2 rfl
    simp only [List.map_cons, List.flatten_cons, Function.comp_apply,
      stripCarriageReturn_of_not_mem _ hr,
      loadPointLine_lineBody p (hint p (List.mem_cons_self _ _)), List.singleton_append]
    rw [ih (fun q hq => hint q (List.mem_cons_of_mem _ hq))]

/-- The text that `savePoints` writes when the file can be opened. -/
theorem savePoints_pointsFile (s : Controller) (hw : s.pointsFileWritable = true) :
    ∃ text : String, (savePoints s).pointsFile = some text ∧
      text.toList = "x;y;AreaNumber\n".toList ++
        (s.generatedPoints.map (fun p => (pointLine p).toList)).flatten := by
  refine ⟨_, ?_, foldl_pointLine_toList s.generatedPoints "x;y;AreaNumber\n"⟩
  simp [savePoints, hw]

/-- Claim C11. Writing the stored points with `savePoints` and reading the
written text back with `loadPoints` yields the same ordered list, field for
field, for every list, the empty one included, and every value of type `int` in
the fields; the written text is the header line followed by one line per point. -/
theorem save_then_load_gives_same_points (s : Controller)
    (hw : s.pointsFileWritable = true)
    (hint : ∀ p ∈ s.generatedPoints, IsInt p.x ∧ IsInt p.y ∧ IsInt p.areaNumber) :
    (loadPoints (savePoints s)).generatedPoints = s.generatedPoints ∧
    (∀ reader : Controller, reader.pointsFile = (savePoints s).pointsFile →
      (loadPoints reader).generatedPoints = s.generatedPoints) ∧
    (∃ text : String, (savePoints s).pointsFile = some text ∧
      text.toList = "x;y;AreaNumber\n".toList ++
        (s.generatedPoints.map (fun p => (pointLine p).toList)).flatten) := by
  obtain ⟨text, hfile, htext⟩ := savePoints_pointsFile s hw
  have hread : ∀ reader : Controller, reader.pointsFile = (savePoints s).pointsFile →
      (loadPoints reader).generatedPoints = s.generatedPoints := by
    intro reader hr
    rw [loadPoints_generatedPoints reader text (hr.trans hfile), htext]
    exact loadLines_of_saved s.generatedPoints hint
  exact ⟨hread (savePoints s) rfl, hread, text, hfile, htext⟩

/-- Claim C11, on a list with the extreme values of `int`, and on the empty
list. -/
theorem save_then_load_gives_same_points_witness :
    (loadPoints (savePoints
      ⟨none, [], [⟨1, -2, 3⟩, ⟨-2147483648, 2147483647, 0⟩], none, true⟩)).generatedPoints =
      [⟨1, -2, 3⟩, ⟨-2147483648, 2147483647, 0⟩] ∧
    (loadPoints (savePoints ⟨none, [], [], some "x;y;AreaNumber\n5;5;5\n", true⟩)).generatedPoints =
      [] := by
  constructor
  · refine (save_then_load_gives_same_points
      ⟨none, [], [⟨1, -2, 3⟩, ⟨-2147483648, 2147483647, 0⟩], none, true⟩ rfl ?_).1
    intro p hp
    simp only [List.mem_cons, List.mem_singleton, List.not_mem_nil, or_false] at hp
    rcases hp with rfl | rfl <;> simp [IsInt]
  · refine (save_then_load_gives_same_points
      ⟨none, [], [], some "x;y;AreaNumber\n5;5;5\n", true⟩ rfl ?_).1
    intro p hp
    simp at hp

/-- Claim C12. The points loaded from a file are what the reading loop gathers
from the lines after the first, in line order; a line with fewer than three
fields contributes no record and leaves the records of the lines before and
after it as they are, and a line with at least three fields contributes one
record made of its first three fields. -/
theorem loadPoints_skips_short_lines (s : Controller) (text : String)
    (hfile : s.pointsFile = some text) :
    (loadPoints s).generatedPoints =
      (((readLines text.toList).drop 1).map (loadPointLine [])).flatten ∧
    (∀ line, (QString.split ';' line).length < 3 → loadPointLine [] line = []) ∧
    (∀ line, 3 ≤ (QString.split ';' line).length →
      loadPointLine [] line =
        [⟨QString.toInt ((QString.split ';' line).getD 0 []),
          QString.toInt ((QString.split ';' line).getD 1 []),
          QString.toInt ((QString.split ';' line).getD 2 [])⟩]) ∧
    (∀ before bad after, (QString.split ';' bad).length < 3 →
      (before ++ bad :: after).foldl loadPointLine [] =
        before.foldl loadPointLine [] ++ after.foldl loadPointLine []) := by
  have hshort : ∀ line, (QString.split ';' line).length < 3 → loadPointLine [] line = [] := by
    intro line h
    have h3 : ¬ 3 ≤ (QString.split ';' line).length := by omega
    simp only [loadPointLine, h3, if_false]
  refine ⟨?_, hshort, ?_, ?_⟩
  · rw [loadPoints_generatedPoints s text hfile, foldl_loadPointLine, List.nil_append]
  · intro line h
    simp only [loadPointLine, h, if_true, List.nil_append]
  · intro before bad after h
    simp only [foldl_loadPointLine, List.nil_append, List.map_append, List.map_cons,
      List.flatten_append, List.flatten_cons, hshort bad h]

/-- Claim C12, on a file whose second data line has two fields: the lines
before and after it are loaded, in order. -/
theorem loadPoints_skips_short_lines_witness :
    (loadPoints ⟨none, [], [], some "x;y;AreaNumber\n1;2;3\n4;5\n6;7;8\n", true⟩).generatedPoints =
      [⟨1, 2, 3⟩, ⟨6, 7, 8⟩] ∧
    (QString.split ';' "4;5".toList).length < 3 := by
  have h := (loadPoints_skips_short_lines
    ⟨none, [], [], some "x;y;AreaNumber\n1;2;3\n4;5\n6;7;8\n", true⟩
    "x;y;AreaNumber\n1;2;3\n4;5\n6;7;8\n" rfl).1
  refine ⟨?_, by decide⟩
  rw [h]
  decide

/-! ## Updating and removing with a row out of range -/

/-- Claim C23. With a row out of range, negative or at least the count,
`updateAreaDefinition` and `removeAreaDefinition` return the controller as it
was, so the area list keeps its length and its records in their order; with a
row in range `updateAreaDefinition` puts the new record at that index and
leaves the length and every other index as they were. -/
theorem update_and_remove_respect_range (s : Controller) (row : Int) (area : AreaDefinition) :
    ((row < 0 ∨ getAreaDefinitionsCount s ≤ row) →
      updateAreaDefinition s row area = s ∧ removeAreaDefinition s row = s) ∧
    (0 ≤ row → row < getAreaDefinitionsCount s →
      (updateAreaDefinition s row area).areaDefinitions.length = s.areaDefinitions.length ∧
      (updateAreaDefinition s row area).areaDefinitions[row.toNat]? = some area ∧
      (∀ j : Nat, j ≠ row.toNat →
        (updateAreaDefinition s row area).areaDefinitions[j]? = s.areaDefinitions[j]?) ∧
      (updateAreaDefinition s row area).areaDefinitions =
        s.areaDefinitions.take row.toNat ++ area :: s.areaDefinitions.drop (row.toNat + 1)) := by
  constructor
  · intro h
    simp only [getAreaDefinitionsCount] at h
    have hn : ¬ (0 ≤ row ∧ row < s.areaDefinitions.length) := by omega
    simp only [updateAreaDefinition, removeAreaDefinition, hn, if_false, and_self]
  · intro hlo hhi
    simp only [getAreaDefinitionsCount] at hhi
    have hlt : row.toNat < s.areaDefinitions.length := by omega
    have hdef : (updateAreaDefinition s row area).areaDefinitions =
        s.areaDefinitions.set row.toNat area := by
      simp only [updateAreaDefinition, hlo, hhi, and_self, if_true,
        redrawAreaCircles_areaDefinitions]
    rw [hdef]
    refine ⟨List.length_set _ _ _, ?_, ?_, ?_⟩
    · rw [List.getElem?_set_self hlt]
    · intro j hj
      rw [List.getElem?_set_ne (Ne.symm hj)]
    · rw [List.set_eq_take_append_cons_drop]
      simp [hlt]

/-- Claim C23, on two areas: rows -1 and 2 change nothing, row 1 replaces the
second record only. -/
theorem update_and_remove_respect_range_witness :
    (updateAreaDefinition ⟨none, [exampleArea, halfSigmaArea], [], none, true⟩ (-1)
      defaultArea).areaDefinitions = [exampleArea, halfSigmaArea] ∧
    (removeAreaDefinition ⟨none, [exampleArea, halfSigmaArea], [], none, true⟩
      2).areaDefinitions = [exampleArea, halfSigmaArea] ∧
    (updateAreaDefinition ⟨none, [exampleArea, halfSigmaArea], [], none, true⟩ 1
      defaultArea).areaDefinitions = [exampleArea, defaultArea] := by
  have h1 := ((update_and_remove_respect_range
    ⟨none, [exampleArea, halfSigmaArea], [], none, true⟩ (-1) defaultArea).1
    (Or.inl (by norm_num))).1
  have h2 := ((update_and_remove_respect_range
    ⟨none, [exampleArea, halfSigmaArea], [], none, true⟩ 2 defaultArea).1
    (Or.inr (by simp [getAreaDefinitionsCount]))).2
  have h3 := ((update_and_remove_respect_range
    ⟨none, [exampleArea, halfSigmaArea], [], none, true⟩ 1 defaultArea).2 (by norm_num)
    (by simp [getAreaDefinitionsCount])).2.2.2
  refine ⟨by rw [h1], by rw [h2], ?_⟩
  rw [h3]
  simp

/-! ## The points file: what is read from any text -/

/-- What the reading loop gathers: one record for each line that has at least
three fields, in line order. -/
theorem flatten_loadPointLine (lines : List (List Char)) :
    (lines.map (loadPointLine [])).flatten =
      (lines.filter (fun line => decide (3 ≤ (QString.split ';' line).length))).map
        recordOfLine := by
  induction lines with
  | nil => rfl
  | cons line rest ih =>
    by_cases h : 3 ≤ (QString.split ';' line).length
    · simp [loadPointLine, recordOfLine, h, ih]
    · simp [loadPointLine, h, ih]

/-- The call `toInt` gives 0 for a text that is not the text of an integer. -/
theorem toInt_of_not_integerText (text : List Char) (h : isIntegerText text = false) :
    QString.toInt text = 0 := by
  simp only [isIntegerText] at h
  simp only [QString.toInt]
  generalize ((text.dropWhile QChar.isSpace).reverse.dropWhile QChar.isSpace).reverse =
    trimmed at h ⊢
  generalize (if trimmed.head? = some '-' ∨ trimmed.head? = some '+' then trimmed.tail
    else trimmed) = digits at h ⊢
  generalize (if trimmed.head? = some '-' then -(digitsValue digits : Int)
    else (digitsValue digits : Int)) = value at h ⊢
  by_cases h1 : digits = []
  · simp only [h1, if_true]
  · by_cases h2 : digits.all Char.isDigit = true
    · by_cases h3 : -2147483648 ≤ value ∧ value ≤ 2147483647
      · have hne : digits.isEmpty = false := by
          cases digits with
          | nil => exact absurd rfl h1
          | cons _ _ => rfl
        simp [hne, h2, h3] at h
      · simp only [h1, h2, h3, if_true, if_false]
    · simp only [h1, h2, if_false, Bool.false_eq_true]

/-- Claim C24. The list loaded by `loadPoints` is, in file order, one record
for each line after the first that has at least three fields separated by `;`;
the first line is discarded whatever it holds; a record is made of the first
three fields, whatever follows them; and a field that is not the text of an
integer gives 0 in the record, the line being loaded all the same. -/
theorem loadPoints_reads_lines_after_first (s : Controller) (text : String)
    (hfile : s.pointsFile = some text) :
    (loadPoints s).generatedPoints =
      (((readLines text.toList).drop 1).filter
        (fun line => decide (3 ≤ (QString.split ';' line).length))).map recordOfLine ∧
    (∀ first rest : List Char, '\n' ∉ first → text.toList = first ++ '\n' :: rest →
      (loadPoints s).generatedPoints =
        ((readLines rest).filter
          (fun line => decide (3 ≤ (QString.split ';' line).length))).map recordOfLine) ∧
    (∀ f0 f1 f2 extra : List Char, ';' ∉ f0 → ';' ∉ f1 → ';' ∉ f2 →
      3 ≤ (QString.split ';' (f0 ++ ';' :: (f1 ++ ';' :: (f2 ++ ';' :: extra)))).length ∧
      recordOfLine (f0 ++ ';' :: (f1 ++ ';' :: (f2 ++ ';' :: extra))) =
        ⟨QString.toInt f0, QString.toInt f1, QString.toInt f2⟩) ∧
    (∀ field, isIntegerText field = false → QString.toInt field = 0) := by
  have hmain : (loadPoints s).generatedPoints =
      (((readLines text.toList).drop 1).filter
        (fun line => decide (3 ≤ (QString.split ';' line).length))).map recordOfLine := by
    rw [loadPoints_generatedPoints s text hfile, foldl_loadPointLine, List.nil_append,
      flatten_loadPointLine]
  refine ⟨hmain, ?_, ?_, toInt_of_not_integerText⟩
  · intro first rest hn htext
    rw [hmain, htext, readLines, rawLines_append_newline _ _ hn, List.map_cons, List.drop_one,
      List.tail_cons]
    rfl
  · intro f0 f1 f2 extra h0 h1 h2
    have hsplit : QString.split ';' (f0 ++ ';' :: (f1 ++ ';' :: (f2 ++ ';' :: extra))) =
        f0 :: f1 :: f2 :: QString.split ';' extra := by
      rw [split_append_sep _ _ _ h0, split_append_sep _ _ _ h1, split_append_sep _ _ _ h2]
    rw [recordOfLine, hsplit]
    exact ⟨by simp, rfl⟩

/-- Claim C24, on a file without header line: the first point is lost, the
line with four fields loads its first three, the line with two fields is
skipped, and the fields `foo` and `x` load as 0. -/
theorem loadPoints_reads_lines_after_first_witness :
    (loadPoints ⟨none, [], [],
      some "1;2;3\nfoo;5;6;7\n8;9\n 10 ;x;12\n", true⟩).generatedPoints =
      [⟨0, 5, 6⟩, ⟨10, 0, 12⟩] ∧
    isIntegerText "foo".toList = false ∧ QString.toInt "foo".toList = 0 := by
  have h := loadPoints_reads_lines_after_first
    ⟨none, [], [], some "1;2;3\nfoo;5;6;7\n8;9\n 10 ;x;12\n", true⟩
    "1;2;3\nfoo;5;6;7\n8;9\n 10 ;x;12\n" rfl
  refine ⟨?_, by decide, h.2.2.2 _ (by decide)⟩
  rw [h.1]
  decide

/-! ## Bounds on `ln 20` and on the truncation -/

/-- The number `e^5` is below 400, so `e^(5/2)` is below 20. -/
theorem exp_five_halves_lt : Real.exp (5 / 2) < 20 := by
  have h1 : Real.exp 1 < 2.7182818286 := Real.exp_one_lt_d9
  have h5 : Real.exp 5 = Real.exp 1 ^ 5 := by
    rw [← Real.exp_nat_mul]
    norm_num
  have hpow : Real.exp 1 ^ 5 < (2.7182818286 : ℝ) ^ 5 :=
    pow_lt_pow_left₀ h1 (Real.exp_pos 1).le (by norm_num)
  have h400 : Real.exp 5 < 400 := by
    rw [h5]
    refine lt_trans hpow ?_
    norm_num
  have hsq : Real.exp (5 / 2) * Real.exp (5 / 2) = Real.exp 5 := by
    rw [← Real.exp_add]
    norm_num
  have hpos := Real.exp_pos (5 / 2 : ℝ)
  nlinarith

/-- The number `e^3` exceeds 20, so `ln 20` is below 3. -/
theorem log_twenty_lt_three : Real.log 20 < 3 := by
  have h1 : (2.7182818283 : ℝ) < Real.exp 1 := Real.exp_one_gt_d9
  have h3 : Real.exp 3 = Real.exp 1 ^ 3 := by
    rw [← Real.exp_nat_mul]
    norm_num
  have hpow : (2.7182818283 : ℝ) ^ 3 < Real.exp 1 ^ 3 :=
    pow_lt_pow_left₀ h1 (by norm_num) (by norm_num)
  rw [Real.log_lt_iff_lt_exp (by norm_num), h3]
  refine lt_trans ?_ hpow
  norm_num

/-- A converted non-negative value is less than one below the value. -/
theorem sub_one_lt_truncToInt (v : ℝ) (h : 0 ≤ v) : v - 1 < (truncToInt v : ℝ) := by
  simp only [truncToInt, h, if_true]
  exact Int.sub_one_lt_floor v

/-! ## Binary64 arithmetic: properties of the rounding -/

theorem roundHalfEven_intCast (n : Int) : roundHalfEven (n : ℝ) = n := by
  simp [roundHalfEven]

theorem roundHalfEven_floor_le (y : ℝ) : ⌊y⌋ ≤ roundHalfEven y := by
  unfold roundHalfEven
  split_ifs <;> omega

theorem roundHalfEven_le_floor_succ (y : ℝ) : roundHalfEven y ≤ ⌊y⌋ + 1 := by
  unfold roundHalfEven
  split_ifs <;> omega

theorem roundHalfEven_error (y : ℝ) : |(roundHalfEven y : ℝ) - y| ≤ 1 / 2 := by
  have h1 := Int.floor_le y
  have h2 := Int.lt_floor_add_one y
  unfold roundHalfEven
  rw [abs_le]
  split_ifs with a b c
  · constructor <;> linarith
  · push_cast
    constructor <;> linarith
  · have : y - ⌊y⌋ = 1 / 2 := le_antisymm (not_lt.mp b) (not_lt.mp a)
    constructor <;> linarith
  · have : y - ⌊y⌋ = 1 / 2 := le_antisymm (not_lt.mp b) (not_lt.mp a)
    push_cast
    constructor <;> linarith

theorem roundHalfEven_mono (a b : ℝ) (h : a ≤ b) : roundHalfEven a ≤ roundHalfEven b := by
  have hf : ⌊a⌋ ≤ ⌊b⌋ := Int.floor_le_floor h
  rcases lt_or_eq_of_le hf with hlt | heq
  · have := roundHalfEven_le_floor_succ a
    have := roundHalfEven_floor_le b
    omega
  · unfold roundHalfEven
    rw [heq]
    have hfr : a - ⌊b⌋ ≤ b - ⌊b⌋ := by linarith
    split_ifs <;> first | omega | (exfalso; linarith)

theorem roundHalfEven_neg (y : ℝ) : roundHalfEven (-y) = -roundHalfEven y := by
  by_cases hy : (⌊y⌋ : ℝ) = y
  · rw [← hy, ← Int.cast_neg, roundHalfEven_intCast, roundHalfEven_intCast]
  · have h1 := Int.floor_le y
    have h2 := Int.lt_floor_add_one y
    have hlt : (⌊y⌋ : ℝ) < y := lt_of_le_of_ne h1 hy
    have hfl : ⌊-y⌋ = -⌊y⌋ - 1 := by
      rw [Int.floor_eq_iff]
      push_cast
      constructor <;> linarith
    unfold roundHalfEven
    rw [hfl]
    push_cast
    split_ifs <;> first | omega | (exfalso; linarith)

theorem binadeExponent_neg (x : ℝ) : binadeExponent (-x) = binadeExponent x := by
  simp [binadeExponent]

theorem binadeExponent_ge (x : ℝ) : -1022 ≤ binadeExponent x := by
  unfold binadeExponent
  split_ifs
  · exact le_refl _
  · exact le_max_right _ _

theorem ulp_neg (x : ℝ) : ulp (-x) = ulp x := by
  simp [ulp, binadeExponent_neg]

theorem ulp_pos (x : ℝ) : 0 < ulp x := zpow_pos (by norm_num) _

theorem abs_lt_binade (x : ℝ) : |x| < (2 : ℝ) ^ (binadeExponent x + 1) := by
  unfold binadeExponent
  split_ifs with h
  · rw [h, abs_zero]
    exact zpow_pos (by norm_num) _
  · have h1 : |x| < ((2 : ℕ) : ℝ) ^ (Int.log 2 |x| + 1) :=
      Int.lt_zpow_succ_log_self (by norm_num) _
    refine lt_of_lt_of_le h1 ?_
    rw [Nat.cast_ofNat]
    exact zpow_le_zpow_right₀ (by norm_num) (by have := le_max_left (Int.log 2 |x|) (-1022); omega)

theorem binadeExponent_of_small (x : ℝ) (h : |x| < (2 : ℝ) ^ (-1022 : ℤ)) :
    binadeExponent x = -1022 := by
  unfold binadeExponent
  split_ifs with h0
  · rfl
  · have hpos : 0 < |x| := abs_pos.mpr h0
    have : Int.log 2 |x| < -1022 := by
      rw [← Int.lt_zpow_iff_log_lt (by norm_num) hpos]
      rw [Nat.cast_ofNat]
      exact h
    exact max_eq_right (le_of_lt this)

theorem binadeExponent_of_normal (x : ℝ) (h : (2 : ℝ) ^ (-1022 : ℤ) ≤ |x|) :
    binadeExponent x = Int.log 2 |x| := by
  have hpos : 0 < |x| := lt_of_lt_of_le (zpow_pos (by norm_num) _) h
  have h0 : x ≠ 0 := abs_pos.mp hpos
  unfold binadeExponent
  rw [if_neg h0]
  apply max_eq_left
  rw [← Int.zpow_le_iff_le_log (by norm_num) hpos, Nat.cast_ofNat]
  exact h

theorem binade_le_abs (x : ℝ) (h : (2 : ℝ) ^ (-1022 : ℤ) ≤ |x|) :
    (2 : ℝ) ^ binadeExponent x ≤ |x| := by
  have hpos : 0 < |x| := lt_of_lt_of_le (zpow_pos (by norm_num) _) h
  rw [binadeExponent_of_normal x h]
  have := Int.zpow_log_le_self (b := 2) (by norm_num) hpos
  rwa [Nat.cast_ofNat] at this

theorem binadeExponent_mono (x y : ℝ) (h : |x| ≤ |y|) : binadeExponent x ≤ binadeExponent y := by
  by_cases hx : |x| < (2 : ℝ) ^ (-1022 : ℤ)
  · rw [binadeExponent_of_small x hx]
    exact binadeExponent_ge y
  · have hx1 := not_lt.mp hx
    have hy1 : (2 : ℝ) ^ (-1022 : ℤ) ≤ |y| := le_trans hx1 h
    rw [binadeExponent_of_normal x hx1, binadeExponent_of_normal y hy1]
    exact Int.log_mono_right (lt_of_lt_of_le (zpow_pos (by norm_num) _) hx1) h

theorem roundToGrid_zero : roundToGrid 0 = 0 := by
  simp [roundToGrid, roundHalfEven]

theorem roundToGrid_neg (x : ℝ) : roundToGrid (-x) = -roundToGrid x := by
  simp only [roundToGrid, ulp_neg, neg_div, roundHalfEven_neg]
  push_cast
  ring

theorem roundToGrid_error (x : ℝ) : |roundToGrid x - x| ≤ ulp x / 2 := by
  have hu := ulp_pos x
  have h := roundHalfEven_error (x / ulp x)
  have e : roundToGrid x - x = ((roundHalfEven (x / ulp x) : ℝ) - x / ulp x) * ulp x := by
    unfold roundToGrid
    field_simp
  rw [e, abs_mul, abs_of_pos hu]
  nlinarith

theorem roundToGrid_nonneg (x : ℝ) (h : 0 ≤ x) : 0 ≤ roundToGrid x := by
  have hu := ulp_pos x
  have h1 : (0 : ℤ) ≤ ⌊x / ulp x⌋ := Int.floor_nonneg.mpr (div_nonneg h hu.le)
  have h2 := roundHalfEven_floor_le (x / ulp x)
  have h3 : (0 : ℝ) ≤ (roundHalfEven (x / ulp x) : ℝ) := by exact_mod_cast le_trans h1 h2
  exact mul_nonneg h3 hu.le

theorem roundToGrid_le_top (x : ℝ) (h : 0 ≤ x) :
    roundToGrid x ≤ (2 : ℝ) ^ (binadeExponent x + 1) := by
  have hu := ulp_pos x
  have hlt := abs_lt_binade x
  rw [abs_of_nonneg h] at hlt
  have hcast : ((2 ^ 53 : ℤ) : ℝ) = (2 : ℝ) ^ (53 : ℤ) := by norm_num
  have hsplit : (2 : ℝ) ^ (binadeExponent x + 1) = ((2 ^ 53 : ℤ) : ℝ) * ulp x := by
    unfold ulp
    rw [hcast, ← zpow_add₀ (by norm_num : (2 : ℝ) ≠ 0)]
    congr 1
    ring
  have hq : x / ulp x ≤ ((2 ^ 53 : ℤ) : ℝ) := by
    rw [div_le_iff₀ hu, ← hsplit]
    exact hlt.le
  have hr := roundHalfEven_mono _ _ hq
  rw [roundHalfEven_intCast] at hr
  rw [hsplit]
  unfold roundToGrid
  exact mul_le_mul_of_nonneg_right (by exact_mod_cast hr) hu.le

theorem roundToGrid_ge_bottom (x : ℝ) (h : (2 : ℝ) ^ (-1022 : ℤ) ≤ x) :
    (2 : ℝ) ^ binadeExponent x ≤ roundToGrid x := by
  have hu := ulp_pos x
  have hx : 0 ≤ x := le_trans (zpow_pos (by norm_num) _).le h
  have hge := binade_le_abs x (by rwa [abs_of_nonneg hx])
  rw [abs_of_nonneg hx] at hge
  have hcast : ((2 ^ 52 : ℤ) : ℝ) = (2 : ℝ) ^ (52 : ℤ) := by norm_num
  have hsplit : (2 : ℝ) ^ binadeExponent x = ((2 ^ 52 : ℤ) : ℝ) * ulp x := by
    unfold ulp
    rw [hcast, ← zpow_add₀ (by norm_num : (2 : ℝ) ≠ 0)]
    congr 1
    ring
  have hq : ((2 ^ 52 : ℤ) : ℝ) ≤ x / ulp x := by
    rw [le_div_iff₀ hu, ← hsplit]
    exact hge
  have hr := roundHalfEven_mono _ _ hq
  rw [roundHalfEven_intCast] at hr
  rw [hsplit]
  unfold roundToGrid
  exact mul_le_mul_of_nonneg_right (by exact_mod_cast hr) hu.le

theorem roundToGrid_mono_nonneg (x y : ℝ) (hx : 0 ≤ x) (h : x ≤ y) :
    roundToGrid x ≤ roundToGrid y := by
  have hy : 0 ≤ y := le_trans hx h
  have he : binadeExponent x ≤ binadeExponent y :=
    binadeExponent_mono x y (by rwa [abs_of_nonneg hx, abs_of_nonneg hy])
  rcases lt_or_eq_of_le he with hlt | heq
  · have hnormal : (2 : ℝ) ^ (-1022 : ℤ) ≤ y := by
      by_contra hsmall
      have := binadeExponent_of_small y (by rw [abs_of_nonneg hy]; exact not_le.mp hsmall)
      have := binadeExponent_ge x
      omega
    calc roundToGrid x ≤ (2 : ℝ) ^ (binadeExponent x + 1) := roundToGrid_le_top x hx
      _ ≤ (2 : ℝ) ^ binadeExponent y := zpow_le_zpow_right₀ (by norm_num) (by omega)
      _ ≤ roundToGrid y := roundToGrid_ge_bottom y hnormal
  · have hu : ulp x = ulp y := by unfold ulp; rw [heq]
    have hr := roundHalfEven_mono (x / ulp y) (y / ulp y)
      (div_le_div_of_nonneg_right h (ulp_pos y).le)
    unfold roundToGrid
    rw [hu]
    exact mul_le_mul_of_nonneg_right (by exact_mod_cast hr) (ulp_pos y).le

theorem roundToGrid_mono (x y : ℝ) (h : x ≤ y) : roundToGrid x ≤ roundToGrid y := by
  rcases le_total 0 x with hx | hx
  · exact roundToGrid_mono_nonneg x y hx h
  · rcases le_total 0 y with hy | hy
    · have h1 := roundToGrid_nonneg (-x) (by linarith)
      rw [roundToGrid_neg] at h1
      have h2 := roundToGrid_nonneg y hy
      linarith
    · have h1 := roundToGrid_mono_nonneg (-y) (-x) (by linarith) (by linarith)
      rw [roundToGrid_neg, roundToGrid_neg] at h1
      linarith

theorem roundToGrid_abs (x : ℝ) : roundToGrid |x| = |roundToGrid x| := by
  rcases le_total 0 x with hx | hx
  · rw [abs_of_nonneg hx, abs_of_nonneg (roundToGrid_nonneg x hx)]
  · have h1 := roundToGrid_nonneg (-x) (by linarith)
    rw [abs_of_nonpos hx]
    rw [roundToGrid_neg] at h1 ⊢
    rw [abs_of_nonpos (by linarith)]

theorem roundToGrid_exact (m k : ℤ) (hm : |m| < 2 ^ 53) (hk : -1074 ≤ k) :
    roundToGrid ((m : ℝ) * (2 : ℝ) ^ k) = (m : ℝ) * (2 : ℝ) ^ k := by
  by_cases h0 : m = 0
  · simp [h0, roundToGrid_zero]
  · have h2 : (0 : ℝ) < (2 : ℝ) ^ k := zpow_pos (by norm_num) _
    have hx0 : (m : ℝ) * (2 : ℝ) ^ k ≠ 0 :=
      mul_ne_zero (by exact_mod_cast h0) (ne_of_gt h2)
    have habs : |(m : ℝ) * (2 : ℝ) ^ k| < (2 : ℝ) ^ (53 + k) := by
      rw [abs_mul, abs_of_pos h2, zpow_add₀ (by norm_num : (2 : ℝ) ≠ 0)]
      apply mul_lt_mul_of_pos_right _ h2
      have : ((|m| : ℤ) : ℝ) < ((2 ^ 53 : ℤ) : ℝ) := by exact_mod_cast hm
      rw [Int.cast_abs] at this
      norm_num at this ⊢
      exact this
    have hlog : Int.log 2 |(m : ℝ) * (2 : ℝ) ^ k| < 53 + k := by
      rw [← Int.lt_zpow_iff_log_lt (by norm_num) (abs_pos.mpr hx0), Nat.cast_ofNat]
      exact habs
    have he : binadeExponent ((m : ℝ) * (2 : ℝ) ^ k) - 52 ≤ k := by
      unfold binadeExponent
      rw [if_neg hx0]
      have := max_le (a := Int.log 2 |(m : ℝ) * (2 : ℝ) ^ k|) (b := -1022) (c := 52 + k)
        (by omega) (by omega)
      omega
    obtain ⟨j, hj⟩ := Int.eq_ofNat_of_zero_le (sub_nonneg.mpr he)
    have hq : (m : ℝ) * (2 : ℝ) ^ k / ulp ((m : ℝ) * (2 : ℝ) ^ k) = ((m * 2 ^ j : ℤ) : ℝ) := by
      unfold ulp
      rw [mul_div_assoc, ← zpow_sub₀ (by norm_num : (2 : ℝ) ≠ 0), hj]
      push_cast
      rw [zpow_natCast]
    have hu : (2 : ℝ) ^ k = (2 : ℝ) ^ j * ulp ((m : ℝ) * (2 : ℝ) ^ k) := by
      unfold ulp
      rw [← zpow_natCast, ← zpow_add₀ (by norm_num : (2 : ℝ) ≠ 0), ← hj]
      congr 1
      ring
    unfold roundToGrid
    rw [hq, roundHalfEven_intCast]
    push_cast
    rw [mul_assoc, ← hu]

theorem roundToGrid_tiny (x : ℝ) (h : |x| ≤ (2 : ℝ) ^ (-1075 : ℤ)) : roundToGrid x = 0 := by
  have key : ∀ y : ℝ, 0 ≤ y → y ≤ (2 : ℝ) ^ (-1075 : ℤ) → roundToGrid y = 0 := by
    intro y hy hle
    have hlt : (2 : ℝ) ^ (-1075 : ℤ) < (2 : ℝ) ^ (-1022 : ℤ) :=
      zpow_lt_zpow_right₀ (by norm_num) (by norm_num)
    have hsmall : |y| < (2 : ℝ) ^ (-1022 : ℤ) := by
      rw [abs_of_nonneg hy]
      exact lt_of_le_of_lt hle hlt
    have hu : ulp y = (2 : ℝ) ^ (-1074 : ℤ) := by
      unfold ulp
      rw [binadeExponent_of_small y hsmall]
      norm_num
    have hhalf : (2 : ℝ) ^ (-1075 : ℤ) = 1 / 2 * (2 : ℝ) ^ (-1074 : ℤ) := by
      rw [show (-1075 : ℤ) = -1 + -1074 by norm_num, zpow_add₀ (by norm_num : (2 : ℝ) ≠ 0)]
      norm_num
    have hq0 : 0 ≤ y / ulp y := div_nonneg hy (ulp_pos y).le
    have hq1 : y / ulp y ≤ 1 / 2 := by
      rw [div_le_iff₀ (ulp_pos y), hu, ← hhalf]
      exact hle
    have hfloor : ⌊y / ulp y⌋ = 0 := by
      rw [Int.floor_eq_iff]
      constructor
      · simpa using hq0
      · norm_num
        linarith
    have hr : roundHalfEven (y / ulp y) = 0 := by
      unfold roundHalfEven
      rw [hfloor]
      split_ifs with a b c
      · rfl
      · exfalso
        simp at b
        linarith
      · rfl
      · exfalso
        exact c rfl
    unfold roundToGrid
    rw [hr]
    simp
  rcases le_total 0 x with hx | hx
  · exact key x hx (by rwa [abs_of_nonneg hx] at h)
  · have := key (-x) (by linarith) (by rwa [abs_of_nonpos hx] at h)
    rw [roundToGrid_neg] at this
    linarith

theorem ulp_of_small (x : ℝ) (h : |x| < (2 : ℝ) ^ (-1022 : ℤ)) :
    ulp x = (2 : ℝ) ^ (-1074 : ℤ) := by
  unfold ulp
  rw [binadeExponent_of_small x h]
  norm_num

theorem ulp_le_of_normal (x : ℝ) (h : (2 : ℝ) ^ (-1022 : ℤ) ≤ |x|) :
    ulp x ≤ (2 : ℝ) ^ (-52 : ℤ) * |x| := by
  have := binade_le_abs x h
  unfold ulp
  rw [sub_eq_add_neg, zpow_add₀ (by norm_num : (2 : ℝ) ≠ 0), mul_comm]
  exact mul_le_mul_of_nonneg_left this (zpow_pos (by norm_num) _).le

/-- The rounding error: half a unit in the last place, which is at most
`2^-53` of the value in the normal range and `2^-1075` below it. -/
theorem roundToGrid_error_bound (x : ℝ) :
    |roundToGrid x - x| ≤ (2 : ℝ) ^ (-53 : ℤ) * |x| + (2 : ℝ) ^ (-1075 : ℤ) := by
  have herr := roundToGrid_error x
  have hp1 : (0 : ℝ) ≤ (2 : ℝ) ^ (-1075 : ℤ) := (zpow_pos (by norm_num) _).le
  have hp2 : (0 : ℝ) ≤ (2 : ℝ) ^ (-53 : ℤ) * |x| :=
    mul_nonneg (zpow_pos (by norm_num) _).le (abs_nonneg x)
  by_cases hs : |x| < (2 : ℝ) ^ (-1022 : ℤ)
  · rw [ulp_of_small x hs] at herr
    have e : (2 : ℝ) ^ (-1074 : ℤ) = 2 * (2 : ℝ) ^ (-1075 : ℤ) := by
      rw [show (-1074 : ℤ) = 1 + -1075 by norm_num, zpow_add₀ (by norm_num : (2 : ℝ) ≠ 0),
        zpow_one]
    rw [e] at herr
    generalize (2 : ℝ) ^ (-1075 : ℤ) = b at *
    generalize (2 : ℝ) ^ (-53 : ℤ) * |x| = c at *
    linarith
  · have hu := ulp_le_of_normal x (not_lt.mp hs)
    have e : (2 : ℝ) ^ (-52 : ℤ) = 2 * (2 : ℝ) ^ (-53 : ℤ) := by
      rw [show (-52 : ℤ) = 1 + -53 by norm_num, zpow_add₀ (by norm_num : (2 : ℝ) ≠ 0),
        zpow_one]
    rw [e, mul_assoc] at hu
    generalize (2 : ℝ) ^ (-1075 : ℤ) = b at *
    generalize (2 : ℝ) ^ (-53 : ℤ) * |x| = c at *
    linarith

theorem round64_of_abs_le (x : ℝ) (h : |x| ≤ (2 : ℝ) ^ (1023 : ℤ)) :
    round64 x = Double.finite (roundToGrid x) := by
  have hex : roundToGrid ((2 : ℝ) ^ (1023 : ℤ)) = (2 : ℝ) ^ (1023 : ℤ) := by
    have := roundToGrid_exact 1 1023 (by norm_num) (by norm_num)
    simpa using this
  have hlt : (2 : ℝ) ^ (1023 : ℤ) < (2 : ℝ) ^ (1024 : ℤ) :=
    zpow_lt_zpow_right₀ (by norm_num) (by norm_num)
  have hb := abs_le.mp h
  have h1 : roundToGrid x ≤ (2 : ℝ) ^ (1023 : ℤ) := by
    rw [← hex]
    exact roundToGrid_mono _ _ hb.2
  have h2 : -(2 : ℝ) ^ (1023 : ℤ) ≤ roundToGrid x := by
    rw [← hex, ← roundToGrid_neg]
    exact roundToGrid_mono _ _ hb.1
  unfold round64
  rw [if_neg (by linarith), if_neg (by linarith)]

theorem round64_zero : round64 0 = Double.finite 0 := by
  rw [round64_of_abs_le 0 (by rw [abs_zero]; exact (zpow_pos (by norm_num) _).le),
    roundToGrid_zero]

theorem roundToGrid_pow2 (k : ℤ) (hk : -1074 ≤ k) :
    roundToGrid ((2 : ℝ) ^ k) = (2 : ℝ) ^ k := by
  have := roundToGrid_exact 1 k (by norm_num) hk
  simpa using this

theorem roundToGrid_le_pow2 (x : ℝ) (k : ℤ) (hk : -1074 ≤ k) (h : x ≤ (2 : ℝ) ^ k) :
    roundToGrid x ≤ (2 : ℝ) ^ k := by
  rw [← roundToGrid_pow2 k hk]
  exact roundToGrid_mono _ _ h

theorem roundToGrid_ge_pow2 (x : ℝ) (k : ℤ) (hk : -1074 ≤ k) (h : (2 : ℝ) ^ k ≤ x) :
    (2 : ℝ) ^ k ≤ roundToGrid x := by
  rw [← roundToGrid_pow2 k hk]
  exact roundToGrid_mono _ _ h

theorem abs_roundToGrid_le_pow2 (x : ℝ) (k : ℤ) (hk : -1074 ≤ k) (h : |x| ≤ (2 : ℝ) ^ k) :
    |roundToGrid x| ≤ (2 : ℝ) ^ k := by
  rw [← roundToGrid_abs]
  exact roundToGrid_le_pow2 _ k hk h

theorem abs_roundToGrid_ge_pow2 (x : ℝ) (k : ℤ) (hk : -1074 ≤ k) (h : (2 : ℝ) ^ k ≤ |x|) :
    (2 : ℝ) ^ k ≤ |roundToGrid x| := by
  rw [← roundToGrid_abs]
  exact roundToGrid_ge_pow2 _ k hk h

theorem round64_one : round64 1 = Double.finite 1 := by
  have h := roundToGrid_pow2 0 (by norm_num)
  rw [zpow_zero] at h
  rw [round64_of_abs_le 1 (by rw [abs_one]; exact one_le_zpow₀ (by norm_num) (by norm_num)), h]

/-- The rounded value is never NaN. -/
theorem round64_cases (x : ℝ) :
    round64 x = Double.finite (roundToGrid x) ∨
    (round64 x = Double.posInf ∧ 0 < x) ∨ (round64 x = Double.negInf ∧ x < 0) := by
  have hpos : (0 : ℝ) < (2 : ℝ) ^ (1024 : ℤ) := zpow_pos (by norm_num) _
  unfold round64
  split_ifs with a b
  · right; left
    refine ⟨rfl, ?_⟩
    by_contra hx
    have := roundToGrid_mono x 0 (not_lt.mp hx)
    rw [roundToGrid_zero] at this
    linarith
  · right; right
    refine ⟨rfl, ?_⟩
    by_contra hx
    have := roundToGrid_mono 0 x (not_lt.mp hx)
    rw [roundToGrid_zero] at this
    linarith
  · left; rfl

/-- The denominator is a non-negative number or plus infinity. -/
theorem denominator64_cases (sigma : ℝ) :
    (∃ d : ℝ, 0 ≤ d ∧ denominator64 sigma = Double.finite d) ∨
    denominator64 sigma = Double.posInf := by
  unfold denominator64
  have h1 : Double.mul64 (Double.finite 2) (Double.finite sigma) = round64 (2 * sigma) := rfl
  rw [h1]
  rcases round64_cases (2 * sigma) with h | ⟨h, hs⟩ | ⟨h, hs⟩
  · rw [h]
    have h2 : Double.mul64 (Double.finite (roundToGrid (2 * sigma))) (Double.finite sigma) =
        round64 (roundToGrid (2 * sigma) * sigma) := rfl
    rw [h2]
    have hnn : 0 ≤ roundToGrid (2 * sigma) * sigma := by
      rcases le_total 0 sigma with hs | hs
      · exact mul_nonneg (roundToGrid_nonneg _ (by linarith)) hs
      · have := roundToGrid_nonneg (-(2 * sigma)) (by linarith)
        rw [roundToGrid_neg] at this
        nlinarith
    rcases round64_cases (roundToGrid (2 * sigma) * sigma) with h3 | ⟨h3, _⟩ | ⟨h3, hneg⟩
    · left
      exact ⟨_, roundToGrid_nonneg _ hnn, h3⟩
    · right
      exact h3
    · exfalso
      linarith
  · right
    rw [h]
    have hs0 : 0 < sigma := by linarith
    simp [Double.mul64, Double.mul, Double.scaleInf, hs0, ne_of_gt hs0]
  · right
    rw [h]
    have hs0 : sigma < 0 := by linarith
    simp [Double.mul64, Double.mul, Double.scaleInf, ne_of_lt hs0, not_lt.mpr hs0.le]

/-- At the center the exponent is `-0 / denominator`: NaN when the denominator
is zero, zero otherwise. -/
theorem gaussProbability64_center (center sigma : ℝ) :
    (denominator64 sigma = Double.finite 0 →
      gaussProbability64 center center sigma = Double.nan) ∧
    (denominator64 sigma ≠ Double.finite 0 →
      gaussProbability64 center center sigma = Double.finite 1) := by
  have hsq : Double.mul64 (Double.finite 0) (Double.finite 0) = Double.finite 0 := by
    show round64 (0 * 0) = Double.finite 0
    rw [mul_zero, round64_zero]
  unfold gaussProbability64
  simp only [sub_self, round64_zero, hsq, Double.neg, neg_zero]
  rcases denominator64_cases sigma with ⟨d, hd, hden⟩ | hden
  · rw [hden]
    by_cases h0 : d = 0
    · simp [h0, Double.div64, Double.exp64]
    · have hne : Double.finite d ≠ Double.finite 0 := by
        intro h
        exact h0 (Double.finite.inj h)
      simp [h0, Double.div64, Double.exp64, round64_zero, round64_one]
  · rw [hden]
    simp [Double.div64, Double.exp64, round64_one]

/-- The denominator is zero for `|sigma| ≤ 2^-538`: the product underflows. -/
theorem denominator64_of_tiny (sigma : ℝ) (h : |sigma| ≤ (2 : ℝ) ^ (-538 : ℤ)) :
    denominator64 sigma = Double.finite 0 := by
  have h2 : |2 * sigma| ≤ (2 : ℝ) ^ (-537 : ℤ) := by
    rw [abs_mul, abs_two, show (-537 : ℤ) = 1 + -538 by norm_num,
      zpow_add₀ (by norm_num : (2 : ℝ) ≠ 0), zpow_one]
    linarith
  have hr := abs_roundToGrid_le_pow2 _ (-537) (by norm_num) h2
  have hprod : |roundToGrid (2 * sigma) * sigma| ≤ (2 : ℝ) ^ (-1075 : ℤ) := by
    rw [abs_mul, show (-1075 : ℤ) = -537 + -538 by norm_num,
      zpow_add₀ (by norm_num : (2 : ℝ) ≠ 0)]
    exact mul_le_mul hr h (abs_nonneg _) (zpow_pos (by norm_num) _).le
  have hbig : (2 : ℝ) ^ (-537 : ℤ) ≤ (2 : ℝ) ^ (1023 : ℤ) :=
    zpow_le_zpow_right₀ (by norm_num) (by norm_num)
  have hbig2 : (2 : ℝ) ^ (-1075 : ℤ) ≤ (2 : ℝ) ^ (1023 : ℤ) :=
    zpow_le_zpow_right₀ (by norm_num) (by norm_num)
  unfold denominator64
  show Double.mul64 (round64 (2 * sigma)) (Double.finite sigma) = Double.finite 0
  rw [round64_of_abs_le _ (le_trans h2 hbig)]
  show round64 (roundToGrid (2 * sigma) * sigma) = Double.finite 0
  rw [round64_of_abs_le _ (le_trans hprod hbig2), roundToGrid_tiny _ hprod]

/-- The denominator is not zero for `|sigma| ≥ 2^-537`. -/
theorem denominator64_of_not_tiny (sigma : ℝ) (h : (2 : ℝ) ^ (-537 : ℤ) ≤ |sigma|) :
    denominator64 sigma ≠ Double.finite 0 := by
  have hpos : (0 : ℝ) < (2 : ℝ) ^ (-1073 : ℤ) := zpow_pos (by norm_num) _
  have h2 : (2 : ℝ) ^ (-536 : ℤ) ≤ |2 * sigma| := by
    rw [abs_mul, abs_two, show (-536 : ℤ) = 1 + -537 by norm_num,
      zpow_add₀ (by norm_num : (2 : ℝ) ≠ 0), zpow_one]
    linarith
  have hr := abs_roundToGrid_ge_pow2 _ (-536) (by norm_num) h2
  have hprod : (2 : ℝ) ^ (-1073 : ℤ) ≤ |roundToGrid (2 * sigma) * sigma| := by
    rw [abs_mul, show (-1073 : ℤ) = -536 + -537 by norm_num,
      zpow_add₀ (by norm_num : (2 : ℝ) ≠ 0)]
    exact mul_le_mul hr h (zpow_pos (by norm_num) _).le (abs_nonneg _)
  have hg := abs_roundToGrid_ge_pow2 _ (-1073) (by norm_num) hprod
  unfold denominator64
  show Double.mul64 (round64 (2 * sigma)) (Double.finite sigma) ≠ Double.finite 0
  rcases round64_cases (2 * sigma) with h1 | ⟨h1, hs⟩ | ⟨h1, hs⟩
  · rw [h1]
    show round64 (roundToGrid (2 * sigma) * sigma) ≠ Double.finite 0
    rcases round64_cases (roundToGrid (2 * sigma) * sigma) with h3 | ⟨h3, _⟩ | ⟨h3, _⟩
    · rw [h3]
      intro hz
      have := Double.finite.inj hz
      rw [this, abs_zero] at hg
      linarith
    · rw [h3]
      exact fun hz => Double.noConfusion hz
    · rw [h3]
      exact fun hz => Double.noConfusion hz
  · rw [h1]
    have hs0 : 0 < sigma := by linarith
    simp [Double.mul64, Double.mul, Double.scaleInf, hs0, ne_of_gt hs0]
  · rw [h1]
    have hs0 : sigma < 0 := by linarith
    simp [Double.mul64, Double.mul, Double.scaleInf, ne_of_lt hs0, not_lt.mpr hs0.le]

theorem round64_of_tiny (x : ℝ) (h : |x| ≤ (2 : ℝ) ^ (-1075 : ℤ)) :
    round64 x = Double.finite 0 := by
  have hbig : (2 : ℝ) ^ (-1075 : ℤ) ≤ (2 : ℝ) ^ (1023 : ℤ) :=
    zpow_le_zpow_right₀ (by norm_num) (by norm_num)
  rw [round64_of_abs_le x (le_trans h hbig), roundToGrid_tiny x h]

/-- The exponential of -2048 is below half of the smallest binary64 number. -/
theorem exp_neg_2048_le : Real.exp (-2048) ≤ (2 : ℝ) ^ (-1075 : ℤ) := by
  have h2 : (2 : ℝ) ≤ Real.exp 1 := by
    have := Real.add_one_le_exp (1 : ℝ)
    linarith
  have hpow : (2 : ℝ) ^ (2048 : ℕ) ≤ Real.exp 2048 := by
    have e : Real.exp 2048 = Real.exp 1 ^ (2048 : ℕ) := by
      rw [← Real.exp_nat_mul]
      norm_num
    rw [e]
    exact pow_le_pow_left₀ (by norm_num) h2 _
  have hle : (2 : ℝ) ^ (1075 : ℕ) ≤ Real.exp 2048 :=
    le_trans (pow_le_pow_right₀ (by norm_num) (by norm_num)) hpow
  have e : (2 : ℝ) ^ (-1075 : ℤ) = ((2 : ℝ) ^ (1075 : ℕ))⁻¹ := by
    rw [zpow_neg]
    norm_cast
  rw [Real.exp_neg, e]
  exact inv_anti₀ (by positivity) hle

/-- The density of a value far from the center, relative to sigma, is zero: the
exponent is below -2048 (or minus infinity) and its exponential underflows. -/
theorem gaussProbability64_underflow (x center sigma : ℝ) (a b : ℤ)
    (ha : (2 : ℝ) ^ a ≤ |x - center|) (hx : |x - center| ≤ (2 : ℝ) ^ (500 : ℤ))
    (hb : |sigma| ≤ (2 : ℝ) ^ b) (hab : 2 * b + 12 ≤ 2 * a) (ha0 : -500 ≤ a) (hb1 : b ≤ 500)
    (hb0 : -537 ≤ b) :
    gaussProbability64 x center sigma = Double.finite 0 := by
  have two_ne : (2 : ℝ) ≠ 0 := by norm_num
  have hmono : ∀ i j : ℤ, i ≤ j → (2 : ℝ) ^ i ≤ (2 : ℝ) ^ j :=
    fun i j h => zpow_le_zpow_right₀ (by norm_num) h
  -- the difference
  have he0 : round64 (x - center) = Double.finite (roundToGrid (x - center)) :=
    round64_of_abs_le _ (le_trans hx (hmono _ _ (by norm_num)))
  have he1 := abs_roundToGrid_ge_pow2 _ a (by omega) ha
  have he2 := abs_roundToGrid_le_pow2 _ 500 (by norm_num) hx
  generalize roundToGrid (x - center) = e at he0 he1 he2
  -- the square
  have hsq : e * e = |e| * |e| := by rw [abs_mul_abs_self]
  have hs1 : (2 : ℝ) ^ (2 * a) ≤ e * e := by
    rw [hsq, show 2 * a = a + a by ring, zpow_add₀ two_ne]
    exact mul_le_mul he1 he1 (zpow_pos (by norm_num) _).le (abs_nonneg _)
  have hs2 : |e * e| ≤ (2 : ℝ) ^ (1000 : ℤ) := by
    rw [abs_mul, show (1000 : ℤ) = 500 + 500 by norm_num, zpow_add₀ two_ne]
    exact mul_le_mul he2 he2 (abs_nonneg _) (zpow_pos (by norm_num) _).le
  have hs0 : Double.mul64 (Double.finite e) (Double.finite e) =
      Double.finite (roundToGrid (e * e)) :=
    round64_of_abs_le _ (le_trans hs2 (hmono _ _ (by norm_num)))
  have hs3 := roundToGrid_ge_pow2 _ (2 * a) (by omega) hs1
  generalize roundToGrid (e * e) = s at hs0 hs3
  have hspos : 0 < s := lt_of_lt_of_le (zpow_pos (by norm_num) _) hs3
  -- the denominator
  have h2 : |2 * sigma| ≤ (2 : ℝ) ^ (b + 1) := by
    rw [abs_mul, abs_two, zpow_add₀ two_ne, zpow_one]
    linarith
  have hr := abs_roundToGrid_le_pow2 _ (b + 1) (by omega) h2
  have hprod : |roundToGrid (2 * sigma) * sigma| ≤ (2 : ℝ) ^ (2 * b + 1) := by
    rw [abs_mul, show 2 * b + 1 = b + 1 + b by ring, zpow_add₀ two_ne]
    exact mul_le_mul hr hb (abs_nonneg _) (zpow_pos (by norm_num) _).le
  have hd0 : denominator64 sigma = Double.finite (roundToGrid (roundToGrid (2 * sigma) * sigma)) := by
    unfold denominator64
    show Double.mul64 (round64 (2 * sigma)) (Double.finite sigma) = _
    rw [round64_of_abs_le _ (le_trans h2 (hmono _ _ (by omega)))]
    show round64 (roundToGrid (2 * sigma) * sigma) = _
    rw [round64_of_abs_le _ (le_trans hprod (hmono _ _ (by omega)))]
  have hd1 := abs_roundToGrid_le_pow2 _ (2 * b + 1) (by omega) hprod
  have hd2 : 0 ≤ roundToGrid (roundToGrid (2 * sigma) * sigma) := by
    rcases denominator64_cases sigma with ⟨d, hd, hden⟩ | hden
    · rw [hd0] at hden
      rw [Double.finite.inj hden]
      exact hd
    · rw [hd0] at hden
      exact Double.noConfusion hden
  generalize roundToGrid (roundToGrid (2 * sigma) * sigma) = d at hd0 hd1 hd2
  rw [abs_of_nonneg hd2] at hd1
  -- the quotient and its exponential
  unfold gaussProbability64
  simp only [he0, hs0, hd0, Double.neg, Double.div64]
  by_cases hdz : d = 0
  · have hne : -s ≠ 0 := by linarith
    have hlt : -s < 0 := by linarith
    simp [hdz, hne, hlt, Double.exp64]
  · have hdpos : 0 < d := lt_of_le_of_ne hd2 (Ne.symm hdz)
    have hq : -s / d ≤ -(2 : ℝ) ^ (11 : ℤ) := by
      have h1 : (2 : ℝ) ^ (11 : ℤ) * d ≤ s := by
        calc (2 : ℝ) ^ (11 : ℤ) * d ≤ (2 : ℝ) ^ (11 : ℤ) * (2 : ℝ) ^ (2 * b + 1) :=
              mul_le_mul_of_nonneg_left hd1 (zpow_pos (by norm_num) _).le
          _ = (2 : ℝ) ^ (2 * b + 12) := by
              rw [← zpow_add₀ two_ne]
              congr 1
              ring
          _ ≤ (2 : ℝ) ^ (2 * a) := hmono _ _ hab
          _ ≤ s := hs3
      rw [neg_div, neg_le_neg_iff, le_div_iff₀ hdpos]
      exact h1
    have hq2 : roundToGrid (-s / d) ≤ -(2 : ℝ) ^ (11 : ℤ) := by
      have := roundToGrid_mono _ _ hq
      rwa [roundToGrid_neg, roundToGrid_pow2 11 (by norm_num)] at this
    have hexp : ∀ q : ℝ, q ≤ -(2 : ℝ) ^ (11 : ℤ) →
        round64 (Real.exp q) = Double.finite 0 := by
      intro q hq
      apply round64_of_tiny
      rw [abs_of_pos (Real.exp_pos _)]
      refine le_trans (Real.exp_le_exp.mpr ?_) exp_neg_2048_le
      norm_num at hq ⊢
      exact hq
    rw [if_neg hdz]
    rcases round64_cases (-s / d) with h | ⟨h, hpos⟩ | ⟨h, _⟩
    · rw [h]
      exact hexp _ hq2
    · exfalso
      have : -s / d < 0 := div_neg_of_neg_of_pos (by linarith) hdpos
      linarith
    · rw [h]
      rfl

/-! ## The retry loop in binary64 -/

/-- One binary64 attempt reads two words of the tape. -/
theorem generateCoordinate64_rng (center sigma : ℝ) (rng : QRandomGenerator) :
    (generateCoordinate64 center sigma rng).rng = ⟨rng.tape, rng.pos + 2⟩ := by
  simp [generateCoordinate64, QRandomGenerator.bounded, QRandomGenerator.generateDouble]

/-- The binary64 loop started at `pos` ends at the first accepted attempt. -/
theorem sampleCoordinate64_first_accepted (center sigma : ℝ) (tape : Nat → Nat) (k : Nat) :
    ∀ (pos fuel : Nat), k < fuel → AcceptedAt64 center sigma tape (pos + 2 * k) →
      (∀ j, j < k → ¬ AcceptedAt64 center sigma tape (pos + 2 * j)) →
      sampleCoordinate64 center sigma fuel ⟨tape, pos⟩ =
        some ((generateCoordinate64 center sigma ⟨tape, pos + 2 * k⟩).coordinate,
          ⟨tape, pos + 2 * k + 2⟩) := by
  induction k with
  | zero =>
    intro pos fuel hf hacc _
    obtain ⟨f, rfl⟩ : ∃ f, fuel = f + 1 := ⟨fuel - 1, by omega⟩
    simp only [AcceptedAt64, Nat.mul_zero, Nat.add_zero] at hacc
    simp [sampleCoordinate64, hacc, generateCoordinate64_rng]
  | succ k ih =>
    intro pos fuel hf hacc hnot
    obtain ⟨f, rfl⟩ : ∃ f, fuel = f + 1 := ⟨fuel - 1, by omega⟩
    have h0 : ¬ AcceptedAt64 center sigma tape pos := by
      have := hnot 0 (by omega)
      simpa using this
    simp only [AcceptedAt64] at h0
    simp only [sampleCoordinate64, h0, generateCoordinate64_rng]
    have hacc1 : AcceptedAt64 center sigma tape (pos + 2 + 2 * k) := by
      have e : pos + 2 + 2 * k = pos + 2 * (k + 1) := by ring
      rw [e]; exact hacc
    have hnot1 : ∀ j, j < k → ¬ AcceptedAt64 center sigma tape (pos + 2 + 2 * j) := by
      intro j hj
      have e : pos + 2 + 2 * j = pos + 2 * (j + 1) := by ring
      rw [e]; exact hnot (j + 1) (by omega)
    have := ih (pos + 2) f (by omega) hacc1 hnot1
    simp only [Bool.false_eq_true, if_false]
    rw [this]
    have e : pos + 2 + 2 * k = pos + 2 * (k + 1) := by ring
    rw [e]

/-- A binary64 loop that meets an accepted attempt is left with enough fuel. -/
theorem sampleCoordinate64_exists (center sigma : ℝ) (tape : Nat → Nat) (pos : Nat)
    (h : ∃ k, AcceptedAt64 center sigma tape (pos + 2 * k)) :
    ∃ fuel r, sampleCoordinate64 center sigma fuel ⟨tape, pos⟩ = some r := by
  classical
  have hmin := Nat.find_spec h
  have hlt := fun j (hj : j < Nat.find h) => Nat.find_min h hj
  exact ⟨Nat.find h + 1, _,
    sampleCoordinate64_first_accepted center sigma tape (Nat.find h) pos (Nat.find h + 1)
      (by omega) hmin hlt⟩

/-- A binary64 loop that is left met an accepted attempt. -/
theorem sampleCoordinate64_accepted_of_some (center sigma : ℝ) (tape : Nat → Nat)
    (fuel : Nat) :
    ∀ (pos : Nat) (r : Int × QRandomGenerator),
      sampleCoordinate64 center sigma fuel ⟨tape, pos⟩ = some r →
      ∃ k, AcceptedAt64 center sigma tape (pos + 2 * k) := by
  induction fuel with
  | zero => intro pos r h; simp [sampleCoordinate64] at h
  | succ fuel ih =>
    intro pos r h
    simp only [sampleCoordinate64] at h
    split at h
    · rename_i hacc
      exact ⟨0, by simpa [AcceptedAt64] using hacc⟩
    · rw [generateCoordinate64_rng] at h
      obtain ⟨k, hk⟩ := ih (pos + 2) r h
      refine ⟨k + 1, ?_⟩
      have e : pos + 2 * (k + 1) = pos + 2 + 2 * k := by ring
      rw [e]; exact hk

/-- An attempt whose candidate has density zero is rejected. -/
theorem generateCoordinate64_rejected_of_zero (center sigma : ℝ) (rng : QRandomGenerator)
    (h : gaussProbability64 ((rng.bounded (-300) 301).1 : ℝ) center sigma = Double.finite 0) :
    (generateCoordinate64 center sigma rng).accepted = false := by
  have hu := (generateDouble_range (rng.bounded (-300) 301).2).1
  simp only [generateCoordinate64, h, Double.lt, decide_eq_false_iff_not, not_lt]
  exact hu

/-- An accepted attempt has a candidate of positive density. -/
theorem generateCoordinate64_accepted_pos (center sigma : ℝ) (rng : QRandomGenerator)
    (h : (generateCoordinate64 center sigma rng).accepted = true) :
    Double.lt (Double.finite 0)
      (gaussProbability64 ((generateCoordinate64 center sigma rng).coordinate : ℝ)
        center sigma) = true := by
  have hu := (generateDouble_range (rng.bounded (-300) 301).2).1
  simp only [generateCoordinate64] at h ⊢
  generalize gaussProbability64 ((rng.bounded (-300) 301).1 : ℝ) center sigma = p at h ⊢
  cases p with
  | finite v =>
    simp only [Double.lt, decide_eq_true_eq] at h ⊢
    linarith
  | posInf => rfl
  | negInf => simp [Double.lt] at h
  | nan => simp [Double.lt] at h

/-- The candidate of a binary64 attempt lies in the domain. -/
theorem generateCoordinate64_inDomain (center sigma : ℝ) (rng : QRandomGenerator) :
    InDomain (generateCoordinate64 center sigma rng).coordinate := by
  have h := bounded_range rng (-300) 301 (by norm_num)
  simp only [generateCoordinate64, InDomain]
  constructor <;> omega

/-- The first attempt on `candidateRng c` draws `c` and the uniform value 0. -/
theorem candidateRng_draws (c : Int) (hc : InDomain c) :
    ((candidateRng c).bounded (-300) 301).1 = c ∧
    (((candidateRng c).bounded (-300) 301).2.generateDouble).1 = 0 := by
  obtain ⟨h1, h2⟩ := hc
  constructor
  · simp only [candidateRng, QRandomGenerator.bounded, if_true]
    rw [Int.toNat_of_nonneg (by omega), show (301 : Int) - -300 = 601 by norm_num]
    omega
  · simp [candidateRng, QRandomGenerator.bounded, QRandomGenerator.generateDouble]

/-- With center 1/2 and sigma `2^-7` every candidate has density zero. -/
theorem half_center_density_zero (c : Int) (hc : InDomain c) :
    gaussProbability64 (c : ℝ) (1 / 2) ((2 : ℝ) ^ (-7 : ℤ)) = Double.finite 0 := by
  obtain ⟨h1, h2⟩ := hc
  have hlow : (2 : ℝ) ^ (-1 : ℤ) ≤ |(c : ℝ) - 1 / 2| := by
    rw [zpow_neg_one]
    rcases le_or_lt c 0 with h | h
    · have : (c : ℝ) ≤ 0 := by exact_mod_cast h
      rw [abs_of_nonpos (by linarith)]
      linarith
    · have : (1 : ℝ) ≤ c := by exact_mod_cast h
      rw [abs_of_nonneg (by linarith)]
      linarith
  have hhigh : |(c : ℝ) - 1 / 2| ≤ (2 : ℝ) ^ (500 : ℤ) := by
    have ha : (-300 : ℝ) ≤ c := by exact_mod_cast h1
    have hb : (c : ℝ) ≤ 300 := by exact_mod_cast h2
    have hbig : (2 : ℝ) ^ (9 : ℤ) ≤ (2 : ℝ) ^ (500 : ℤ) :=
      zpow_le_zpow_right₀ (by norm_num) (by norm_num)
    have h9 : (2 : ℝ) ^ (9 : ℤ) = 512 := by norm_num
    rw [h9] at hbig
    refine le_trans ?_ hbig
    rw [abs_le]
    constructor <;> linarith
  have hs : |(2 : ℝ) ^ (-7 : ℤ)| ≤ (2 : ℝ) ^ (-7 : ℤ) :=
    le_of_eq (abs_of_pos (zpow_pos (by norm_num) _))
  exact gaussProbability64_underflow _ _ _ (-1) (-7) hlow hhigh hs (by norm_num) (by norm_num)
    (by norm_num) (by norm_num)

/-- With center 1/2 and sigma `2^-7` the retry loop is never left. -/
theorem half_center_none (fuel : Nat) :
    ∀ rng, sampleCoordinate64 (1 / 2) ((2 : ℝ) ^ (-7 : ℤ)) fuel rng = none := by
  induction fuel with
  | zero => intro rng; rfl
  | succ fuel ih =>
    intro rng
    have hrej := generateCoordinate64_rejected_of_zero (1 / 2) ((2 : ℝ) ^ (-7 : ℤ)) rng
      (half_center_density_zero _ (by
        have h := bounded_range rng (-300) 301 (by norm_num)
        constructor <;> omega))
    simp only [sampleCoordinate64, hrej, Bool.false_eq_true, if_false]
    exact ih _

/-- A dyadic number with a significand below `2^53` is a binary64 number. -/
theorem isBinary64_dyadic (m k : ℤ) (hm : |m| < 2 ^ 53) (hk : -1074 ≤ k) (hk2 : k ≤ 970) :
    IsBinary64 ((m : ℝ) * (2 : ℝ) ^ k) := by
  have h2 : (0 : ℝ) < (2 : ℝ) ^ k := zpow_pos (by norm_num) _
  have hmR : |(m : ℝ)| ≤ (2 : ℝ) ^ (53 : ℤ) := by
    have : ((|m| : ℤ) : ℝ) < ((2 ^ 53 : ℤ) : ℝ) := by exact_mod_cast hm
    rw [Int.cast_abs] at this
    norm_num at this ⊢
    exact this.le
  have hb : |(m : ℝ) * (2 : ℝ) ^ k| ≤ (2 : ℝ) ^ (1023 : ℤ) := by
    rw [abs_mul, abs_of_pos h2]
    calc |(m : ℝ)| * (2 : ℝ) ^ k ≤ (2 : ℝ) ^ (53 : ℤ) * (2 : ℝ) ^ (970 : ℤ) :=
          mul_le_mul hmR (zpow_le_zpow_right₀ (by norm_num) hk2) h2.le
            (zpow_pos (by norm_num) _).le
      _ = (2 : ℝ) ^ (1023 : ℤ) := by
          rw [← zpow_add₀ (by norm_num : (2 : ℝ) ≠ 0)]
          norm_num
  unfold IsBinary64
  rw [round64_of_abs_le _ hb, roundToGrid_exact m k hm hk]

/-! ## The computed density and the exact density -/

/-- For moderate arguments: the rounded square is at most `2^200` and the
rounded denominator lies between `2^-199` and `2^201`. -/
theorem scaled_bounds (x center sigma : ℝ) (h : WellScaled x center sigma) :
    0 ≤ roundToGrid (roundToGrid (x - center) * roundToGrid (x - center)) ∧
    roundToGrid (roundToGrid (x - center) * roundToGrid (x - center)) ≤ (2 : ℝ) ^ (200 : ℤ) ∧
    (2 : ℝ) ^ (-199 : ℤ) ≤ roundToGrid (roundToGrid (2 * sigma) * sigma) ∧
    roundToGrid (roundToGrid (2 * sigma) * sigma) ≤ (2 : ℝ) ^ (201 : ℤ) ∧
    |roundToGrid (x - center)| ≤ (2 : ℝ) ^ (100 : ℤ) ∧
    |roundToGrid (2 * sigma)| ≤ (2 : ℝ) ^ (101 : ℤ) ∧
    roundToGrid (2 * sigma) * sigma = |roundToGrid (2 * sigma)| * |sigma| := by
  obtain ⟨hx, hs1, hs2⟩ := h
  have two_ne : (2 : ℝ) ≠ 0 := by norm_num
  have he := abs_roundToGrid_le_pow2 _ 100 (by norm_num) hx
  have hsq : roundToGrid (x - center) * roundToGrid (x - center) =
      |roundToGrid (x - center)| * |roundToGrid (x - center)| := by rw [abs_mul_abs_self]
  have hsq0 : 0 ≤ roundToGrid (x - center) * roundToGrid (x - center) := mul_self_nonneg _
  have hsq1 : roundToGrid (x - center) * roundToGrid (x - center) ≤ (2 : ℝ) ^ (200 : ℤ) := by
    rw [hsq, show (200 : ℤ) = 100 + 100 by norm_num, zpow_add₀ two_ne]
    exact mul_le_mul he he (abs_nonneg _) (zpow_pos (by norm_num) _).le
  have h2a : |2 * sigma| ≤ (2 : ℝ) ^ (101 : ℤ) := by
    rw [abs_mul, abs_two, show (101 : ℤ) = 1 + 100 by norm_num, zpow_add₀ two_ne, zpow_one]
    linarith
  have h2b : (2 : ℝ) ^ (-99 : ℤ) ≤ |2 * sigma| := by
    rw [abs_mul, abs_two, show (-99 : ℤ) = 1 + -100 by norm_num, zpow_add₀ two_ne, zpow_one]
    linarith
  have hr1 := abs_roundToGrid_le_pow2 _ 101 (by norm_num) h2a
  have hr2 := abs_roundToGrid_ge_pow2 _ (-99) (by norm_num) h2b
  have hsign : roundToGrid (2 * sigma) * sigma = |roundToGrid (2 * sigma)| * |sigma| := by
    rcases le_total 0 sigma with hs | hs
    · rw [abs_of_nonneg hs, abs_of_nonneg (roundToGrid_nonneg _ (by linarith))]
    · have := roundToGrid_nonneg (-(2 * sigma)) (by linarith)
      rw [roundToGrid_neg] at this
      rw [abs_of_nonpos hs, abs_of_nonpos (by linarith)]
      ring
  have hp1 : roundToGrid (2 * sigma) * sigma ≤ (2 : ℝ) ^ (201 : ℤ) := by
    rw [hsign, show (201 : ℤ) = 101 + 100 by norm_num, zpow_add₀ two_ne]
    exact mul_le_mul hr1 hs2 (abs_nonneg _) (zpow_pos (by norm_num) _).le
  have hp2 : (2 : ℝ) ^ (-199 : ℤ) ≤ roundToGrid (2 * sigma) * sigma := by
    rw [hsign, show (-199 : ℤ) = -99 + -100 by norm_num, zpow_add₀ two_ne]
    exact mul_le_mul hr2 hs1 (zpow_pos (by norm_num) _).le (abs_nonneg _)
  exact ⟨roundToGrid_nonneg _ hsq0, roundToGrid_le_pow2 _ 200 (by norm_num) hsq1,
    roundToGrid_ge_pow2 _ (-199) (by norm_num) hp2,
    roundToGrid_le_pow2 _ 201 (by norm_num) hp1, he, hr1, hsign⟩

/-- For moderate arguments the exponent is a non-positive number of magnitude
at most `2^399`. -/
theorem exponent64_range (x center sigma : ℝ) (h : WellScaled x center sigma) :
    exponent64 x center sigma ≤ 0 ∧ -(2 : ℝ) ^ (399 : ℤ) ≤ exponent64 x center sigma ∧
    |(-(roundToGrid (roundToGrid (x - center) * roundToGrid (x - center)))) /
      roundToGrid (roundToGrid (2 * sigma) * sigma)| ≤ (2 : ℝ) ^ (399 : ℤ) := by
  obtain ⟨hs0, hs1, hd0, hd1, -, -, -⟩ := scaled_bounds x center sigma h
  unfold exponent64
  generalize roundToGrid (roundToGrid (x - center) * roundToGrid (x - center)) = s at *
  generalize roundToGrid (roundToGrid (2 * sigma) * sigma) = d at *
  have hdpos : 0 < d := lt_of_lt_of_le (zpow_pos (by norm_num) _) hd0
  have hq0 : -s / d ≤ 0 := div_nonpos_of_nonpos_of_nonneg (by linarith) hdpos.le
  have hq1 : -(2 : ℝ) ^ (399 : ℤ) ≤ -s / d := by
    rw [neg_div, neg_le_neg_iff, div_le_iff₀ hdpos]
    calc s ≤ (2 : ℝ) ^ (200 : ℤ) := hs1
      _ = (2 : ℝ) ^ (399 : ℤ) * (2 : ℝ) ^ (-199 : ℤ) := by
          rw [← zpow_add₀ (by norm_num : (2 : ℝ) ≠ 0)]
          norm_num
      _ ≤ (2 : ℝ) ^ (399 : ℤ) * d :=
          mul_le_mul_of_nonneg_left hd0 (zpow_pos (by norm_num) _).le
  refine ⟨?_, ?_, ?_⟩
  · have := roundToGrid_mono _ _ hq0
    rwa [roundToGrid_zero] at this
  · have := roundToGrid_mono _ _ hq1
    rwa [roundToGrid_neg, roundToGrid_pow2 399 (by norm_num)] at this
  · rw [abs_le]
    exact ⟨hq1, le_trans hq0 (zpow_pos (by norm_num) _).le⟩

/-- For moderate arguments the density is a number between 0 and 1. -/
theorem density64_range (x center sigma : ℝ) (h : WellScaled x center sigma) :
    0 ≤ density64 x center sigma ∧ density64 x center sigma ≤ 1 := by
  have hq := (exponent64_range x center sigma h).1
  unfold density64
  constructor
  · exact roundToGrid_nonneg _ (Real.exp_pos _).le
  · have h1 : Real.exp (exponent64 x center sigma) ≤ (2 : ℝ) ^ (0 : ℤ) := by
      rw [zpow_zero]
      exact Real.exp_le_one_iff.mpr hq
    have := roundToGrid_le_pow2 _ 0 (by norm_num) h1
    rwa [zpow_zero] at this

/-- For moderate arguments no operation of `gaussProbability` overflows or
divides by zero, and the result is the number `density64`. -/
theorem gaussProbability64_of_wellScaled (x center sigma : ℝ) (h : WellScaled x center sigma) :
    gaussProbability64 x center sigma = Double.finite (density64 x center sigma) := by
  obtain ⟨hs0, hs1, hd0, hd1, he, hr, hsign⟩ := scaled_bounds x center sigma h
  obtain ⟨hq0, hq1, hq2⟩ := exponent64_range x center sigma h
  obtain ⟨hp0, hp1⟩ := density64_range x center sigma h
  have hmono : ∀ i j : ℤ, i ≤ j → (2 : ℝ) ^ i ≤ (2 : ℝ) ^ j :=
    fun i j h => zpow_le_zpow_right₀ (by norm_num) h
  have two_ne : (2 : ℝ) ≠ 0 := by norm_num
  have hdiff : round64 (x - center) = Double.finite (roundToGrid (x - center)) :=
    round64_of_abs_le _ (le_trans h.1 (hmono _ _ (by norm_num)))
  have hsq : Double.mul64 (Double.finite (roundToGrid (x - center)))
      (Double.finite (roundToGrid (x - center))) =
      Double.finite (roundToGrid (roundToGrid (x - center) * roundToGrid (x - center))) := by
    refine round64_of_abs_le _ ?_
    rw [abs_mul, show (1023 : ℤ) = 100 + 923 by norm_num, zpow_add₀ two_ne]
    exact mul_le_mul he (le_trans he (hmono _ _ (by norm_num))) (abs_nonneg _)
      (zpow_pos (by norm_num) _).le
  have hden : denominator64 sigma =
      Double.finite (roundToGrid (roundToGrid (2 * sigma) * sigma)) := by
    have h2a : |2 * sigma| ≤ (2 : ℝ) ^ (101 : ℤ) := by
      rw [abs_mul, abs_two, show (101 : ℤ) = 1 + 100 by norm_num, zpow_add₀ two_ne, zpow_one]
      linarith [h.2.2]
    unfold denominator64
    show Double.mul64 (round64 (2 * sigma)) (Double.finite sigma) = _
    rw [round64_of_abs_le _ (le_trans h2a (hmono _ _ (by norm_num)))]
    refine round64_of_abs_le _ ?_
    rw [abs_mul, show (1023 : ℤ) = 101 + 922 by norm_num, zpow_add₀ two_ne]
    exact mul_le_mul hr (le_trans h.2.2 (hmono _ _ (by norm_num))) (abs_nonneg _)
      (zpow_pos (by norm_num) _).le
  have hdne : roundToGrid (roundToGrid (2 * sigma) * sigma) ≠ 0 :=
    ne_of_gt (lt_of_lt_of_le (zpow_pos (by norm_num) _) hd0)
  have hquot : round64 (-(roundToGrid (roundToGrid (x - center) * roundToGrid (x - center))) /
      roundToGrid (roundToGrid (2 * sigma) * sigma)) =
      Double.finite (exponent64 x center sigma) :=
    round64_of_abs_le _ (le_trans hq2 (hmono _ _ (by norm_num)))
  have hexp : round64 (Real.exp (exponent64 x center sigma)) =
      Double.finite (density64 x center sigma) := by
    refine round64_of_abs_le _ ?_
    rw [abs_of_pos (Real.exp_pos _)]
    exact le_trans (Real.exp_le_one_iff.mpr hq0) (one_le_zpow₀ (by norm_num) (by norm_num))
  unfold gaussProbability64
  simp only [hdiff, hsq, hden, Double.neg, Double.div64, if_neg hdne, hquot, Double.exp64, hexp]

/-- In the normal range the rounded value is within the fraction `2^-53` of
the value. -/
theorem roundToGrid_rel (t : ℝ) (ht : (2 : ℝ) ^ (-1022 : ℤ) ≤ t) :
    (1 - (2 : ℝ) ^ (-53 : ℤ)) * t ≤ roundToGrid t ∧
    roundToGrid t ≤ (1 + (2 : ℝ) ^ (-53 : ℤ)) * t := by
  have ht0 : 0 ≤ t := le_trans (zpow_pos (by norm_num) _).le ht
  have habs : (2 : ℝ) ^ (-1022 : ℤ) ≤ |t| := by rwa [abs_of_nonneg ht0]
  have herr := roundToGrid_error t
  have hu := ulp_le_of_normal t habs
  rw [abs_of_nonneg ht0] at hu
  have e : (2 : ℝ) ^ (-52 : ℤ) = 2 * (2 : ℝ) ^ (-53 : ℤ) := by
    rw [show (-52 : ℤ) = 1 + -53 by norm_num, zpow_add₀ (by norm_num : (2 : ℝ) ≠ 0), zpow_one]
  rw [e] at hu
  rw [abs_le] at herr
  generalize (2 : ℝ) ^ (-53 : ℤ) = ε at *
  constructor <;> nlinarith [herr.1, herr.2]

/-- The algebra of the five roundings: each within the fraction `ε` of its
exact value, the quotient is within the fraction `16 ε` of the exact quotient. -/
theorem quotient_chain (ε A S e s r D w : ℝ) (hε0 : 0 < ε) (hε1 : ε ≤ 1 / 100)
    (hA : 0 ≤ A) (hS : 0 < S)
    (he1 : (1 - ε) * A ≤ e) (he2 : e ≤ (1 + ε) * A)
    (hs1 : (1 - ε) * (e * e) ≤ s) (hs2 : s ≤ (1 + ε) * (e * e))
    (hr1 : (1 - ε) * (2 * S) ≤ r) (hr2 : r ≤ (1 + ε) * (2 * S))
    (hD1 : (1 - ε) * (r * S) ≤ D) (hD2 : D ≤ (1 + ε) * (r * S))
    (hw1 : (1 - ε) * (s / D) ≤ w) (hw2 : w ≤ (1 + ε) * (s / D)) :
    (1 - 16 * ε) * (A ^ 2 / (2 * S ^ 2)) ≤ w ∧ w ≤ (1 + 16 * ε) * (A ^ 2 / (2 * S ^ 2)) := by
  have h1m : 0 < 1 - ε := by linarith
  have h1p : 0 < 1 + ε := by linarith
  have he0 : 0 ≤ e := le_trans (mul_nonneg h1m.le hA) he1
  have hee1 : (1 - ε) ^ 2 * A ^ 2 ≤ e * e := by
    have := mul_self_le_mul_self (mul_nonneg h1m.le hA) he1
    nlinarith
  have hee2 : e * e ≤ (1 + ε) ^ 2 * A ^ 2 := by
    have := mul_self_le_mul_self he0 he2
    nlinarith
  have hsl : (1 - ε) ^ 3 * A ^ 2 ≤ s := by
    have := mul_le_mul_of_nonneg_left hee1 h1m.le
    nlinarith
  have hsu : s ≤ (1 + ε) ^ 3 * A ^ 2 := by
    have := mul_le_mul_of_nonneg_left hee2 h1p.le
    nlinarith
  have hs0 : 0 ≤ s := le_trans (by positivity) hsl
  have hr0 : 0 < r := lt_of_lt_of_le (by positivity) hr1
  have hDl : (1 - ε) ^ 2 * (2 * S ^ 2) ≤ D := by
    have := mul_le_mul_of_nonneg_left (mul_le_mul_of_nonneg_right hr1 hS.le) h1m.le
    nlinarith
  have hDu : D ≤ (1 + ε) ^ 2 * (2 * S ^ 2) := by
    have := mul_le_mul_of_nonneg_left (mul_le_mul_of_nonneg_right hr2 hS.le) h1p.le
    nlinarith
  have hV : 0 < 2 * S ^ 2 := by positivity
  have hD0 : 0 < D := lt_of_lt_of_le (by positivity) hDl
  have hqu : s / D ≤ (1 + ε) ^ 3 * A ^ 2 / ((1 - ε) ^ 2 * (2 * S ^ 2)) :=
    div_le_div₀ (by positivity) hsu (by positivity) hDl
  have hql : (1 - ε) ^ 3 * A ^ 2 / ((1 + ε) ^ 2 * (2 * S ^ 2)) ≤ s / D :=
    div_le_div₀ hs0 hsl hD0 hDu
  have keyu : (1 + ε) ^ 4 ≤ (1 + 16 * ε) * (1 - ε) ^ 2 := by
    have e1 : (1 + 16 * ε) * (1 - ε) ^ 2 - (1 + ε) ^ 4 =
        ε * (10 - 37 * ε + 12 * ε ^ 2 - ε ^ 3) := by ring
    have h3 : ε ^ 3 ≤ 1 := pow_le_one₀ hε0.le (by linarith)
    have h2 : 0 ≤ ε ^ 2 := sq_nonneg ε
    have h4 : 0 ≤ ε * (10 - 37 * ε + 12 * ε ^ 2 - ε ^ 3) :=
      mul_nonneg hε0.le (by linarith)
    linarith
  have keyl : (1 - 16 * ε) * (1 + ε) ^ 2 ≤ (1 - ε) ^ 4 := by
    have e1 : (1 - ε) ^ 4 - (1 - 16 * ε) * (1 + ε) ^ 2 =
        ε * (10 + 37 * ε + 12 * ε ^ 2 + ε ^ 3) := by ring
    have h4 : 0 ≤ ε * (10 + 37 * ε + 12 * ε ^ 2 + ε ^ 3) := by positivity
    linarith
  have hW : 0 ≤ A ^ 2 / (2 * S ^ 2) := by positivity
  constructor
  · have h2 : (1 - 16 * ε) * (A ^ 2 / (2 * S ^ 2)) ≤
        (1 - ε) * ((1 - ε) ^ 3 * A ^ 2 / ((1 + ε) ^ 2 * (2 * S ^ 2))) := by
      have e1 : (1 - ε) * ((1 - ε) ^ 3 * A ^ 2 / ((1 + ε) ^ 2 * (2 * S ^ 2))) =
          (1 - ε) ^ 4 / (1 + ε) ^ 2 * (A ^ 2 / (2 * S ^ 2)) := by
        rw [← mul_div_assoc, div_mul_div_comm]
        congr 1
        ring
      rw [e1]
      apply mul_le_mul_of_nonneg_right _ hW
      rw [le_div_iff₀ (by positivity)]
      exact keyl
    calc (1 - 16 * ε) * (A ^ 2 / (2 * S ^ 2))
        ≤ (1 - ε) * ((1 - ε) ^ 3 * A ^ 2 / ((1 + ε) ^ 2 * (2 * S ^ 2))) := h2
      _ ≤ (1 - ε) * (s / D) := mul_le_mul_of_nonneg_left hql h1m.le
      _ ≤ w := hw1
  · have h2 : (1 + ε) * ((1 + ε) ^ 3 * A ^ 2 / ((1 - ε) ^ 2 * (2 * S ^ 2))) ≤
        (1 + 16 * ε) * (A ^ 2 / (2 * S ^ 2)) := by
      have e1 : (1 + ε) * ((1 + ε) ^ 3 * A ^ 2 / ((1 - ε) ^ 2 * (2 * S ^ 2))) =
          (1 + ε) ^ 4 / (1 - ε) ^ 2 * (A ^ 2 / (2 * S ^ 2)) := by
        rw [← mul_div_assoc, div_mul_div_comm]
        congr 1
        ring
      rw [e1]
      apply mul_le_mul_of_nonneg_right _ hW
      rw [div_le_iff₀ (by positivity)]
      exact keyu
    calc w ≤ (1 + ε) * (s / D) := hw2
      _ ≤ (1 + ε) * ((1 + ε) ^ 3 * A ^ 2 / ((1 - ε) ^ 2 * (2 * S ^ 2))) :=
          mul_le_mul_of_nonneg_left hqu h1p.le
      _ ≤ (1 + 16 * ε) * (A ^ 2 / (2 * S ^ 2)) := h2

/-- The exponent in terms of the distance from the center and the magnitude of
sigma. -/
theorem exponent64_abs (x center sigma : ℝ) :
    exponent64 x center sigma =
      -roundToGrid (roundToGrid (roundToGrid |x - center| * roundToGrid |x - center|) /
        roundToGrid (roundToGrid (2 * |sigma|) * |sigma|)) := by
  have h1 : roundToGrid (x - center) * roundToGrid (x - center) =
      roundToGrid |x - center| * roundToGrid |x - center| := by
    rw [roundToGrid_abs, abs_mul_abs_self]
  have h2 : roundToGrid (2 * sigma) * sigma = roundToGrid (2 * |sigma|) * |sigma| := by
    have e : (2 : ℝ) * |sigma| = |2 * sigma| := by rw [abs_mul, abs_two]
    rw [e, roundToGrid_abs]
    rcases le_total 0 sigma with hs | hs
    · rw [abs_of_nonneg hs, abs_of_nonneg (roundToGrid_nonneg _ (by linarith))]
    · have := roundToGrid_nonneg (-(2 * sigma)) (by linarith)
      rw [roundToGrid_neg] at this
      rw [abs_of_nonpos hs, abs_of_nonpos (by linarith)]
      ring
  unfold exponent64
  rw [h1, h2, neg_div, roundToGrid_neg]

/-- For moderate arguments the computed exponent is within the fraction `2^-49`
(and `2^-400`) of the exact exponent `-(x - center)^2 / (2 sigma^2)`. -/
theorem exponent64_error (x center sigma : ℝ) (h : WellScaled x center sigma) :
    |exponent64 x center sigma - -((x - center) ^ 2 / (2 * sigma ^ 2))| ≤
      (2 : ℝ) ^ (-49 : ℤ) * ((x - center) ^ 2 / (2 * sigma ^ 2)) + (2 : ℝ) ^ (-400 : ℤ) := by
  obtain ⟨hx, hs1, hs2⟩ := h
  have two_ne : (2 : ℝ) ≠ 0 := by norm_num
  have hpos : ∀ k : ℤ, (0 : ℝ) < (2 : ℝ) ^ k := fun k => zpow_pos (by norm_num) k
  have hmono : ∀ i j : ℤ, i ≤ j → (2 : ℝ) ^ i ≤ (2 : ℝ) ^ j :=
    fun i j h => zpow_le_zpow_right₀ (by norm_num) h
  have hW : (x - center) ^ 2 / (2 * sigma ^ 2) = |x - center| ^ 2 / (2 * |sigma| ^ 2) := by
    rw [sq_abs, sq_abs]
  rw [exponent64_abs, hW]
  have hA0 : 0 ≤ |x - center| := abs_nonneg _
  generalize |x - center| = A at hx hA0 ⊢
  generalize |sigma| = S at hs1 hs2 ⊢
  have hS0 : 0 < S := lt_of_lt_of_le (hpos _) hs1
  -- the denominator
  have h2S1 : (2 : ℝ) ^ (-99 : ℤ) ≤ 2 * S := by
    rw [show (-99 : ℤ) = 1 + -100 by norm_num, zpow_add₀ two_ne, zpow_one]
    linarith
  have h2S2 : 2 * S ≤ (2 : ℝ) ^ (101 : ℤ) := by
    rw [show (101 : ℤ) = 1 + 100 by norm_num, zpow_add₀ two_ne, zpow_one]
    linarith
  have hr1 := roundToGrid_ge_pow2 _ (-99) (by norm_num) h2S1
  have hr2 := roundToGrid_le_pow2 _ 101 (by norm_num) h2S2
  have hrrel := roundToGrid_rel (2 * S) (le_trans (hmono _ _ (by norm_num)) h2S1)
  generalize roundToGrid (2 * S) = r at hr1 hr2 hrrel ⊢
  have hrS1 : (2 : ℝ) ^ (-199 : ℤ) ≤ r * S := by
    rw [show (-199 : ℤ) = -99 + -100 by norm_num, zpow_add₀ two_ne]
    exact mul_le_mul hr1 hs1 (hpos _).le (le_trans (hpos _).le hr1)
  have hrS2 : r * S ≤ (2 : ℝ) ^ (201 : ℤ) := by
    rw [show (201 : ℤ) = 101 + 100 by norm_num, zpow_add₀ two_ne]
    exact mul_le_mul hr2 hs2 hS0.le (hpos _).le
  have hD1 := roundToGrid_ge_pow2 _ (-199) (by norm_num) hrS1
  have hD2 := roundToGrid_le_pow2 _ 201 (by norm_num) hrS2
  have hDrel := roundToGrid_rel (r * S) (le_trans (hmono _ _ (by norm_num)) hrS1)
  generalize roundToGrid (r * S) = D at hD1 hD2 hDrel ⊢
  have hD0 : 0 < D := lt_of_lt_of_le (hpos _) hD1
  have hV1 : (2 : ℝ) ^ (-199 : ℤ) ≤ 2 * S ^ 2 := by
    have : (2 : ℝ) ^ (-100 : ℤ) * (2 : ℝ) ^ (-100 : ℤ) ≤ S * S :=
      mul_le_mul hs1 hs1 (hpos _).le hS0.le
    rw [← zpow_add₀ two_ne] at this
    rw [show (-199 : ℤ) = 1 + (-100 + -100) by norm_num, zpow_add₀ two_ne, zpow_one]
    nlinarith
  have hW0 : 0 ≤ A ^ 2 / (2 * S ^ 2) := by positivity
  have hgoal : ∀ w : ℝ, |w - A ^ 2 / (2 * S ^ 2)| ≤
      (2 : ℝ) ^ (-49 : ℤ) * (A ^ 2 / (2 * S ^ 2)) + (2 : ℝ) ^ (-400 : ℤ) →
      |-w - -(A ^ 2 / (2 * S ^ 2))| ≤
        (2 : ℝ) ^ (-49 : ℤ) * (A ^ 2 / (2 * S ^ 2)) + (2 : ℝ) ^ (-400 : ℤ) := by
    intro w hw
    rw [show -w - -(A ^ 2 / (2 * S ^ 2)) = -(w - A ^ 2 / (2 * S ^ 2)) by ring, abs_neg]
    exact hw
  apply hgoal
  by_cases hsmall : A < (2 : ℝ) ^ (-300 : ℤ)
  · -- a distance below 2^-300: both exponents are below 2^-401
    have he1 := roundToGrid_le_pow2 _ (-300) (by norm_num) hsmall.le
    have he0 := roundToGrid_nonneg A hA0
    generalize roundToGrid A = e at he1 he0 ⊢
    have hee : e * e ≤ (2 : ℝ) ^ (-600 : ℤ) := by
      rw [show (-600 : ℤ) = -300 + -300 by norm_num, zpow_add₀ two_ne]
      exact mul_le_mul he1 he1 he0 (hpos _).le
    have hs1' := roundToGrid_le_pow2 _ (-600) (by norm_num) hee
    have hs0' := roundToGrid_nonneg (e * e) (mul_nonneg he0 he0)
    generalize roundToGrid (e * e) = s at hs1' hs0' ⊢
    have hq : s / D ≤ (2 : ℝ) ^ (-401 : ℤ) := by
      rw [div_le_iff₀ hD0]
      calc s ≤ (2 : ℝ) ^ (-600 : ℤ) := hs1'
        _ = (2 : ℝ) ^ (-401 : ℤ) * (2 : ℝ) ^ (-199 : ℤ) := by
            rw [← zpow_add₀ two_ne]
            norm_num
        _ ≤ (2 : ℝ) ^ (-401 : ℤ) * D := mul_le_mul_of_nonneg_left hD1 (hpos _).le
    have hw1 := roundToGrid_le_pow2 _ (-401) (by norm_num) hq
    have hw0 := roundToGrid_nonneg (s / D) (div_nonneg hs0' hD0.le)
    generalize roundToGrid (s / D) = w at hw1 hw0 ⊢
    have hAA : A ^ 2 ≤ (2 : ℝ) ^ (-600 : ℤ) := by
      rw [show (-600 : ℤ) = -300 + -300 by norm_num, zpow_add₀ two_ne, sq]
      exact mul_le_mul hsmall.le hsmall.le hA0 (hpos _).le
    have hWs : A ^ 2 / (2 * S ^ 2) ≤ (2 : ℝ) ^ (-401 : ℤ) := by
      rw [div_le_iff₀ (by positivity)]
      calc A ^ 2 ≤ (2 : ℝ) ^ (-600 : ℤ) := hAA
        _ = (2 : ℝ) ^ (-401 : ℤ) * (2 : ℝ) ^ (-199 : ℤ) := by
            rw [← zpow_add₀ two_ne]
            norm_num
        _ ≤ (2 : ℝ) ^ (-401 : ℤ) * (2 * S ^ 2) := mul_le_mul_of_nonneg_left hV1 (hpos _).le
    have h400 : (2 : ℝ) ^ (-401 : ℤ) ≤ (2 : ℝ) ^ (-400 : ℤ) := hmono _ _ (by norm_num)
    have hρ : 0 ≤ (2 : ℝ) ^ (-49 : ℤ) * (A ^ 2 / (2 * S ^ 2)) := mul_nonneg (hpos _).le hW0
    generalize (2 : ℝ) ^ (-49 : ℤ) * (A ^ 2 / (2 * S ^ 2)) = c at hρ ⊢
    generalize A ^ 2 / (2 * S ^ 2) = W at hWs hW0 ⊢
    generalize (2 : ℝ) ^ (-401 : ℤ) = a at hw1 hWs h400
    generalize (2 : ℝ) ^ (-400 : ℤ) = b at h400 ⊢
    rw [abs_le]
    constructor <;> linarith only [hw1, hw0, hWs, hW0, h400, hρ]
  · -- the normal range: five relative errors
    have hA1 : (2 : ℝ) ^ (-300 : ℤ) ≤ A := not_lt.mp hsmall
    have he1 := roundToGrid_ge_pow2 _ (-300) (by norm_num) hA1
    have herel := roundToGrid_rel A (le_trans (hmono _ _ (by norm_num)) hA1)
    generalize roundToGrid A = e at he1 herel ⊢
    have hee : (2 : ℝ) ^ (-600 : ℤ) ≤ e * e := by
      rw [show (-600 : ℤ) = -300 + -300 by norm_num, zpow_add₀ two_ne]
      exact mul_le_mul he1 he1 (hpos _).le (le_trans (hpos _).le he1)
    have hs1' := roundToGrid_ge_pow2 _ (-600) (by norm_num) hee
    have hsrel := roundToGrid_rel (e * e) (le_trans (hmono _ _ (by norm_num)) hee)
    generalize roundToGrid (e * e) = s at hs1' hsrel ⊢
    have hq : (2 : ℝ) ^ (-801 : ℤ) ≤ s / D := by
      rw [le_div_iff₀ hD0]
      calc (2 : ℝ) ^ (-801 : ℤ) * D ≤ (2 : ℝ) ^ (-801 : ℤ) * (2 : ℝ) ^ (201 : ℤ) :=
            mul_le_mul_of_nonneg_left hD2 (hpos _).le
        _ = (2 : ℝ) ^ (-600 : ℤ) := by
            rw [← zpow_add₀ two_ne]
            norm_num
        _ ≤ s := hs1'
    have hwrel := roundToGrid_rel (s / D) (le_trans (hmono _ _ (by norm_num)) hq)
    generalize roundToGrid (s / D) = w at hwrel ⊢
    have hε0 : (0 : ℝ) < (2 : ℝ) ^ (-53 : ℤ) := hpos _
    have hε1 : (2 : ℝ) ^ (-53 : ℤ) ≤ 1 / 100 := by
      have : (2 : ℝ) ^ (-53 : ℤ) ≤ (2 : ℝ) ^ (-7 : ℤ) := hmono _ _ (by norm_num)
      have h7 : (2 : ℝ) ^ (-7 : ℤ) = 1 / 128 := by norm_num
      rw [h7] at this
      linarith
    have h16 : 16 * (2 : ℝ) ^ (-53 : ℤ) = (2 : ℝ) ^ (-49 : ℤ) := by
      rw [show (-49 : ℤ) = 4 + -53 by norm_num, zpow_add₀ two_ne]
      norm_num
    have hch := quotient_chain ((2 : ℝ) ^ (-53 : ℤ)) A S e s r D w hε0 hε1 hA0 hS0
      herel.1 herel.2 hsrel.1 hsrel.2 hrrel.1 hrrel.2 hDrel.1 hDrel.2 hwrel.1 hwrel.2
    rw [h16] at hch
    have h400 : (0 : ℝ) ≤ (2 : ℝ) ^ (-400 : ℤ) := (hpos _).le
    generalize (2 : ℝ) ^ (-49 : ℤ) = ρ at hch ⊢
    generalize (2 : ℝ) ^ (-400 : ℤ) = τ at h400 ⊢
    generalize A ^ 2 / (2 * S ^ 2) = W at hch hW0 ⊢
    rw [abs_le]
    constructor <;> linarith only [hch.1, hch.2, h400]

/-- The exponential is convex: `exp a - exp b ≤ exp a * (a - b)`. -/
theorem exp_sub_le (a b : ℝ) : Real.exp a - Real.exp b ≤ Real.exp a * (a - b) := by
  have h := Real.add_one_le_exp (b - a)
  have e : Real.exp b = Real.exp a * Real.exp (b - a) := by
    rw [← Real.exp_add]
    congr 1
    ring
  rw [e]
  nlinarith [Real.exp_pos a]

/-- The product `W * exp (-W / 2)` is at most 2. -/
theorem mul_exp_neg_half_le (W : ℝ) : W * Real.exp (-W / 2) ≤ 2 := by
  have h := Real.add_one_le_exp (W / 2)
  have e : Real.exp (-W / 2) * Real.exp (W / 2) = 1 := by
    rw [← Real.exp_add]
    simp [neg_div]
  nlinarith [Real.exp_pos (-W / 2), Real.exp_pos (W / 2)]

/-- An exponent within `ρ W + τ` of `-W` has its exponential within
`6 ρ + 3 τ` of `exp (-W)`. -/
theorem exp_perturb (W q ρ τ : ℝ) (hW : 0 ≤ W) (hρ0 : 0 ≤ ρ) (hρ1 : ρ ≤ 1 / 2)
    (hτ0 : 0 ≤ τ) (hτ1 : τ ≤ 1) (hq : |q - -W| ≤ ρ * W + τ) :
    |Real.exp q - Real.exp (-W)| ≤ 6 * ρ + 3 * τ := by
  rw [abs_le] at hq
  obtain ⟨hq1, hq2⟩ := hq
  have hρW : 0 ≤ ρ * W := mul_nonneg hρ0 hW
  have hhalf := mul_exp_neg_half_le W
  have hexpW1 : Real.exp (-W) ≤ 1 := Real.exp_le_one_iff.mpr (by linarith)
  have hexph1 : Real.exp (-W / 2) ≤ 1 := Real.exp_le_one_iff.mpr (by linarith)
  have hexph0 := Real.exp_pos (-W / 2)
  have hle : Real.exp (-W) ≤ Real.exp (-W / 2) := Real.exp_le_exp.mpr (by linarith)
  rw [abs_le]
  constructor
  · -- exp (-W) - exp q ≤ exp (-W) * (-W - q)
    have h1 := exp_sub_le (-W) q
    have h2 : Real.exp (-W) * (-W - q) ≤ Real.exp (-W) * (ρ * W + τ) :=
      mul_le_mul_of_nonneg_left (by linarith) (Real.exp_pos _).le
    have h3 : Real.exp (-W) * (ρ * W + τ) ≤ 2 * ρ + τ := by
      have a1 : Real.exp (-W) * (ρ * W) ≤ Real.exp (-W / 2) * (ρ * W) :=
        mul_le_mul_of_nonneg_right hle hρW
      have a2 : Real.exp (-W / 2) * (ρ * W) = ρ * (W * Real.exp (-W / 2)) := by ring
      have a3 : ρ * (W * Real.exp (-W / 2)) ≤ ρ * 2 := mul_le_mul_of_nonneg_left hhalf hρ0
      have a4 : Real.exp (-W) * τ ≤ 1 * τ := mul_le_mul_of_nonneg_right hexpW1 hτ0
      linarith
    linarith
  · -- exp q - exp (-W) ≤ exp q * (q - -W)
    have h1 := exp_sub_le q (-W)
    have hqle : q ≤ -W / 2 + τ := by nlinarith
    have he3 : Real.exp τ ≤ 3 := by
      have := Real.exp_le_exp.mpr hτ1
      have := Real.exp_one_lt_d9
      linarith
    have hexpq : Real.exp q ≤ 3 * Real.exp (-W / 2) := by
      have h5 : Real.exp q ≤ Real.exp (-W / 2 + τ) := Real.exp_le_exp.mpr hqle
      rw [Real.exp_add] at h5
      nlinarith
    by_cases hsign : q - -W ≤ 0
    · have : Real.exp q * (q - -W) ≤ 0 :=
        mul_nonpos_of_nonneg_of_nonpos (Real.exp_pos _).le hsign
      linarith
    · have hpos : 0 ≤ q - -W := (not_le.mp hsign).le
      have h2 : Real.exp q * (q - -W) ≤ 3 * Real.exp (-W / 2) * (ρ * W + τ) :=
        mul_le_mul hexpq (by linarith) hpos (by positivity)
      have h3 : 3 * Real.exp (-W / 2) * (ρ * W + τ) =
          3 * (ρ * (W * Real.exp (-W / 2))) + 3 * (Real.exp (-W / 2) * τ) := by ring
      have a3 : ρ * (W * Real.exp (-W / 2)) ≤ ρ * 2 := mul_le_mul_of_nonneg_left hhalf hρ0
      have a4 : Real.exp (-W / 2) * τ ≤ 1 * τ := mul_le_mul_of_nonneg_right hexph1 hτ0
      linarith

/-- For moderate arguments the computed density is within `2^-46` of
`exp (-(x - center)^2 / (2 sigma^2))`. -/
theorem density64_error (x center sigma : ℝ) (h : WellScaled x center sigma) :
    |density64 x center sigma - Real.exp (-((x - center) ^ 2 / (2 * sigma ^ 2)))| ≤
      (2 : ℝ) ^ (-46 : ℤ) := by
  have two_ne : (2 : ℝ) ≠ 0 := by norm_num
  have hpos : ∀ k : ℤ, (0 : ℝ) < (2 : ℝ) ^ k := fun k => zpow_pos (by norm_num) k
  have hmono : ∀ i j : ℤ, i ≤ j → (2 : ℝ) ^ i ≤ (2 : ℝ) ^ j :=
    fun i j h => zpow_le_zpow_right₀ (by norm_num) h
  have hq := exponent64_error x center sigma h
  have hq0 := (exponent64_range x center sigma h).1
  have hW : 0 ≤ (x - center) ^ 2 / (2 * sigma ^ 2) := by positivity
  have hone : (2 : ℝ) ^ (0 : ℤ) = 1 := zpow_zero _
  have hρ1 : (2 : ℝ) ^ (-49 : ℤ) ≤ 1 / 2 := by
    have := hmono (-49) (-1) (by norm_num)
    rw [zpow_neg_one] at this
    linarith
  have hτ1 : (2 : ℝ) ^ (-400 : ℤ) ≤ 1 := by
    have := hmono (-400) 0 (by norm_num)
    rwa [hone] at this
  have hpert := exp_perturb _ _ _ _ hW (hpos _).le hρ1 (hpos _).le hτ1 hq
  have hround := roundToGrid_error_bound (Real.exp (exponent64 x center sigma))
  rw [abs_of_pos (Real.exp_pos _)] at hround
  have hexp1 : Real.exp (exponent64 x center sigma) ≤ 1 := Real.exp_le_one_iff.mpr hq0
  have hround2 : |roundToGrid (Real.exp (exponent64 x center sigma)) -
      Real.exp (exponent64 x center sigma)| ≤ (2 : ℝ) ^ (-53 : ℤ) + (2 : ℝ) ^ (-1075 : ℤ) := by
    have : (2 : ℝ) ^ (-53 : ℤ) * Real.exp (exponent64 x center sigma) ≤ (2 : ℝ) ^ (-53 : ℤ) * 1 :=
      mul_le_mul_of_nonneg_left hexp1 (hpos _).le
    linarith
  have hε : (2 : ℝ) ^ (-53 : ℤ) ≤ (2 : ℝ) ^ (-49 : ℤ) / 2 := by
    have := hmono (-53) (-50) (by norm_num)
    have e : (2 : ℝ) ^ (-49 : ℤ) = 2 * (2 : ℝ) ^ (-50 : ℤ) := by
      rw [show (-49 : ℤ) = 1 + -50 by norm_num, zpow_add₀ two_ne, zpow_one]
    rw [e]
    linarith
  have hη : (2 : ℝ) ^ (-1075 : ℤ) ≤ (2 : ℝ) ^ (-49 : ℤ) / 2 := by
    have := hmono (-1075) (-50) (by norm_num)
    have e : (2 : ℝ) ^ (-49 : ℤ) = 2 * (2 : ℝ) ^ (-50 : ℤ) := by
      rw [show (-49 : ℤ) = 1 + -50 by norm_num, zpow_add₀ two_ne, zpow_one]
    rw [e]
    linarith
  have hτ : 3 * (2 : ℝ) ^ (-400 : ℤ) ≤ (2 : ℝ) ^ (-49 : ℤ) := by
    have := hmono (-400) (-51) (by norm_num)
    have e : (2 : ℝ) ^ (-49 : ℤ) = 4 * (2 : ℝ) ^ (-51 : ℤ) := by
      rw [show (-49 : ℤ) = 2 + -51 by norm_num, zpow_add₀ two_ne]
      norm_num
    rw [e]
    linarith [hpos (-51)]
  have h46 : (2 : ℝ) ^ (-46 : ℤ) = 8 * (2 : ℝ) ^ (-49 : ℤ) := by
    rw [show (-46 : ℤ) = 3 + -49 by norm_num, zpow_add₀ two_ne]
    norm_num
  unfold density64
  rw [h46]
  generalize (2 : ℝ) ^ (-49 : ℤ) = ρ at *
  generalize (2 : ℝ) ^ (-400 : ℤ) = τ at *
  generalize (2 : ℝ) ^ (-53 : ℤ) = ε at *
  generalize (2 : ℝ) ^ (-1075 : ℤ) = η at *
  generalize Real.exp (-((x - center) ^ 2 / (2 * sigma ^ 2))) = E at *
  generalize Real.exp (exponent64 x center sigma) = F at *
  generalize roundToGrid F = p at *
  rw [abs_le] at hpert hround2 ⊢
  constructor <;> linarith only [hpert.1, hpert.2, hround2.1, hround2.2, hε, hη, hτ]

/-- The threshold of the classifier is within the fraction `2^-53` of 0.05. -/
theorem threshold64_bounds :
    round64 0.05 = Double.finite (roundToGrid 0.05) ∧
    (1 - (2 : ℝ) ^ (-53 : ℤ)) * 0.05 ≤ roundToGrid 0.05 ∧
    roundToGrid 0.05 ≤ (1 + (2 : ℝ) ^ (-53 : ℤ)) * 0.05 := by
  have h1 : |(0.05 : ℝ)| ≤ (2 : ℝ) ^ (1023 : ℤ) := by
    rw [abs_of_pos (by norm_num)]
    have : (1 : ℝ) ≤ (2 : ℝ) ^ (1023 : ℤ) := one_le_zpow₀ (by norm_num) (by norm_num)
    linarith
  have h2 : (2 : ℝ) ^ (-1022 : ℤ) ≤ 0.05 := by
    have : (2 : ℝ) ^ (-1022 : ℤ) ≤ (2 : ℝ) ^ (-5 : ℤ) :=
      zpow_le_zpow_right₀ (by norm_num) (by norm_num)
    have h5 : (2 : ℝ) ^ (-5 : ℤ) = 1 / 32 := by norm_num
    rw [h5] at this
    linarith
  exact ⟨round64_of_abs_le _ h1, roundToGrid_rel _ h2⟩

/-- For moderate arguments the classifier compares the rounded product of the
two density numbers with the rounded threshold. -/
theorem isPointOutsideArea64_of_wellScaled (point : PointDataSave) (area : AreaDefinition)
    (hx : WellScaled point.x area.centerX area.sigmaX)
    (hy : WellScaled point.y area.centerY area.sigmaY) :
    isPointOutsideArea64 point area =
      decide (roundToGrid (density64 point.x area.centerX area.sigmaX *
        density64 point.y area.centerY area.sigmaY) < roundToGrid 0.05) := by
  obtain ⟨hx0, hx1⟩ := density64_range _ _ _ hx
  obtain ⟨hy0, hy1⟩ := density64_range _ _ _ hy
  have hprod : |density64 point.x area.centerX area.sigmaX *
      density64 point.y area.centerY area.sigmaY| ≤ (2 : ℝ) ^ (1023 : ℤ) := by
    rw [abs_of_nonneg (mul_nonneg hx0 hy0)]
    have : (1 : ℝ) ≤ (2 : ℝ) ^ (1023 : ℤ) := one_le_zpow₀ (by norm_num) (by norm_num)
    nlinarith
  have hmul : Double.mul64 (Double.finite (density64 point.x area.centerX area.sigmaX))
      (Double.finite (density64 point.y area.centerY area.sigmaY)) =
      Double.finite (roundToGrid (density64 point.x area.centerX area.sigmaX *
        density64 point.y area.centerY area.sigmaY)) := round64_of_abs_le _ hprod
  simp only [isPointOutsideArea64, gaussProbability64_of_wellScaled _ _ _ hx,
    gaussProbability64_of_wellScaled _ _ _ hy, hmul, threshold64_bounds.1, Double.lt]

/-- For moderate arguments the rounded product of the two densities is within
`2^-44` of `exp (-Q / 2)`, where `Q` is the sum of the squared scaled distances. -/
theorem product64_error (x cx sx y cy sy : ℝ) (hx : WellScaled x cx sx)
    (hy : WellScaled y cy sy) :
    |roundToGrid (density64 x cx sx * density64 y cy sy) -
      Real.exp (-(((x - cx) / sx) ^ 2 + ((y - cy) / sy) ^ 2) / 2)| ≤ (2 : ℝ) ^ (-44 : ℤ) := by
  have two_ne : (2 : ℝ) ≠ 0 := by norm_num
  have hpos : ∀ k : ℤ, (0 : ℝ) < (2 : ℝ) ^ k := fun k => zpow_pos (by norm_num) k
  have hmono : ∀ i j : ℤ, i ≤ j → (2 : ℝ) ^ i ≤ (2 : ℝ) ^ j :=
    fun i j h => zpow_le_zpow_right₀ (by norm_num) h
  obtain ⟨hx0, hx1⟩ := density64_range _ _ _ hx
  obtain ⟨hy0, hy1⟩ := density64_range _ _ _ hy
  have hex := density64_error _ _ _ hx
  have hey := density64_error _ _ _ hy
  have hsplit : Real.exp (-(((x - cx) / sx) ^ 2 + ((y - cy) / sy) ^ 2) / 2) =
      Real.exp (-((x - cx) ^ 2 / (2 * sx ^ 2))) * Real.exp (-((y - cy) ^ 2 / (2 * sy ^ 2))) := by
    rw [← Real.exp_add]
    congr 1
    rw [div_pow, div_pow]
    ring
  have hEx0 := Real.exp_pos (-((x - cx) ^ 2 / (2 * sx ^ 2)))
  have hEx1 : Real.exp (-((x - cx) ^ 2 / (2 * sx ^ 2))) ≤ 1 :=
    Real.exp_le_one_iff.mpr (by
      have : 0 ≤ (x - cx) ^ 2 / (2 * sx ^ 2) := by positivity
      linarith)
  have hround := roundToGrid_error_bound (density64 x cx sx * density64 y cy sy)
  rw [abs_of_nonneg (mul_nonneg hx0 hy0)] at hround
  have hP1 : density64 x cx sx * density64 y cy sy ≤ 1 := by nlinarith
  have hround2 : |roundToGrid (density64 x cx sx * density64 y cy sy) -
      density64 x cx sx * density64 y cy sy| ≤ (2 : ℝ) ^ (-53 : ℤ) + (2 : ℝ) ^ (-1075 : ℤ) := by
    have : (2 : ℝ) ^ (-53 : ℤ) * (density64 x cx sx * density64 y cy sy) ≤
        (2 : ℝ) ^ (-53 : ℤ) * 1 := mul_le_mul_of_nonneg_left hP1 (hpos _).le
    linarith
  have hε : (2 : ℝ) ^ (-53 : ℤ) ≤ (2 : ℝ) ^ (-46 : ℤ) := hmono _ _ (by norm_num)
  have hη : (2 : ℝ) ^ (-1075 : ℤ) ≤ (2 : ℝ) ^ (-46 : ℤ) := hmono _ _ (by norm_num)
  have h44 : (2 : ℝ) ^ (-44 : ℤ) = 4 * (2 : ℝ) ^ (-46 : ℤ) := by
    rw [show (-44 : ℤ) = 2 + -46 by norm_num, zpow_add₀ two_ne]
    norm_num
  rw [hsplit, h44]
  generalize (2 : ℝ) ^ (-46 : ℤ) = δ at *
  generalize (2 : ℝ) ^ (-53 : ℤ) = ε at *
  generalize (2 : ℝ) ^ (-1075 : ℤ) = η at *
  generalize Real.exp (-((x - cx) ^ 2 / (2 * sx ^ 2))) = Ex at *
  generalize Real.exp (-((y - cy) ^ 2 / (2 * sy ^ 2))) = Ey at *
  generalize density64 x cx sx = px at *
  generalize density64 y cy sy = py at *
  generalize roundToGrid (px * py) = P at *
  rw [abs_le] at hex hey hround2 ⊢
  have e1 : px * py - Ex * Ey = (px - Ex) * py + Ex * (py - Ey) := by ring
  have b1 : (px - Ex) * py ≤ δ * 1 := by
    rcases le_total 0 (px - Ex) with h | h
    · exact mul_le_mul hex.2 hy1 hy0 (by linarith)
    · have : (px - Ex) * py ≤ 0 := mul_nonpos_of_nonpos_of_nonneg h hy0
      linarith
  have b2 : -(δ * 1) ≤ (px - Ex) * py := by
    rcases le_total 0 (px - Ex) with h | h
    · have : 0 ≤ (px - Ex) * py := mul_nonneg h hy0
      linarith
    · have : (Ex - px) * py ≤ δ * 1 := mul_le_mul (by linarith) hy1 hy0 (by linarith)
      linarith
  have b3 : Ex * (py - Ey) ≤ 1 * δ := by
    rcases le_total 0 (py - Ey) with h | h
    · exact mul_le_mul hEx1 hey.2 h (by norm_num)
    · have : Ex * (py - Ey) ≤ 0 := mul_nonpos_of_nonneg_of_nonpos hEx0.le h
      linarith
  have b4 : -(1 * δ) ≤ Ex * (py - Ey) := by
    rcases le_total 0 (py - Ey) with h | h
    · have : 0 ≤ Ex * (py - Ey) := mul_nonneg hEx0.le h
      linarith
    · have : Ex * (Ey - py) ≤ 1 * δ := mul_le_mul hEx1 (by linarith) (by linarith) (by norm_num)
      linarith
  constructor <;> linarith only [e1, b1, b2, b3, b4, hround2.1, hround2.2, hε, hη]

/-- For `0 ≤ t ≤ 1` the exponential of `-t` is at most `1 - t / 2`. -/
theorem exp_neg_le_one_sub_half (t : ℝ) (h0 : 0 ≤ t) (h1 : t ≤ 1) :
    Real.exp (-t) ≤ 1 - t / 2 := by
  have h := Real.add_one_le_exp t
  have e : Real.exp (-t) * Real.exp t = 1 := by rw [← Real.exp_add]; simp
  have hp := Real.exp_pos (-t)
  nlinarith

/-- Beyond the boundary by a margin `m` the exact density is below 0.05 by `m / 80`. -/
theorem exp_beyond_boundary (q m : ℝ) (hm0 : 0 ≤ m) (hm1 : m ≤ 2)
    (h : 2 * Real.log 20 + m ≤ q) : Real.exp (-q / 2) ≤ 0.05 - m / 80 := by
  have h20 : Real.exp (-Real.log 20) = 0.05 := by
    rw [Real.exp_neg, Real.exp_log (by norm_num)]
    norm_num
  have hle : Real.exp (-q / 2) ≤ Real.exp (-Real.log 20) * Real.exp (-(m / 2)) := by
    rw [← Real.exp_add]
    exact Real.exp_le_exp.mpr (by linarith)
  have hm := exp_neg_le_one_sub_half (m / 2) (by linarith) (by linarith)
  rw [h20] at hle
  nlinarith [Real.exp_pos (-(m / 2))]

/-- Within the boundary by a margin `m` the exact density is above 0.05 by `m / 40`. -/
theorem exp_within_boundary (q m : ℝ) (h : q ≤ 2 * Real.log 20 - m) :
    0.05 + m / 40 ≤ Real.exp (-q / 2) := by
  have h20 : Real.exp (-Real.log 20) = 0.05 := by
    rw [Real.exp_neg, Real.exp_log (by norm_num)]
    norm_num
  have hle : Real.exp (-Real.log 20) * Real.exp (m / 2) ≤ Real.exp (-q / 2) := by
    rw [← Real.exp_add]
    exact Real.exp_le_exp.mpr (by linarith)
  have hm := Real.add_one_le_exp (m / 2)
  rw [h20] at hle
  nlinarith

/-- For moderate arguments: beyond the ellipse `Q = 2 ln 20` by the margin
`2^-36` the point is outside, within it by that margin it is not. -/
theorem outside64_margin (point : PointDataSave) (area : AreaDefinition)
    (hx : WellScaled point.x area.centerX area.sigmaX)
    (hy : WellScaled point.y area.centerY area.sigmaY) :
    (2 * Real.log 20 + (2 : ℝ) ^ (-36 : ℤ) ≤
        ((point.x - area.centerX) / area.sigmaX) ^ 2 +
          ((point.y - area.centerY) / area.sigmaY) ^ 2 →
      isPointOutsideArea64 point area = true) ∧
    (((point.x - area.centerX) / area.sigmaX) ^ 2 +
          ((point.y - area.centerY) / area.sigmaY) ^ 2 ≤
        2 * Real.log 20 - (2 : ℝ) ^ (-36 : ℤ) →
      isPointOutsideArea64 point area = false) := by
  have two_ne : (2 : ℝ) ≠ 0 := by norm_num
  have hpos : ∀ k : ℤ, (0 : ℝ) < (2 : ℝ) ^ k := fun k => zpow_pos (by norm_num) k
  have hmono : ∀ i j : ℤ, i ≤ j → (2 : ℝ) ^ i ≤ (2 : ℝ) ^ j :=
    fun i j h => zpow_le_zpow_right₀ (by norm_num) h
  have herr := product64_error _ _ _ _ _ _ hx hy
  obtain ⟨-, ht1, ht2⟩ := threshold64_bounds
  have hm2 : (2 : ℝ) ^ (-36 : ℤ) ≤ 2 := by
    have := hmono (-36) 1 (by norm_num)
    rwa [zpow_one] at this
  have h36 : (2 : ℝ) ^ (-36 : ℤ) = 256 * (2 : ℝ) ^ (-44 : ℤ) := by
    rw [show (-36 : ℤ) = 8 + -44 by norm_num, zpow_add₀ two_ne]
    norm_num
  have hε : (2 : ℝ) ^ (-53 : ℤ) ≤ (2 : ℝ) ^ (-44 : ℤ) := hmono _ _ (by norm_num)
  rw [isPointOutsideArea64_of_wellScaled point area hx hy]
  rw [abs_le] at herr
  constructor
  · intro h
    have hE := exp_beyond_boundary _ _ (hpos _).le hm2 h
    rw [decide_eq_true_eq]
    rw [h36] at hE
    have hδ : (0 : ℝ) < (2 : ℝ) ^ (-44 : ℤ) := hpos (-44)
    generalize (2 : ℝ) ^ (-44 : ℤ) = δ at *
    generalize (2 : ℝ) ^ (-53 : ℤ) = ε at *
    linarith only [hE, herr.2, ht1, hε, hδ]
  · intro h
    have hE := exp_within_boundary _ _ h
    rw [decide_eq_false_iff_not, not_lt]
    rw [h36] at hE
    have hδ : (0 : ℝ) < (2 : ℝ) ^ (-44 : ℤ) := hpos (-44)
    generalize (2 : ℝ) ^ (-44 : ℤ) = δ at *
    generalize (2 : ℝ) ^ (-53 : ℤ) = ε at *
    linarith only [hE, herr.1, ht2, hε, hδ]

/-- The computed density is NaN or a number between 0 and 1, never an
infinity. -/
theorem gaussProbability64_range (x center sigma : ℝ) :
    gaussProbability64 x center sigma = Double.nan ∨
    ∃ p : ℝ, 0 ≤ p ∧ p ≤ 1 ∧ gaussProbability64 x center sigma = Double.finite p := by
  have hsq : (∃ q : ℝ, 0 ≤ q ∧
      Double.mul64 (round64 (x - center)) (round64 (x - center)) = Double.finite q) ∨
      Double.mul64 (round64 (x - center)) (round64 (x - center)) = Double.posInf := by
    rcases round64_cases (x - center) with h | ⟨h, -⟩ | ⟨h, -⟩
    · rw [h]
      have e : Double.mul64 (Double.finite (roundToGrid (x - center)))
          (Double.finite (roundToGrid (x - center))) =
          round64 (roundToGrid (x - center) * roundToGrid (x - center)) := rfl
      rw [e]
      have h0 := mul_self_nonneg (roundToGrid (x - center))
      rcases round64_cases (roundToGrid (x - center) * roundToGrid (x - center)) with
        h2 | ⟨h2, -⟩ | ⟨-, h2⟩
      · exact Or.inl ⟨_, roundToGrid_nonneg _ h0, h2⟩
      · exact Or.inr h2
      · exact absurd h2 (not_lt.mpr h0)
    · rw [h]
      exact Or.inr rfl
    · rw [h]
      exact Or.inr rfl
  have hexp : ∀ r : ℝ, r ≤ 0 → ∃ p : ℝ, 0 ≤ p ∧ p ≤ 1 ∧
      Double.exp64 (Double.finite r) = Double.finite p := by
    intro r hr
    have h1 : Real.exp r ≤ 1 := Real.exp_le_one_iff.mpr hr
    have h0 := (Real.exp_pos r).le
    have hb : |Real.exp r| ≤ (2 : ℝ) ^ (1023 : ℤ) := by
      rw [abs_of_nonneg h0]
      exact le_trans h1 (one_le_zpow₀ (by norm_num) (by norm_num))
    refine ⟨roundToGrid (Real.exp r), roundToGrid_nonneg _ h0, ?_, ?_⟩
    · have := roundToGrid_le_pow2 (Real.exp r) 0 (by norm_num) (by rw [zpow_zero]; exact h1)
      rwa [zpow_zero] at this
    · show round64 (Real.exp r) = _
      exact round64_of_abs_le _ hb
  have hzero : ∃ p : ℝ, 0 ≤ p ∧ p ≤ 1 ∧ Double.finite 0 = Double.finite p :=
    ⟨0, le_refl _, by norm_num, rfl⟩
  unfold gaussProbability64
  simp only
  rcases hsq with ⟨q, hq, hsq⟩ | hsq
  · rw [hsq]
    rcases denominator64_cases sigma with ⟨d, hd, hden⟩ | hden
    · rw [hden]
      simp only [Double.neg, Double.div64]
      by_cases hd0 : d = 0
      · rw [if_pos hd0]
        by_cases hq0 : -q = 0
        · rw [if_pos hq0]
          exact Or.inl rfl
        · rw [if_neg hq0]
          have hlt : -q < 0 := lt_of_le_of_ne (by linarith) hq0
          rw [if_pos hlt]
          exact Or.inr hzero
      · rw [if_neg hd0]
        have hpos : 0 < d := lt_of_le_of_ne hd (Ne.symm hd0)
        have hle : -q / d ≤ 0 := div_nonpos_of_nonpos_of_nonneg (by linarith) hd
        rcases round64_cases (-q / d) with h | ⟨-, h⟩ | ⟨h, -⟩
        · rw [h]
          refine Or.inr (hexp _ ?_)
          have := roundToGrid_nonneg (-(-q / d)) (by linarith)
          rw [roundToGrid_neg] at this
          linarith
        · exact absurd h (not_lt.mpr hle)
        · rw [h]
          exact Or.inr hzero
    · rw [hden]
      simp only [Double.neg, Double.div64]
      refine Or.inr (hexp 0 (le_refl _))
  · rw [hsq]
    rcases denominator64_cases sigma with ⟨d, hd, hden⟩ | hden
    · rw [hden]
      simp only [Double.neg, Double.div64, if_pos hd]
      exact Or.inr hzero
    · rw [hden]
      exact Or.inl rfl

/-! ## The retry loop: the draw sequences that end it -/

/-- The exponential of 8 is below `2^13`. -/
theorem exp_eight_lt : Real.exp 8 < 8192 := by
  have h1 : Real.exp 1 < 3 := lt_trans Real.exp_one_lt_d9 (by norm_num)
  have h8 : Real.exp 8 = Real.exp 1 ^ 8 := by
    rw [← Real.exp_nat_mul]
    norm_num
  have hpow : Real.exp 1 ^ 8 < (3 : ℝ) ^ 8 :=
    pow_lt_pow_left₀ h1 (Real.exp_pos 1).le (by norm_num)
  rw [h8]
  refine lt_trans hpow ?_
  norm_num

/-- For a center inside the domain and `1/8 ≤ |sigma| ≤ 2^100` the integer
nearest to the center is a candidate of the domain whose computed density
exceeds `2^-14`. -/
theorem density64_near_center (center sigma : ℝ) (hc0 : -300 ≤ center) (hc1 : center ≤ 300)
    (hs1 : 1 / 8 ≤ |sigma|) (hs2 : |sigma| ≤ (2 : ℝ) ^ (100 : ℤ)) :
    InDomain (round center) ∧ WellScaled (round center : ℝ) center sigma ∧
    (2 : ℝ) ^ (-14 : ℤ) < density64 (round center : ℝ) center sigma := by
  have hr := abs_sub_round center
  have hr2 : |(round center : ℝ) - center| ≤ 1 / 2 := by rwa [abs_sub_comm]
  obtain ⟨hlo, hhi⟩ := abs_le.mp hr2
  have hdom : InDomain (round center) := by
    constructor
    · have h : ((-301 : Int) : ℝ) < (round center : ℝ) := by
        push_cast
        linarith
      have := Int.cast_lt.mp h
      omega
    · have h : (round center : ℝ) < ((301 : Int) : ℝ) := by
        push_cast
        linarith
      have := Int.cast_lt.mp h
      omega
  have hw : WellScaled (round center : ℝ) center sigma := by
    refine ⟨le_trans hr2 ?_, le_trans ?_ hs1, hs2⟩
    · have : (1 : ℝ) ≤ (2 : ℝ) ^ (100 : ℤ) := one_le_zpow₀ (by norm_num) (by norm_num)
      linarith
    · have : (2 : ℝ) ^ (-100 : ℤ) ≤ (2 : ℝ) ^ (-3 : ℤ) :=
        zpow_le_zpow_right₀ (by norm_num) (by norm_num)
      have e : (2 : ℝ) ^ (-3 : ℤ) = 1 / 8 := by norm_num
      rwa [e] at this
  refine ⟨hdom, hw, ?_⟩
  have herr := density64_error (round center : ℝ) center sigma hw
  have hsq : ((round center : ℝ) - center) ^ 2 ≤ 1 / 4 := by
    have := sq_le_sq' (by linarith : -(1 / 2 : ℝ) ≤ (round center : ℝ) - center) hhi
    linarith
  have hsig : (1 : ℝ) / 64 ≤ sigma ^ 2 := by
    have := pow_le_pow_left₀ (by norm_num : (0 : ℝ) ≤ 1 / 8) hs1 2
    rw [sq_abs] at this
    linarith
  have hW : ((round center : ℝ) - center) ^ 2 / (2 * sigma ^ 2) ≤ 8 := by
    rw [div_le_iff₀ (by positivity)]
    nlinarith
  have hexp : Real.exp (-8) ≤
      Real.exp (-(((round center : ℝ) - center) ^ 2 / (2 * sigma ^ 2))) :=
    Real.exp_le_exp.mpr (by linarith)
  have h8 : (1 : ℝ) / 8192 < Real.exp (-8) := by
    rw [Real.exp_neg, one_div]
    exact inv_strictAnti₀ (Real.exp_pos 8) exp_eight_lt
  have e14 : (2 : ℝ) ^ (-14 : ℤ) = 1 / 16384 := by norm_num
  have e46 : (2 : ℝ) ^ (-46 : ℤ) ≤ 1 / 16384 := by
    have : (2 : ℝ) ^ (-46 : ℤ) ≤ (2 : ℝ) ^ (-14 : ℤ) :=
      zpow_le_zpow_right₀ (by norm_num) (by norm_num)
    rwa [e14] at this
  rw [e14]
  have := (abs_le.mp herr).1
  generalize (2 : ℝ) ^ (-46 : ℤ) = δ at this e46
  linarith

/-- Claim C6 as stated fails: sigma `2^-7` is positive and center 1/2 lies
inside the domain, both are binary64 numbers, yet every candidate of the domain
is at least 1/2 from the center and has density zero, so whatever the random
draws the retry loop is not left for any number of attempts. -/
theorem retry_loop_zero_density_counterexample :
    (0 : ℝ) < (2 : ℝ) ^ (-7 : ℤ) ∧ (-300 : ℝ) ≤ 1 / 2 ∧ (1 / 2 : ℝ) ≤ 300 ∧
    IsBinary64 (1 / 2) ∧ IsBinary64 ((2 : ℝ) ^ (-7 : ℤ)) ∧
    (∀ c : Int, InDomain c →
      gaussProbability64 (c : ℝ) (1 / 2) ((2 : ℝ) ^ (-7 : ℤ)) = Double.finite 0) ∧
    (∀ rng, ¬ ∃ fuel r,
      sampleCoordinate64 (1 / 2) ((2 : ℝ) ^ (-7 : ℤ)) fuel rng = some r) := by
  refine ⟨zpow_pos (by norm_num) _, by norm_num, by norm_num, ?_, ?_,
    half_center_density_zero, ?_⟩
  · have := isBinary64_dyadic 1 (-1) (by norm_num) (by norm_num) (by norm_num)
    simpa [zpow_neg_one] using this
  · have := isBinary64_dyadic 1 (-7) (by norm_num) (by norm_num) (by norm_num)
    simpa using this
  · rintro rng ⟨fuel, r, h⟩
    rw [half_center_none fuel rng] at h
    exact absurd h (by simp)

/-- Claim C6, amended. The retry loop is left, with enough fuel, exactly when
some attempt of the draw sequence is accepted, and then returns the candidate
of the first accepted attempt. Some draw sequence makes the loop end exactly
when some candidate of the domain has a positive density. When the center is an
integer and `|sigma| ≥ 2^-537`, every attempt that draws the center as its
candidate is accepted, so the loop ends at the latest there. When the center
lies inside `[-300, 300]` and `1/8 ≤ |sigma| ≤ 2^100`, every attempt that draws
the integer nearest to the center and a uniform value of at most `2^-14` is
accepted. -/
theorem retry_loop_left_iff_accepted_draw (center sigma : ℝ) :
    (∀ rng : QRandomGenerator,
      (∃ fuel r, sampleCoordinate64 center sigma fuel rng = some r) ↔
        ∃ k, AcceptedAt64 center sigma rng.tape (rng.pos + 2 * k)) ∧
    (∀ (rng : QRandomGenerator) (k fuel : Nat), k < fuel →
      AcceptedAt64 center sigma rng.tape (rng.pos + 2 * k) →
      (∀ j, j < k → ¬ AcceptedAt64 center sigma rng.tape (rng.pos + 2 * j)) →
      sampleCoordinate64 center sigma fuel rng =
        some ((generateCoordinate64 center sigma ⟨rng.tape, rng.pos + 2 * k⟩).coordinate,
          ⟨rng.tape, rng.pos + 2 * k + 2⟩)) ∧
    ((∃ rng fuel r, sampleCoordinate64 center sigma fuel rng = some r) ↔
      ∃ c : Int, InDomain c ∧
        Double.lt (Double.finite 0) (gaussProbability64 (c : ℝ) center sigma) = true) ∧
    (∀ c0 : Int, center = (c0 : ℝ) → (2 : ℝ) ^ (-537 : ℤ) ≤ |sigma| →
      ∀ rng : QRandomGenerator, (rng.bounded (-300) 301).1 = c0 →
        (generateCoordinate64 center sigma rng).accepted = true) ∧
    (-300 ≤ center → center ≤ 300 → 1 / 8 ≤ |sigma| → |sigma| ≤ (2 : ℝ) ^ (100 : ℤ) →
      InDomain (round center) ∧
      ∀ rng : QRandomGenerator, (rng.bounded (-300) 301).1 = round center →
        ((rng.bounded (-300) 301).2.generateDouble).1 ≤ (2 : ℝ) ^ (-14 : ℤ) →
        (generateCoordinate64 center sigma rng).accepted = true) := by
  refine ⟨fun rng => ⟨?_, ?_⟩, ?_, ⟨?_, ?_⟩, ?_, ?_⟩
  · rintro ⟨fuel, r, h⟩
    exact sampleCoordinate64_accepted_of_some center sigma rng.tape fuel rng.pos r h
  · intro h
    exact sampleCoordinate64_exists center sigma rng.tape rng.pos h
  · intro rng k fuel hk hacc hnot
    exact sampleCoordinate64_first_accepted center sigma rng.tape k rng.pos fuel hk hacc hnot
  · rintro ⟨rng, fuel, r, h⟩
    obtain ⟨k, hk⟩ := sampleCoordinate64_accepted_of_some center sigma rng.tape fuel rng.pos r h
    exact ⟨_, generateCoordinate64_inDomain center sigma ⟨rng.tape, rng.pos + 2 * k⟩,
      generateCoordinate64_accepted_pos center sigma _ hk⟩
  · rintro ⟨c, hc, hpos⟩
    obtain ⟨h1, h2⟩ := candidateRng_draws c hc
    have hacc : AcceptedAt64 center sigma (candidateRng c).tape ((candidateRng c).pos + 2 * 0) := by
      show (generateCoordinate64 center sigma (candidateRng c)).accepted = true
      simp only [generateCoordinate64, h1, h2]
      exact hpos
    exact ⟨candidateRng c, 1, _,
      sampleCoordinate64_first_accepted center sigma (candidateRng c).tape 0 (candidateRng c).pos 1
        (by norm_num) hacc (fun j hj => absurd hj (by omega))⟩
  · intro c0 hc hs rng hdraw
    have hu := (generateDouble_range (rng.bounded (-300) 301).2).2
    have hden := (gaussProbability64_center center sigma).2 (denominator64_of_not_tiny sigma hs)
    simp only [generateCoordinate64, hdraw, ← hc, hden, Double.lt, decide_eq_true_eq]
    exact hu
  · intro hc0 hc1 hs1 hs2
    obtain ⟨hdom, hw, hd⟩ := density64_near_center center sigma hc0 hc1 hs1 hs2
    refine ⟨hdom, fun rng hdraw hu => ?_⟩
    simp only [generateCoordinate64, hdraw, gaussProbability64_of_wellScaled _ _ _ hw,
      Double.lt, decide_eq_true_eq]
    exact lt_of_le_of_lt hu hd

/-- Claim C6, amended, with center 0 and sigma 50 on the tape that draws the
candidate 0 at every attempt: the first attempt is accepted and the loop
returns 0 after one attempt. -/
theorem retry_loop_left_iff_accepted_draw_witness :
    (2 : ℝ) ^ (-537 : ℤ) ≤ |(50 : ℝ)| ∧
    (acceptingRng.bounded (-300) 301).1 = 0 ∧
    (generateCoordinate64 0 50 acceptingRng).accepted = true ∧
    sampleCoordinate64 0 50 1 acceptingRng =
      some ((generateCoordinate64 0 50 ⟨acceptingRng.tape, acceptingRng.pos + 2 * 0⟩).coordinate,
        ⟨acceptingRng.tape, acceptingRng.pos + 2 * 0 + 2⟩) := by
  have hs : (2 : ℝ) ^ (-537 : ℤ) ≤ |(50 : ℝ)| := by
    have h1 : (2 : ℝ) ^ (-537 : ℤ) ≤ 1 := zpow_le_one_of_nonpos₀ (by norm_num) (by norm_num)
    rw [abs_of_pos (by norm_num)]
    linarith
  have hdraw : (acceptingRng.bounded (-300) 301).1 = 0 := by
    simp [acceptingRng, QRandomGenerator.bounded]
  have h := retry_loop_left_iff_accepted_draw 0 50
  have hacc : (generateCoordinate64 0 50 acceptingRng).accepted = true :=
    h.2.2.2.1 0 (by norm_num) hs acceptingRng hdraw
  exact ⟨hs, hdraw, hacc,
    h.2.1 acceptingRng 0 1 (by norm_num) hacc (fun j hj => absurd hj (by omega))⟩

/-- Arguments within 1024 of each other and a sigma between 1/1024 and 1024 in
magnitude are moderate. -/
theorem wellScaled_of_moderate (x center sigma : ℝ) (hx : |x - center| ≤ 1024)
    (h1 : 1 / 1024 ≤ |sigma|) (h2 : |sigma| ≤ 1024) : WellScaled x center sigma := by
  have e1 : (2 : ℝ) ^ (10 : ℤ) = 1024 := by norm_num
  have e2 : (2 : ℝ) ^ (-10 : ℤ) = 1 / 1024 := by norm_num
  have m1 : (2 : ℝ) ^ (10 : ℤ) ≤ (2 : ℝ) ^ (100 : ℤ) :=
    zpow_le_zpow_right₀ (by norm_num) (by norm_num)
  have m2 : (2 : ℝ) ^ (-100 : ℤ) ≤ (2 : ℝ) ^ (-10 : ℤ) :=
    zpow_le_zpow_right₀ (by norm_num) (by norm_num)
  rw [e1] at m1
  rw [e2] at m2
  exact ⟨le_trans hx m1, le_trans m2 h1, le_trans h2 m1⟩

/-! ## The density at the center -/

/-- Claim C7 as stated fails: sigma `2^-600` is a positive binary64 number,
the product `2 * sigma * sigma` underflows to zero, and the density at the
center 7 is NaN, not 1. -/
theorem gaussProbability_at_center_counterexample :
    (0 : ℝ) < (2 : ℝ) ^ (-600 : ℤ) ∧ IsBinary64 ((2 : ℝ) ^ (-600 : ℤ)) ∧ IsBinary64 7 ∧
    denominator64 ((2 : ℝ) ^ (-600 : ℤ)) = Double.finite 0 ∧
    gaussProbability64 7 7 ((2 : ℝ) ^ (-600 : ℤ)) = Double.nan ∧
    gaussProbability64 7 7 ((2 : ℝ) ^ (-600 : ℤ)) ≠ Double.finite 1 := by
  have hs : |(2 : ℝ) ^ (-600 : ℤ)| ≤ (2 : ℝ) ^ (-538 : ℤ) := by
    rw [abs_of_pos (zpow_pos (by norm_num) _)]
    exact zpow_le_zpow_right₀ (by norm_num) (by norm_num)
  have hden := denominator64_of_tiny _ hs
  have hnan := (gaussProbability64_center 7 ((2 : ℝ) ^ (-600 : ℤ))).1 hden
  refine ⟨zpow_pos (by norm_num) _, ?_, ?_, hden, hnan, ?_⟩
  · have := isBinary64_dyadic 1 (-600) (by norm_num) (by norm_num) (by norm_num)
    simpa using this
  · have := isBinary64_dyadic 7 0 (by norm_num) (by norm_num) (by norm_num)
    simpa using this
  · rw [hnan]
    exact fun h => Double.noConfusion h

/-- Claim C7, amended. The density at the center is exactly 1 for every sigma
of magnitude at least `2^-537`, and NaN for every sigma of magnitude at most
`2^-538`; in between it is one of the two, according to whether
`2 * sigma * sigma` rounds to zero. -/
theorem gaussProbability64_at_center (center sigma : ℝ) :
    ((2 : ℝ) ^ (-537 : ℤ) ≤ |sigma| →
      gaussProbability64 center center sigma = Double.finite 1) ∧
    (|sigma| ≤ (2 : ℝ) ^ (-538 : ℤ) →
      gaussProbability64 center center sigma = Double.nan) ∧
    (denominator64 sigma ≠ Double.finite 0 →
      gaussProbability64 center center sigma = Double.finite 1) ∧
    (denominator64 sigma = Double.finite 0 →
      gaussProbability64 center center sigma = Double.nan) := by
  have h := gaussProbability64_center center sigma
  exact ⟨fun hs => h.2 (denominator64_of_not_tiny sigma hs),
    fun hs => h.1 (denominator64_of_tiny sigma hs), h.2, h.1⟩

/-- Claim C7, amended, at center 12.5 and sigma 50. -/
theorem gaussProbability64_at_center_witness :
    (2 : ℝ) ^ (-537 : ℤ) ≤ |(50 : ℝ)| ∧ gaussProbability64 12.5 12.5 50 = Double.finite 1 := by
  have hs : (2 : ℝ) ^ (-537 : ℤ) ≤ |(50 : ℝ)| := by
    have h1 : (2 : ℝ) ^ (-537 : ℤ) ≤ 1 := zpow_le_one_of_nonpos₀ (by norm_num) (by norm_num)
    rw [abs_of_pos (by norm_num)]
    linarith
  exact ⟨hs, (gaussProbability64_at_center 12.5 50).1 hs⟩

/-! ## The density and the distance from the center -/

/-- Claim C18 as stated fails: with center 0 and sigma 1, the attempt that draws
the candidate -300 and the uniform value 0 is rejected although
`exp(-((c - center)^2) / (2 * sigma^2))` is positive, hence above the uniform
value: the computed density underflows to zero. -/
theorem attempt_rejected_counterexample :
    ((candidateRng (-300)).bounded (-300) 301).1 = -300 ∧
    (((candidateRng (-300)).bounded (-300) 301).2.generateDouble).1 = 0 ∧
    Real.exp (-((((-300 : Int) : ℝ) - 0) ^ 2) / (2 * (1 : ℝ) ^ 2)) > 0 ∧
    gaussProbability64 ((-300 : Int) : ℝ) 0 1 = Double.finite 0 ∧
    (generateCoordinate64 0 1 (candidateRng (-300))).accepted = false := by
  obtain ⟨h1, h2⟩ := candidateRng_draws (-300) ⟨by norm_num, by norm_num⟩
  have hd : gaussProbability64 ((-300 : Int) : ℝ) 0 1 = Double.finite 0 := by
    apply gaussProbability64_underflow _ 0 1 8 0
    · norm_num [abs_of_pos]
    · norm_num [abs_of_pos]
    · norm_num
    · norm_num
    · norm_num
    · norm_num
    · norm_num
  refine ⟨h1, h2, Real.exp_pos _, hd, ?_⟩
  apply generateCoordinate64_rejected_of_zero
  rw [h1]
  exact hd

/-- Claim C18, amended. The computed density of a candidate is NaN or a number
between 0 and 1, and a sampling attempt that drew the candidate `c` and the
uniform value `u` is accepted exactly when the computed density of `c` is a
number above `u`. For moderate arguments the computed density is a number within
`2^-46` of `exp(-((c - center)^2) / (2 * sigma^2))`, so the attempt is accepted
when that value exceeds `u` by more than `2^-46` and only if it exceeds
`u - 2^-46`. With `|sigma| ≤ 1` a candidate at distance 64 or more from the
center has the computed density zero and is rejected whatever `u` is. A rejected
attempt makes the retry loop draw again from the next two words of the
generator, an accepted one ends it with `c`. -/
theorem attempt_accepted_iff_computed_density_gt (center sigma : ℝ)
    (rng : QRandomGenerator) :
    (gaussProbability64 ((rng.bounded (-300) 301).1 : ℝ) center sigma = Double.nan ∨
      ∃ p : ℝ, 0 ≤ p ∧ p ≤ 1 ∧
        gaussProbability64 ((rng.bounded (-300) 301).1 : ℝ) center sigma = Double.finite p) ∧
    ((generateCoordinate64 center sigma rng).accepted = true ↔
      ∃ p : ℝ, gaussProbability64 ((rng.bounded (-300) 301).1 : ℝ) center sigma =
          Double.finite p ∧
        p > ((rng.bounded (-300) 301).2.generateDouble).1) ∧
    (WellScaled ((rng.bounded (-300) 301).1 : ℝ) center sigma →
      gaussProbability64 ((rng.bounded (-300) 301).1 : ℝ) center sigma =
        Double.finite (density64 ((rng.bounded (-300) 301).1 : ℝ) center sigma) ∧
      ((generateCoordinate64 center sigma rng).accepted = true ↔
        density64 ((rng.bounded (-300) 301).1 : ℝ) center sigma >
          ((rng.bounded (-300) 301).2.generateDouble).1) ∧
      |density64 ((rng.bounded (-300) 301).1 : ℝ) center sigma -
        Real.exp (-((((rng.bounded (-300) 301).1 : ℝ) - center) ^ 2) / (2 * sigma ^ 2))| ≤
          (2 : ℝ) ^ (-46 : ℤ) ∧
      (Real.exp (-((((rng.bounded (-300) 301).1 : ℝ) - center) ^ 2) / (2 * sigma ^ 2)) >
          ((rng.bounded (-300) 301).2.generateDouble).1 + (2 : ℝ) ^ (-46 : ℤ) →
        (generateCoordinate64 center sigma rng).accepted = true) ∧
      ((generateCoordinate64 center sigma rng).accepted = true →
        Real.exp (-((((rng.bounded (-300) 301).1 : ℝ) - center) ^ 2) / (2 * sigma ^ 2)) >
          ((rng.bounded (-300) 301).2.generateDouble).1 - (2 : ℝ) ^ (-46 : ℤ))) ∧
    (|sigma| ≤ 1 → 64 ≤ |((rng.bounded (-300) 301).1 : ℝ) - center| →
      |((rng.bounded (-300) 301).1 : ℝ) - center| ≤ (2 : ℝ) ^ (500 : ℤ) →
      (generateCoordinate64 center sigma rng).accepted = false) ∧
    ((generateCoordinate64 center sigma rng).accepted = false →
      ∀ fuel, sampleCoordinate64 center sigma (fuel + 1) rng =
        sampleCoordinate64 center sigma fuel ⟨rng.tape, rng.pos + 2⟩) ∧
    ((generateCoordinate64 center sigma rng).accepted = true →
      ∀ fuel, sampleCoordinate64 center sigma (fuel + 1) rng =
        some ((rng.bounded (-300) 301).1, ⟨rng.tape, rng.pos + 2⟩)) := by
  refine ⟨gaussProbability64_range _ center sigma, ?_, ?_, ?_, ?_, ?_⟩
  · simp only [generateCoordinate64]
    rcases gaussProbability64_range ((rng.bounded (-300) 301).1 : ℝ) center sigma with
      h | ⟨v, -, -, h⟩
    · rw [h]
      simp only [Double.lt]
      constructor
      · intro h
        exact absurd h (by simp)
      · rintro ⟨p, hp, -⟩
        exact absurd hp (by simp)
    · rw [h]
      simp only [Double.lt, decide_eq_true_eq, gt_iff_lt]
      constructor
      · intro h
        exact ⟨v, rfl, h⟩
      · rintro ⟨p, hp, h⟩
        rw [Double.finite.inj hp]
        exact h
  · intro hw
    have hgp := gaussProbability64_of_wellScaled _ _ _ hw
    have herr := density64_error _ _ _ hw
    rw [← neg_div] at herr
    have hacc : (generateCoordinate64 center sigma rng).accepted = true ↔
        density64 ((rng.bounded (-300) 301).1 : ℝ) center sigma >
          ((rng.bounded (-300) 301).2.generateDouble).1 := by
      simp only [generateCoordinate64, hgp, Double.lt, decide_eq_true_eq, gt_iff_lt]
    refine ⟨hgp, hacc, herr, ?_, ?_⟩
    · intro h
      rw [hacc]
      rw [abs_le] at herr
      generalize (2 : ℝ) ^ (-46 : ℤ) = δ at *
      linarith only [h, herr.1]
    · intro h
      rw [hacc] at h
      rw [abs_le] at herr
      generalize (2 : ℝ) ^ (-46 : ℤ) = δ at *
      linarith only [h, herr.2]
  · intro hs hfar hbound
    apply generateCoordinate64_rejected_of_zero
    apply gaussProbability64_underflow _ center sigma 6 0
    · have e6 : (2 : ℝ) ^ (6 : ℤ) = 64 := by norm_num
      rw [e6]
      exact hfar
    · exact hbound
    · rw [zpow_zero]
      exact hs
    · norm_num
    · norm_num
    · norm_num
    · norm_num
  · intro h fuel
    rw [← generateCoordinate64_rng center sigma rng]
    simp [sampleCoordinate64, h]
  · intro h fuel
    have hr := generateCoordinate64_rng center sigma rng
    simp only [sampleCoordinate64, h, if_true]
    rw [hr]
    rfl

/-- Claim C18, amended, on the accepting tape with center 0 and sigma 50: the
candidate is 0, its computed density 1 is above the uniform value, and the
attempt is accepted. -/
theorem attempt_accepted_iff_computed_density_gt_witness :
    WellScaled ((acceptingRng.bounded (-300) 301).1 : ℝ) 0 50 ∧
    density64 ((acceptingRng.bounded (-300) 301).1 : ℝ) 0 50 = 1 ∧
    (generateCoordinate64 0 50 acceptingRng).accepted = true := by
  have hdraw : (acceptingRng.bounded (-300) 301).1 = 0 := by
    simp [acceptingRng, QRandomGenerator.bounded]
  have hw : WellScaled ((acceptingRng.bounded (-300) 301).1 : ℝ) 0 50 := by
    rw [hdraw]
    exact wellScaled_of_moderate _ 0 50 (by norm_num) (by norm_num [abs_of_pos])
      (by norm_num [abs_of_pos])
  have h := (attempt_accepted_iff_computed_density_gt 0 50 acceptingRng).2.2.1 hw
  have hs : (2 : ℝ) ^ (-537 : ℤ) ≤ |(50 : ℝ)| := by
    have h1 : (2 : ℝ) ^ (-537 : ℤ) ≤ 1 := zpow_le_one_of_nonpos₀ (by norm_num) (by norm_num)
    rw [abs_of_pos (by norm_num)]
    linarith
  have hone : density64 ((acceptingRng.bounded (-300) 301).1 : ℝ) 0 50 = 1 := by
    have hc := (gaussProbability64_center 0 50).2 (denominator64_of_not_tiny 50 hs)
    have hgp := h.1
    rw [hdraw] at hgp ⊢
    simp only [Int.cast_zero] at hgp ⊢
    rw [hc] at hgp
    exact (Double.finite.inj hgp).symm
  refine ⟨hw, hone, h.2.1.mpr ?_⟩
  rw [hone]
  exact (generateDouble_range _).2

/-! ## The region that is not outside, in binary64 -/

/-- Claim C21 as stated fails: the sigmas `2^-600` are positive binary64
numbers and the point (0, 5) has `Q = 25 / sigma^2 > 2 ln 20`, yet it is
classified as not outside: the density along x is NaN. -/
theorem outside_iff_beyond_ellipse_counterexample :
    0 < tinySigmaArea.sigmaX ∧ 0 < tinySigmaArea.sigmaY ∧
    IsBinary64 tinySigmaArea.sigmaX ∧ IsBinary64 tinySigmaArea.sigmaY ∧
    ((((0 : Int) : ℝ) - tinySigmaArea.centerX) / tinySigmaArea.sigmaX) ^ 2 +
      ((((5 : Int) : ℝ) - tinySigmaArea.centerY) / tinySigmaArea.sigmaY) ^ 2 >
        2 * Real.log 20 ∧
    isPointOutsideArea64 ⟨0, 5, 1⟩ tinySigmaArea = false := by
  have hpos : (0 : ℝ) < (2 : ℝ) ^ (-600 : ℤ) := zpow_pos (by norm_num) _
  have hbin : IsBinary64 ((2 : ℝ) ^ (-600 : ℤ)) := by
    have := isBinary64_dyadic 1 (-600) (by norm_num) (by norm_num) (by norm_num)
    simpa using this
  have hs : |(2 : ℝ) ^ (-600 : ℤ)| ≤ (2 : ℝ) ^ (-538 : ℤ) := by
    rw [abs_of_pos hpos]
    exact zpow_le_zpow_right₀ (by norm_num) (by norm_num)
  have hnan : gaussProbability64 ((0 : Int) : ℝ) 0 ((2 : ℝ) ^ (-600 : ℤ)) = Double.nan := by
    rw [Int.cast_zero]
    exact (gaussProbability64_center 0 _).1 (denominator64_of_tiny _ hs)
  refine ⟨hpos, hpos, hbin, hbin, ?_, ?_⟩
  · have hlog := log_twenty_lt_three
    have hle : (2 : ℝ) ^ (-600 : ℤ) ≤ 1 := zpow_le_one_of_nonpos₀ (by norm_num) (by norm_num)
    have hq : (5 : ℝ) ≤ 5 / (2 : ℝ) ^ (-600 : ℤ) := by
      rw [le_div_iff₀ hpos]
      linarith
    have hsq : (25 : ℝ) ≤ (5 / (2 : ℝ) ^ (-600 : ℤ)) ^ 2 := by
      have := pow_le_pow_left₀ (by norm_num : (0 : ℝ) ≤ 5) hq 2
      linarith
    simp only [tinySigmaArea, Int.cast_zero, Int.cast_ofNat, sub_zero, zero_div]
    linarith
  · simp only [isPointOutsideArea64, tinySigmaArea, hnan, Double.mul64, Double.mul, Double.lt]

/-- Claim C21, amended. For moderate arguments `isPointOutsideArea` is true when
`Q = ((x - centerX) / sigmaX)^2 + ((y - centerY) / sigmaY)^2` is at least
`2 ln 20 + 2^-36` and false when `Q` is at most `2 ln 20 - 2^-36`; in between
the result depends on the rounding. When a sigma has magnitude at most `2^-538`
and the point has the coordinate of the center along that axis, the point is
not outside whatever `Q` is. -/
theorem outside_iff_beyond_ellipse_up_to_rounding (point : PointDataSave)
    (area : AreaDefinition) :
    (WellScaled point.x area.centerX area.sigmaX →
      WellScaled point.y area.centerY area.sigmaY →
      (2 * Real.log 20 + (2 : ℝ) ^ (-36 : ℤ) ≤
          ((point.x - area.centerX) / area.sigmaX) ^ 2 +
            ((point.y - area.centerY) / area.sigmaY) ^ 2 →
        isPointOutsideArea64 point area = true) ∧
      (((point.x - area.centerX) / area.sigmaX) ^ 2 +
            ((point.y - area.centerY) / area.sigmaY) ^ 2 ≤
          2 * Real.log 20 - (2 : ℝ) ^ (-36 : ℤ) →
        isPointOutsideArea64 point area = false)) ∧
    (|area.sigmaX| ≤ (2 : ℝ) ^ (-538 : ℤ) → (point.x : ℝ) = area.centerX →
      isPointOutsideArea64 point area = false) ∧
    (|area.sigmaY| ≤ (2 : ℝ) ^ (-538 : ℤ) → (point.y : ℝ) = area.centerY →
      isPointOutsideArea64 point area = false) := by
  refine ⟨fun hx hy => outside64_margin point area hx hy, ?_, ?_⟩
  · intro hs hc
    have hnan := (gaussProbability64_center area.centerX area.sigmaX).1
      (denominator64_of_tiny _ hs)
    simp only [isPointOutsideArea64, hc, hnan, Double.mul64, Double.mul, Double.lt]
  · intro hs hc
    have hnan := (gaussProbability64_center area.centerY area.sigmaY).1
      (denominator64_of_tiny _ hs)
    simp only [isPointOutsideArea64, hc, hnan]
    cases gaussProbability64 (point.x : ℝ) area.centerX area.sigmaX <;>
      simp [Double.mul64, Double.mul, Double.lt]

/-- Claim C21, amended, on the example area, sigmas 50: the far corner of the
domain has `Q = 72`, beyond the ellipse, and is outside. -/
theorem outside_iff_beyond_ellipse_up_to_rounding_witness :
    WellScaled ((300 : Int) : ℝ) exampleArea.centerX exampleArea.sigmaX ∧
    WellScaled ((300 : Int) : ℝ) exampleArea.centerY exampleArea.sigmaY ∧
    2 * Real.log 20 + (2 : ℝ) ^ (-36 : ℤ) ≤
      ((((300 : Int) : ℝ) - exampleArea.centerX) / exampleArea.sigmaX) ^ 2 +
        ((((300 : Int) : ℝ) - exampleArea.centerY) / exampleArea.sigmaY) ^ 2 ∧
    isPointOutsideArea64 ⟨300, 300, 1⟩ exampleArea = true := by
  have hw : WellScaled ((300 : Int) : ℝ) 0 50 :=
    wellScaled_of_moderate _ 0 50 (by norm_num [abs_of_pos]) (by norm_num [abs_of_pos])
      (by norm_num [abs_of_pos])
  have hq : 2 * Real.log 20 + (2 : ℝ) ^ (-36 : ℤ) ≤
      ((((300 : Int) : ℝ) - exampleArea.centerX) / exampleArea.sigmaX) ^ 2 +
        ((((300 : Int) : ℝ) - exampleArea.centerY) / exampleArea.sigmaY) ^ 2 := by
    have hlog := log_twenty_lt_three
    have h36 : (2 : ℝ) ^ (-36 : ℤ) ≤ 1 := zpow_le_one_of_nonpos₀ (by norm_num) (by norm_num)
    simp only [exampleArea]
    norm_num
    linarith
  exact ⟨hw, hw, hq,
    ((outside_iff_beyond_ellipse_up_to_rounding ⟨300, 300, 1⟩ exampleArea).1 hw hw).1 hq⟩

/-! ## The footprint radius -/

/-- The truncation of an integer is that integer. -/
theorem truncToInt_intCast (n : Int) : truncToInt (n : ℝ) = n := by
  unfold truncToInt
  split_ifs <;> simp

/-- A value whose truncation is an `int` converts to its truncation. -/
theorem toInt_of_abs_le (v : ℝ) (h : |v| ≤ 2147483647) :
    Double.toInt (Double.finite v) = truncToInt v := by
  obtain ⟨h1, h2⟩ := abs_le.mp h
  have hlo := truncToInt_mono _ _ h1
  have hhi := truncToInt_mono _ _ h2
  have e1 : truncToInt (-2147483647 : ℝ) = -2147483647 := by
    have := truncToInt_intCast (-2147483647)
    push_cast at this
    exact this
  have e2 : truncToInt (2147483647 : ℝ) = 2147483647 := by
    have := truncToInt_intCast 2147483647
    push_cast at this
    exact this
  rw [e1] at hlo
  rw [e2] at hhi
  simp only [Double.toInt]
  rw [if_pos ⟨by omega, hhi⟩]

/-- For `|sigma| ≤ 2^29` the product `sigma * 3` is rounded to a number of
magnitude at most `3 * 2^29`, and its conversion to `int` is the truncation. -/
theorem toInt_three_sigma (sigma : ℝ) (h : |sigma| ≤ (2 : ℝ) ^ (29 : ℤ)) :
    Double.toInt (Double.mul64 (Double.finite sigma) (Double.finite 3)) =
      truncToInt (roundToGrid (sigma * 3)) := by
  have e29 : (2 : ℝ) ^ (29 : ℤ) = 536870912 := by norm_num
  rw [e29] at h
  have hprod : |sigma * 3| ≤ 1610612736 := by
    rw [abs_mul, abs_of_pos (by norm_num : (0 : ℝ) < 3)]
    linarith
  have hex : roundToGrid (1610612736 : ℝ) = 1610612736 := by
    have := roundToGrid_exact 1610612736 0 (by norm_num) (by norm_num)
    simpa using this
  have hr : |roundToGrid (sigma * 3)| ≤ 1610612736 := by
    rw [← roundToGrid_abs, ← hex]
    exact roundToGrid_mono _ _ hprod
  have hbig : (1610612736 : ℝ) ≤ (2 : ℝ) ^ (1023 : ℤ) := by
    have : (2 : ℝ) ^ (31 : ℤ) ≤ (2 : ℝ) ^ (1023 : ℤ) :=
      zpow_le_zpow_right₀ (by norm_num) (by norm_num)
    have e31 : (2 : ℝ) ^ (31 : ℤ) = 2147483648 := by norm_num
    rw [e31] at this
    linarith
  have hmul : Double.mul64 (Double.finite sigma) (Double.finite 3) =
      Double.finite (roundToGrid (sigma * 3)) := round64_of_abs_le _ (le_trans hprod hbig)
  rw [hmul]
  exact toInt_of_abs_le _ (by linarith)

/-- The rounding of the larger value is the larger rounding. -/
theorem max_roundToGrid (a b : ℝ) :
    max (roundToGrid a) (roundToGrid b) = roundToGrid (max a b) := by
  rcases le_total a b with h | h
  · rw [max_eq_right h, max_eq_right (roundToGrid_mono a b h)]
  · rw [max_eq_left h, max_eq_left (roundToGrid_mono b a h)]

/-- The circles drawn by `redrawAreaCircles`: one per area, in list order. -/
theorem redrawAreaCirclesOn_areaCircles (areas : List AreaDefinition) (d : DrawingArea) :
    (redrawAreaCirclesOn areas d).areaCircles = areas.map footprintCircle := by
  unfold redrawAreaCirclesOn
  have key : ∀ (l : List AreaDefinition) (acc : DrawingArea),
      (l.foldl (fun acc areaDef =>
        acc.addAreaCircle (Double.toInt (Double.finite areaDef.centerX))
          (Double.toInt (Double.finite areaDef.centerY))
          (max (Double.toInt (Double.mul64 (Double.finite areaDef.sigmaX) (Double.finite 3)))
            (Double.toInt (Double.mul64 (Double.finite areaDef.sigmaY) (Double.finite 3))))
          areaDef.color) acc).areaCircles = acc.areaCircles ++ l.map footprintCircle := by
    intro l
    induction l with
    | nil => intro acc; simp
    | cons a l ih =>
      intro acc
      rw [List.foldl_cons, ih]
      simp [DrawingArea.addAreaCircle, footprintCircle]
  rw [key areas d.clearAreaCircles]
  simp [DrawingArea.clearAreaCircles]

/-- The footprint circle of an area whose sigmas are at most `2^29` in
magnitude and whose center is at most `2^31 - 1` in magnitude. -/
theorem footprintCircle_of_range (area : AreaDefinition)
    (hcx : |area.centerX| ≤ 2147483647) (hcy : |area.centerY| ≤ 2147483647)
    (hsx : |area.sigmaX| ≤ (2 : ℝ) ^ (29 : ℤ)) (hsy : |area.sigmaY| ≤ (2 : ℝ) ^ (29 : ℤ)) :
    footprintCircle area =
      ⟨truncToInt area.centerX, truncToInt area.centerY,
        max (truncToInt (roundToGrid (area.sigmaX * 3)))
          (truncToInt (roundToGrid (area.sigmaY * 3))), area.color⟩ := by
  simp only [footprintCircle, toInt_of_abs_le _ hcx, toInt_of_abs_le _ hcy,
    toInt_three_sigma _ hsx, toInt_three_sigma _ hsy]

/-- The circle of the area with both sigmas one half: the product 1.5 is a
binary64 number and converts to 1. -/
theorem footprintCircle_halfSigmaArea : footprintCircle halfSigmaArea = ⟨0, 0, 1, Qt.blue⟩ := by
  have hs : |(0.5 : ℝ)| ≤ (2 : ℝ) ^ (29 : ℤ) := by
    rw [abs_of_pos (by norm_num)]
    have : (1 : ℝ) ≤ (2 : ℝ) ^ (29 : ℤ) := one_le_zpow₀ (by norm_num) (by norm_num)
    linarith
  have hex : roundToGrid ((0.5 : ℝ) * 3) = 3 / 2 := by
    have := roundToGrid_exact 3 (-1) (by norm_num) (by norm_num)
    norm_num at this ⊢
    exact this
  have ht : truncToInt (3 / 2 : ℝ) = 1 := by
    have h : (0 : ℝ) ≤ 3 / 2 := by norm_num
    simp only [truncToInt, h, if_true]
    rw [Int.floor_eq_iff]
    constructor <;> norm_num
  have h0 : truncToInt (0 : ℝ) = 0 := by simp [truncToInt]
  rw [footprintCircle_of_range halfSigmaArea (by norm_num [halfSigmaArea])
    (by norm_num [halfSigmaArea]) hs hs]
  simp only [halfSigmaArea, hex, ht, h0, max_self]

/-- The product of the binary64 number nearest to one third with 3 lies halfway
between two binary64 numbers and is rounded up to 1. -/
theorem roundToGrid_third_times_three :
    roundToGrid ((6004799503160661 / 18014398509481984 : ℝ) * 3) = 1 := by
  have hx : (6004799503160661 / 18014398509481984 : ℝ) * 3 =
      18014398509481983 / 18014398509481984 := by norm_num
  rw [hx]
  have hpos : (0 : ℝ) < 18014398509481983 / 18014398509481984 := by norm_num
  have hnormal : (2 : ℝ) ^ (-1022 : ℤ) ≤ |(18014398509481983 / 18014398509481984 : ℝ)| := by
    rw [abs_of_pos hpos]
    have h1 : (2 : ℝ) ^ (-1022 : ℤ) ≤ (2 : ℝ) ^ (-1 : ℤ) :=
      zpow_le_zpow_right₀ (by norm_num) (by norm_num)
    have e : (2 : ℝ) ^ (-1 : ℤ) = 1 / 2 := by norm_num
    rw [e] at h1
    refine le_trans h1 ?_
    norm_num
  have hlo := binade_le_abs _ hnormal
  have hhi := abs_lt_binade (18014398509481983 / 18014398509481984 : ℝ)
  rw [abs_of_pos hpos] at hlo hhi
  have hbe : binadeExponent (18014398509481983 / 18014398509481984 : ℝ) = -1 := by
    have h1 : (2 : ℝ) ^ binadeExponent (18014398509481983 / 18014398509481984 : ℝ) <
        (2 : ℝ) ^ (0 : ℤ) := by
      rw [zpow_zero]
      refine lt_of_le_of_lt hlo ?_
      norm_num
    have h2 : (2 : ℝ) ^ (-1 : ℤ) <
        (2 : ℝ) ^ (binadeExponent (18014398509481983 / 18014398509481984 : ℝ) + 1) := by
      refine lt_of_le_of_lt ?_ hhi
      norm_num
    have k1 := (zpow_lt_zpow_iff_right₀ (by norm_num : (1 : ℝ) < 2)).mp h1
    have k2 := (zpow_lt_zpow_iff_right₀ (by norm_num : (1 : ℝ) < 2)).mp h2
    omega
  have hu : ulp (18014398509481983 / 18014398509481984 : ℝ) = 1 / 9007199254740992 := by
    unfold ulp
    rw [hbe]
    norm_num
  have hq : (18014398509481983 / 18014398509481984 : ℝ) / (1 / 9007199254740992) =
      9007199254740991 + 1 / 2 := by norm_num
  have hfloor : ⌊(9007199254740991 + 1 / 2 : ℝ)⌋ = 9007199254740991 := by
    rw [Int.floor_eq_iff]
    constructor <;> norm_num
  unfold roundToGrid
  rw [hu, hq]
  unfold roundHalfEven
  rw [hfloor]
  norm_num

/-- Claim C15 as stated fails: for an area with both sigmas 0.5 the circle
handed to the drawing area by `addAreaDefinition` has radius 1, while
`max(3*sigmaX, 3*sigmaY)` is 1.5. -/
theorem footprint_radius_counterexample :
    IsBinary64 halfSigmaArea.sigmaX ∧ IsBinary64 halfSigmaArea.sigmaY ∧
    (addAreaDefinition emptyController halfSigmaArea).drawingArea =
      some ⟨[], [⟨0, 0, 1, Qt.blue⟩]⟩ ∧
    max (3 * halfSigmaArea.sigmaX) (3 * halfSigmaArea.sigmaY) = 1.5 ∧
    ((1 : Int) : ℝ) ≠ 1.5 := by
  have hbin : IsBinary64 (0.5 : ℝ) := by
    have := isBinary64_dyadic 1 (-1) (by norm_num) (by norm_num) (by norm_num)
    norm_num at this ⊢
    exact this
  refine ⟨hbin, hbin, ?_, ?_, by norm_num⟩
  · have h := footprintCircle_halfSigmaArea
    simp only [footprintCircle] at h
    simp only [addAreaDefinition, emptyController, saveSettings, DrawingArea.addAreaCircle,
      List.nil_append]
    rw [AreaCircle.mk.injEq] at h
    obtain ⟨h1, h2, h3, h4⟩ := h
    rw [h1, h2, h3, h4]
  · simp only [halfSigmaArea]
    norm_num

/-- Claim C15, amended. The radius handed to the drawing area, by
`redrawAreaCircles` for every stored area and by `addAreaDefinition` for the new
area, is the larger of the two products `sigma * 3`, each rounded to binary64
and converted to `int`. When both sigmas are at most `2^29` in magnitude the
conversions are defined and the radius is
`max(trunc(fl(sigmaX * 3)), trunc(fl(sigmaY * 3)))`, which is
`trunc(fl(max(sigmaX, sigmaY) * 3))`, an `int` of magnitude at most `3 * 2^29`. -/
theorem footprint_radius_is_truncated (areas : List AreaDefinition) (d : DrawingArea)
    (s : Controller) (area : AreaDefinition) :
    (redrawAreaCirclesOn areas d).areaCircles = areas.map footprintCircle ∧
    (s.drawingArea = some d →
      (addAreaDefinition s area).drawingArea =
        some ⟨d.points, d.areaCircles ++ [footprintCircle area]⟩) ∧
    (footprintCircle area).radius =
      max (Double.toInt (Double.mul64 (Double.finite area.sigmaX) (Double.finite 3)))
        (Double.toInt (Double.mul64 (Double.finite area.sigmaY) (Double.finite 3))) ∧
    (|area.sigmaX| ≤ (2 : ℝ) ^ (29 : ℤ) → |area.sigmaY| ≤ (2 : ℝ) ^ (29 : ℤ) →
      (footprintCircle area).radius =
        max (truncToInt (roundToGrid (area.sigmaX * 3)))
          (truncToInt (roundToGrid (area.sigmaY * 3))) ∧
      (footprintCircle area).radius =
        truncToInt (roundToGrid (max area.sigmaX area.sigmaY * 3)) ∧
      IsInt (footprintCircle area).radius) := by
  refine ⟨redrawAreaCirclesOn_areaCircles areas d, ?_, rfl, ?_⟩
  · intro hd
    simp [addAreaDefinition, saveSettings, hd, DrawingArea.addAreaCircle, footprintCircle]
  · intro hsx hsy
    have hr : (footprintCircle area).radius =
        max (truncToInt (roundToGrid (area.sigmaX * 3)))
          (truncToInt (roundToGrid (area.sigmaY * 3))) := by
      simp only [footprintCircle, toInt_three_sigma _ hsx, toInt_three_sigma _ hsy]
    have hmax : (footprintCircle area).radius =
        truncToInt (roundToGrid (max area.sigmaX area.sigmaY * 3)) := by
      rw [hr, max_truncToInt, max_roundToGrid,
        max_mul_of_nonneg _ _ (by norm_num : (0 : ℝ) ≤ 3)]
    refine ⟨hr, hmax, ?_⟩
    have hm : |max area.sigmaX area.sigmaY| ≤ (2 : ℝ) ^ (29 : ℤ) := by
      rcases le_total area.sigmaX area.sigmaY with h | h
      · rwa [max_eq_right h]
      · rwa [max_eq_left h]
    have h3 := toInt_three_sigma _ hm
    rw [← h3] at hmax
    rw [hmax]
    simp only [IsInt]
    cases hc : Double.mul64 (Double.finite (max area.sigmaX area.sigmaY)) (Double.finite 3) with
    | finite v =>
      simp only [Double.toInt]
      split_ifs with hv
      · exact hv
      · constructor <;> norm_num
    | posInf => simp [Double.toInt]
    | negInf => simp [Double.toInt]
    | nan => simp [Double.toInt]

/-- Claim C15, amended, on the area with both sigmas 0.5, where the radius
handed over is 1, and on the area with both sigmas the binary64 number nearest
to one third, where the rounded product is 1 and the radius handed over is 1
although the exact product truncates to 0. -/
theorem footprint_radius_is_truncated_witness :
    emptyController.drawingArea = some ⟨[], []⟩ ∧
    |halfSigmaArea.sigmaX| ≤ (2 : ℝ) ^ (29 : ℤ) ∧ |halfSigmaArea.sigmaY| ≤ (2 : ℝ) ^ (29 : ℤ) ∧
    (addAreaDefinition emptyController halfSigmaArea).drawingArea =
      some ⟨[], [] ++ [footprintCircle halfSigmaArea]⟩ ∧
    (footprintCircle halfSigmaArea).radius =
      truncToInt (roundToGrid (max halfSigmaArea.sigmaX halfSigmaArea.sigmaY * 3)) ∧
    (footprintCircle halfSigmaArea).radius = 1 ∧
    |thirdSigmaArea.sigmaX| ≤ (2 : ℝ) ^ (29 : ℤ) ∧
    |thirdSigmaArea.sigmaY| ≤ (2 : ℝ) ^ (29 : ℤ) ∧
    (footprintCircle thirdSigmaArea).radius = 1 ∧
    truncToInt (max thirdSigmaArea.sigmaX thirdSigmaArea.sigmaY * 3) = 0 := by
  have hs : |(0.5 : ℝ)| ≤ (2 : ℝ) ^ (29 : ℤ) := by
    rw [abs_of_pos (by norm_num)]
    have : (1 : ℝ) ≤ (2 : ℝ) ^ (29 : ℤ) := one_le_zpow₀ (by norm_num) (by norm_num)
    linarith
  have ht : |(6004799503160661 / 18014398509481984 : ℝ)| ≤ (2 : ℝ) ^ (29 : ℤ) := by
    rw [abs_of_pos (by norm_num)]
    have : (1 : ℝ) ≤ (2 : ℝ) ^ (29 : ℤ) := one_le_zpow₀ (by norm_num) (by norm_num)
    linarith
  have h := footprint_radius_is_truncated [] ⟨[], []⟩ emptyController halfSigmaArea
  have h3 := ((footprint_radius_is_truncated [] ⟨[], []⟩ emptyController
    thirdSigmaArea).2.2.2 ht ht).2.1
  refine ⟨rfl, hs, hs, h.2.1 rfl, (h.2.2.2 hs hs).2.1, ?_, ht, ht, ?_, ?_⟩
  · rw [footprintCircle_halfSigmaArea]
  · rw [h3]
    simp only [thirdSigmaArea, max_self]
    rw [roundToGrid_third_times_three]
    have := truncToInt_intCast 1
    push_cast at this
    exact this
  · simp only [thirdSigmaArea, max_self]
    unfold truncToInt
    rw [if_pos (by norm_num)]
    rw [Int.floor_eq_iff]
    constructor <;> norm_num

/-! ## The region that is not outside and the footprint disk -/

/-- The logarithm of 20 exceeds 5/2. -/
theorem five_halves_lt_log_twenty : (5 / 2 : ℝ) < Real.log 20 := by
  rw [Real.lt_log_iff_exp_lt (by norm_num)]
  exact exp_five_halves_lt

/-- For moderate arguments and positive sigmas a point that is not outside has
`Q < 2 ln 20 + 2^-36` and lies within `sqrt(2 ln 20 + 2^-36)` times the larger
sigma of the center. -/
theorem inside64_distance_bound (point : PointDataSave) (area : AreaDefinition)
    (hx : 0 < area.sigmaX) (hy : 0 < area.sigmaY)
    (hwx : WellScaled point.x area.centerX area.sigmaX)
    (hwy : WellScaled point.y area.centerY area.sigmaY)
    (hin : isPointOutsideArea64 point area = false) :
    ((point.x - area.centerX) / area.sigmaX) ^ 2 +
      ((point.y - area.centerY) / area.sigmaY) ^ 2 <
        2 * Real.log 20 + (2 : ℝ) ^ (-36 : ℤ) ∧
    (point.x - area.centerX) ^ 2 + (point.y - area.centerY) ^ 2 ≤
      (2 * Real.log 20 + (2 : ℝ) ^ (-36 : ℤ)) * max area.sigmaX area.sigmaY ^ 2 := by
  have hQ : ((point.x - area.centerX) / area.sigmaX) ^ 2 +
      ((point.y - area.centerY) / area.sigmaY) ^ 2 <
        2 * Real.log 20 + (2 : ℝ) ^ (-36 : ℤ) := by
    by_contra hnot
    have := (outside64_margin point area hwx hwy).1 (not_lt.mp hnot)
    rw [hin] at this
    exact absurd this (by simp)
  refine ⟨hQ, ?_⟩
  have hmx : area.sigmaX ≤ max area.sigmaX area.sigmaY := le_max_left _ _
  have hmy : area.sigmaY ≤ max area.sigmaX area.sigmaY := le_max_right _ _
  have hsx : area.sigmaX ^ 2 ≤ max area.sigmaX area.sigmaY ^ 2 :=
    pow_le_pow_left₀ hx.le hmx 2
  have hsy : area.sigmaY ^ 2 ≤ max area.sigmaX area.sigmaY ^ 2 :=
    pow_le_pow_left₀ hy.le hmy 2
  have ex : ((point.x : ℝ) - area.centerX) ^ 2 =
      ((point.x - area.centerX) / area.sigmaX) ^ 2 * area.sigmaX ^ 2 := by
    field_simp
  have ey : ((point.y : ℝ) - area.centerY) ^ 2 =
      ((point.y - area.centerY) / area.sigmaY) ^ 2 * area.sigmaY ^ 2 := by
    field_simp
  have hqx : 0 ≤ (((point.x : ℝ) - area.centerX) / area.sigmaX) ^ 2 := sq_nonneg _
  have hqy : 0 ≤ (((point.y : ℝ) - area.centerY) / area.sigmaY) ^ 2 := sq_nonneg _
  have hm : 0 ≤ max area.sigmaX area.sigmaY ^ 2 := sq_nonneg _
  rw [ex, ey]
  calc ((point.x - area.centerX) / area.sigmaX) ^ 2 * area.sigmaX ^ 2 +
        ((point.y - area.centerY) / area.sigmaY) ^ 2 * area.sigmaY ^ 2
      ≤ ((point.x - area.centerX) / area.sigmaX) ^ 2 * max area.sigmaX area.sigmaY ^ 2 +
        ((point.y - area.centerY) / area.sigmaY) ^ 2 * max area.sigmaX area.sigmaY ^ 2 :=
        add_le_add (mul_le_mul_of_nonneg_left hsx hqx) (mul_le_mul_of_nonneg_left hsy hqy)
    _ = (((point.x - area.centerX) / area.sigmaX) ^ 2 +
        ((point.y - area.centerY) / area.sigmaY) ^ 2) * max area.sigmaX area.sigmaY ^ 2 := by
        ring
    _ ≤ (2 * Real.log 20 + (2 : ℝ) ^ (-36 : ℤ)) * max area.sigmaX area.sigmaY ^ 2 :=
        mul_le_mul_of_nonneg_right hQ.le hm

/-- The point (1, 1) is not outside the area at the origin with sigmas 41/64. -/
theorem diagonal_point_inside_narrowArea :
    isPointOutsideArea64 ⟨1, 1, 1⟩ narrowArea = false := by
  have hw : WellScaled ((1 : Int) : ℝ) 0 (41 / 64) :=
    wellScaled_of_moderate _ 0 (41 / 64) (by norm_num) (by norm_num [abs_of_pos])
      (by norm_num [abs_of_pos])
  apply (outside64_margin ⟨1, 1, 1⟩ narrowArea hw hw).2
  have hlog := five_halves_lt_log_twenty
  have h36 : (2 : ℝ) ^ (-36 : ℤ) ≤ (2 : ℝ) ^ (-4 : ℤ) :=
    zpow_le_zpow_right₀ (by norm_num) (by norm_num)
  have e4 : (2 : ℝ) ^ (-4 : ℤ) = 1 / 16 := by norm_num
  rw [e4] at h36
  simp only [narrowArea]
  norm_num
  linarith

/-- The circle of the area with both sigmas 41/64: the product 1.921875 is a
binary64 number and converts to 1. -/
theorem footprintCircle_narrowArea : footprintCircle narrowArea = ⟨0, 0, 1, Qt.blue⟩ := by
  have hs : |(41 / 64 : ℝ)| ≤ (2 : ℝ) ^ (29 : ℤ) := by
    rw [abs_of_pos (by norm_num)]
    have : (1 : ℝ) ≤ (2 : ℝ) ^ (29 : ℤ) := one_le_zpow₀ (by norm_num) (by norm_num)
    linarith
  have hex : roundToGrid ((41 / 64 : ℝ) * 3) = 123 / 64 := by
    have := roundToGrid_exact 123 (-6) (by norm_num) (by norm_num)
    norm_num at this ⊢
    exact this
  have ht : truncToInt (123 / 64 : ℝ) = 1 := by
    have h : (0 : ℝ) ≤ 123 / 64 := by norm_num
    simp only [truncToInt, h, if_true]
    rw [Int.floor_eq_iff]
    constructor <;> norm_num
  have h0 : truncToInt (0 : ℝ) = 0 := by simp [truncToInt]
  rw [footprintCircle_of_range narrowArea (by norm_num [narrowArea])
    (by norm_num [narrowArea]) hs hs]
  simp only [narrowArea, hex, ht, h0, max_self]

/-- Claim C22 as stated fails: the area at the origin with sigmas 41/64 is
drawn with a footprint disk of radius 1, the integer point (1, 1) is classified
as not outside, and its squared distance 2 from the center exceeds the squared
radius. -/
theorem footprint_disk_counterexample :
    0 < narrowArea.sigmaX ∧ 0 < narrowArea.sigmaY ∧
    IsBinary64 narrowArea.sigmaX ∧ IsBinary64 narrowArea.sigmaY ∧
    isPointOutsideArea64 ⟨1, 1, 1⟩ narrowArea = false ∧
    (redrawAreaCirclesOn [narrowArea] ⟨[], []⟩).areaCircles = [⟨0, 0, 1, Qt.blue⟩] ∧
    ¬ ((((1 : Int) : ℝ) - narrowArea.centerX) ^ 2 + (((1 : Int) : ℝ) - narrowArea.centerY) ^ 2 ≤
      ((1 : Int) : ℝ) ^ 2) := by
  have hbin : IsBinary64 (41 / 64 : ℝ) := by
    have := isBinary64_dyadic 41 (-6) (by norm_num) (by norm_num) (by norm_num)
    norm_num at this ⊢
    exact this
  refine ⟨by norm_num [narrowArea], by norm_num [narrowArea], hbin, hbin,
    diagonal_point_inside_narrowArea, ?_, ?_⟩
  · rw [redrawAreaCirclesOn_areaCircles]
    simp [footprintCircle_narrowArea]
  · simp only [narrowArea]
    norm_num

/-- Claim C22, amended. For moderate arguments and positive sigmas a point
classified as not outside satisfies
`(x - centerX)^2 + (y - centerY)^2 <= (2 ln 20 + 2^-36) * max(sigmaX, sigmaY)^2`.
When moreover both sigmas are at most `2^29` and the larger is at least 2, the
radius is `r = trunc(fl(max(sigmaX, sigmaY) * 3))` and
`(x - centerX)^2 + (y - centerY)^2 <= r^2`. The circle that is drawn has this
radius and the center converted to `int`: when the center has integer
coordinates it is the center of the drawn circle and the point lies in the
drawn disk. -/
theorem inside_within_footprint_for_wide_areas (point : PointDataSave)
    (area : AreaDefinition) (hx : 0 < area.sigmaX) (hy : 0 < area.sigmaY)
    (hwx : WellScaled point.x area.centerX area.sigmaX)
    (hwy : WellScaled point.y area.centerY area.sigmaY)
    (hin : isPointOutsideArea64 point area = false) :
    (point.x - area.centerX) ^ 2 + (point.y - area.centerY) ^ 2 ≤
      (2 * Real.log 20 + (2 : ℝ) ^ (-36 : ℤ)) * max area.sigmaX area.sigmaY ^ 2 ∧
    (area.sigmaX ≤ (2 : ℝ) ^ (29 : ℤ) → area.sigmaY ≤ (2 : ℝ) ^ (29 : ℤ) →
      2 ≤ max area.sigmaX area.sigmaY →
      (footprintCircle area).radius =
        truncToInt (roundToGrid (max area.sigmaX area.sigmaY * 3)) ∧
      (point.x - area.centerX) ^ 2 + (point.y - area.centerY) ^ 2 ≤
        ((footprintCircle area).radius : ℝ) ^ 2 ∧
      (∀ m n : Int, area.centerX = (m : ℝ) → area.centerY = (n : ℝ) → IsInt m → IsInt n →
        (footprintCircle area).centerX = m ∧ (footprintCircle area).centerY = n ∧
        (point.x - (footprintCircle area).centerX) ^ 2 +
            (point.y - (footprintCircle area).centerY) ^ 2 ≤
          (footprintCircle area).radius ^ 2)) := by
  have hdist := (inside64_distance_bound point area hx hy hwx hwy hin).2
  refine ⟨hdist, ?_⟩
  intro hsx hsy hwide
  have habsx : |area.sigmaX| ≤ (2 : ℝ) ^ (29 : ℤ) := by rwa [abs_of_pos hx]
  have habsy : |area.sigmaY| ≤ (2 : ℝ) ^ (29 : ℤ) := by rwa [abs_of_pos hy]
  have hr : (footprintCircle area).radius =
      truncToInt (roundToGrid (max area.sigmaX area.sigmaY * 3)) := by
    simp only [footprintCircle, toInt_three_sigma _ habsx, toInt_three_sigma _ habsy]
    rw [max_truncToInt, max_roundToGrid, max_mul_of_nonneg _ _ (by norm_num : (0 : ℝ) ≤ 3)]
  -- the radius is at least 2.49 times the larger sigma
  have hnormal : (2 : ℝ) ^ (-1022 : ℤ) ≤ max area.sigmaX area.sigmaY * 3 := by
    have h1 : (2 : ℝ) ^ (-1022 : ℤ) ≤ 1 := zpow_le_one_of_nonpos₀ (by norm_num) (by norm_num)
    linarith
  have hrel := (roundToGrid_rel _ hnormal).1
  have hε : (2 : ℝ) ^ (-53 : ℤ) ≤ 1 / 1000 := by
    have : (2 : ℝ) ^ (-53 : ℤ) ≤ (2 : ℝ) ^ (-10 : ℤ) :=
      zpow_le_zpow_right₀ (by norm_num) (by norm_num)
    have e10 : (2 : ℝ) ^ (-10 : ℤ) = 1 / 1024 := by norm_num
    rw [e10] at this
    linarith
  have hv : (0 : ℝ) ≤ roundToGrid (max area.sigmaX area.sigmaY * 3) :=
    roundToGrid_nonneg _ (by linarith)
  have hlow := sub_one_lt_truncToInt _ hv
  rw [← hr] at hlow
  have hrad : 2.49 * max area.sigmaX area.sigmaY ≤ ((footprintCircle area).radius : ℝ) := by
    generalize (2 : ℝ) ^ (-53 : ℤ) = ε at hrel hε
    generalize roundToGrid (max area.sigmaX area.sigmaY * 3) = v at hrel hlow
    generalize max area.sigmaX area.sigmaY = M at hwide hrel ⊢
    have hprod : ε * M ≤ 1 / 1000 * M := mul_le_mul_of_nonneg_right hε (by linarith)
    linarith only [hrel, hlow, hprod, hwide]
  have hlog := log_twenty_lt_three
  have h36 : (2 : ℝ) ^ (-36 : ℤ) ≤ 1 / 10 := by
    have : (2 : ℝ) ^ (-36 : ℤ) ≤ (2 : ℝ) ^ (-4 : ℤ) :=
      zpow_le_zpow_right₀ (by norm_num) (by norm_num)
    have e4 : (2 : ℝ) ^ (-4 : ℤ) = 1 / 16 := by norm_num
    rw [e4] at this
    linarith
  have hm2 : 0 ≤ max area.sigmaX area.sigmaY ^ 2 := sq_nonneg _
  have h1 : (2 * Real.log 20 + (2 : ℝ) ^ (-36 : ℤ)) * max area.sigmaX area.sigmaY ^ 2 ≤
      6.1 * max area.sigmaX area.sigmaY ^ 2 :=
    mul_le_mul_of_nonneg_right (by linarith) hm2
  have h2 : 6.1 * max area.sigmaX area.sigmaY ^ 2 ≤
      (2.49 * max area.sigmaX area.sigmaY) ^ 2 := by nlinarith
  have h3 : (2.49 * max area.sigmaX area.sigmaY) ^ 2 ≤
      ((footprintCircle area).radius : ℝ) ^ 2 :=
    pow_le_pow_left₀ (by linarith) hrad 2
  have hdisk : (point.x - area.centerX) ^ 2 + (point.y - area.centerY) ^ 2 ≤
      ((footprintCircle area).radius : ℝ) ^ 2 :=
    le_trans hdist (le_trans h1 (le_trans h2 h3))
  refine ⟨hr, hdisk, ?_⟩
  intro m n hm hn hmi hni
  have hconv : ∀ k : Int, IsInt k → Double.toInt (Double.finite (k : ℝ)) = k := by
    intro k hk
    simp only [Double.toInt, truncToInt_intCast]
    rw [if_pos (show -2147483648 ≤ k ∧ k ≤ 2147483647 from hk)]
  have hcx : (footprintCircle area).centerX = m := by
    simp only [footprintCircle, hm]
    exact hconv m hmi
  have hcy : (footprintCircle area).centerY = n := by
    simp only [footprintCircle, hn]
    exact hconv n hni
  refine ⟨hcx, hcy, ?_⟩
  rw [hcx, hcy]
  rw [hm, hn] at hdisk
  exact_mod_cast hdisk

/-- Claim C22, amended, on the example area, sigmas 50: the point (100, 30) is
not outside and lies within the drawn disk of radius 150 around the origin. -/
theorem inside_within_footprint_witness :
    0 < exampleArea.sigmaX ∧ 0 < exampleArea.sigmaY ∧
    WellScaled ((100 : Int) : ℝ) exampleArea.centerX exampleArea.sigmaX ∧
    WellScaled ((30 : Int) : ℝ) exampleArea.centerY exampleArea.sigmaY ∧
    isPointOutsideArea64 ⟨100, 30, 1⟩ exampleArea = false ∧
    exampleArea.sigmaX ≤ (2 : ℝ) ^ (29 : ℤ) ∧ exampleArea.sigmaY ≤ (2 : ℝ) ^ (29 : ℤ) ∧
    (2 : ℝ) ≤ max exampleArea.sigmaX exampleArea.sigmaY ∧
    (((100 : Int) : ℝ) - exampleArea.centerX) ^ 2 + (((30 : Int) : ℝ) - exampleArea.centerY) ^ 2 ≤
      ((footprintCircle exampleArea).radius : ℝ) ^ 2 ∧
    (footprintCircle exampleArea).centerX = 0 ∧ (footprintCircle exampleArea).centerY = 0 ∧
    ((100 : Int) - (footprintCircle exampleArea).centerX) ^ 2 +
        ((30 : Int) - (footprintCircle exampleArea).centerY) ^ 2 ≤
      (footprintCircle exampleArea).radius ^ 2 := by
  have hx : 0 < exampleArea.sigmaX := by norm_num [exampleArea]
  have hy : 0 < exampleArea.sigmaY := by norm_num [exampleArea]
  have hwx : WellScaled ((100 : Int) : ℝ) exampleArea.centerX exampleArea.sigmaX :=
    wellScaled_of_moderate _ _ _ (by norm_num [exampleArea, abs_of_pos])
      (by norm_num [exampleArea, abs_of_pos]) (by norm_num [exampleArea, abs_of_pos])
  have hwy : WellScaled ((30 : Int) : ℝ) exampleArea.centerY exampleArea.sigmaY :=
    wellScaled_of_moderate _ _ _ (by norm_num [exampleArea, abs_of_pos])
      (by norm_num [exampleArea, abs_of_pos]) (by norm_num [exampleArea, abs_of_pos])
  have hin : isPointOutsideArea64 ⟨100, 30, 1⟩ exampleArea = false := by
    apply (outside64_margin ⟨100, 30, 1⟩ exampleArea hwx hwy).2
    have hlog := five_halves_lt_log_twenty
    have h36 : (2 : ℝ) ^ (-36 : ℤ) ≤ (2 : ℝ) ^ (-4 : ℤ) :=
      zpow_le_zpow_right₀ (by norm_num) (by norm_num)
    have e4 : (2 : ℝ) ^ (-4 : ℤ) = 1 / 16 := by norm_num
    rw [e4] at h36
    simp only [exampleArea]
    norm_num
    linarith
  have hs : (50 : ℝ) ≤ (2 : ℝ) ^ (29 : ℤ) := by
    have : (2 : ℝ) ^ (6 : ℤ) ≤ (2 : ℝ) ^ (29 : ℤ) :=
      zpow_le_zpow_right₀ (by norm_num) (by norm_num)
    have e6 : (2 : ℝ) ^ (6 : ℤ) = 64 := by norm_num
    rw [e6] at this
    linarith
  have hwide : (2 : ℝ) ≤ max exampleArea.sigmaX exampleArea.sigmaY := by
    norm_num [exampleArea]
  have h := (inside_within_footprint_for_wide_areas ⟨100, 30, 1⟩ exampleArea hx hy hwx hwy
    hin).2 hs hs hwide
  have hc := h.2.2 0 0 (by simp [exampleArea]) (by simp [exampleArea])
    ⟨by norm_num, by norm_num⟩ ⟨by norm_num, by norm_num⟩
  exact ⟨hx, hy, hwx, hwy, hin, hs, hs, hwide, h.2.1, hc.1, hc.2.1, hc.2.2⟩

end MLDemo
